import Mathlib

/-!
# Verification of the KMR hybrid image codec

A shallow embedding, in Lean 4, of the codec core of the `compre` repository:
the binary container (`app/utils/container.ts`), the delta + RLE + canonical
Huffman codec (`utils/huffman.ts`), the QOI codec (`utils/qoi.ts`), the Paeth
residual builder and its inverse (`app/api/compress/route.ts`,
`utils/decode.ts`), and the nodal transform (`utils/algorithm.ts`).

Modelling conventions:
* Byte buffers (`Uint8Array`, `ArrayBuffer`) are `List Nat`, entries in
  `[0, 255]`; where the source masks with `& 0xff` we write `% 256`.
* JavaScript numbers used as integers are `Nat`/`Int`; 32-bit wrap is made
  explicit (`% 2 ^ 32`) exactly where the source relies on it.
* The floating-point YCrCb arithmetic of `utils/algorithm.ts` is embedded
  with exact rational arithmetic (unreduced fractions); the decimal
  coefficient literals are exact.  Theorems touching these values only use
  outputs that are integers far from any rounding boundary, where binary64
  and exact arithmetic agree.
* Fallible code (`throw new Error`) is `Except String`.
* While-loops that are not structurally recursive take an explicit `fuel`
  argument, always instantiated at a bound provably at least the number of
  iterations, so exhaustion is unreachable on the stated inputs.
-/

namespace KMR

/-- RGBA raster: `data` is row-major R,G,B,A with `data.length = 4·w·h`. -/
structure Image where
  width : Nat
  height : Nat
  data : List Nat
  deriving Repr, DecidableEq

/-- List read defaulting to 0 (in-bounds reads of a `Uint8Array`; all reads in
the functions below are in bounds on well-formed inputs). -/
def byteAt (b : List Nat) (i : Nat) : Nat := b.getD i 0

/-! ## Container (`app/utils/container.ts`) -/

/-- ASCII codes of the magic string `KMR1`. -/
def containerMagic : List Nat := [75, 77, 82, 49]

def headerSize : Nat := 32

/-- Big-endian u32 serialization, as `DataView.setUint32(·, ·, false)`. -/
def u32BE (n : Nat) : List Nat :=
  [n / 2 ^ 24 % 256, n / 2 ^ 16 % 256, n / 2 ^ 8 % 256, n % 256]

/-- Fields of `buildContainer`'s input object. -/
structure ContainerInput where
  width : Nat
  height : Nat
  blockSize : Nat
  discardBits : Nat
  smooth : Bool
  qoi : List Nat
  huffmanY : List Nat
  huffmanCb : List Nat
  huffmanCr : List Nat

/-- `buildContainer` (container.ts:18): 32-byte header then the four payload
sections. `Math.floor` on the already-integral parameters is the identity. -/
def buildContainer (c : ContainerInput) : List Nat :=
  let block := max 2 (min 255 c.blockSize)
  let discard := max 0 (min 255 c.discardBits)
  containerMagic ++
    [1, block, discard, if c.smooth then 1 else 0] ++
    u32BE (c.width % 2 ^ 32) ++ u32BE (c.height % 2 ^ 32) ++
    u32BE (c.qoi.length % 2 ^ 32) ++ u32BE (c.huffmanY.length % 2 ^ 32) ++
    u32BE (c.huffmanCb.length % 2 ^ 32) ++ u32BE (c.huffmanCr.length % 2 ^ 32) ++
    c.qoi ++ c.huffmanY ++ c.huffmanCb ++ c.huffmanCr

/-- Result of `parseContainer`. -/
structure ParsedContainer where
  version : Nat
  width : Nat
  height : Nat
  blockSize : Nat
  discardBits : Nat
  smooth : Bool
  qoi : List Nat
  huffmanY : List Nat
  huffmanCb : List Nat
  huffmanCr : List Nat
  totalSize : Nat
  deriving Repr, DecidableEq

/-- `DataView.getUint8`: throws `RangeError` out of bounds. -/
def getU8 (b : List Nat) (i : Nat) : Except String Nat :=
  if h : i < b.length then .ok (b.get ⟨i, h⟩) else .error "RangeError"

/-- `DataView.getUint32(·, false)` (big-endian): throws out of bounds. -/
def getU32 (b : List Nat) (i : Nat) : Except String Nat := do
  let b0 ← getU8 b i
  let b1 ← getU8 b (i + 1)
  let b2 ← getU8 b (i + 2)
  let b3 ← getU8 b (i + 3)
  pure (b0 * 2 ^ 24 + b1 * 2 ^ 16 + b2 * 2 ^ 8 + b3)

/-- `Uint8Array.prototype.slice(a, b)`: clamps both ends to the buffer. -/
def jsSlice (b : List Nat) (a len : Nat) : List Nat := (b.drop a).take len

/-- `parseContainer` (container.ts:87).  Faithful to the source: after the
magic and version checks it reads the six header integers and slices the four
sections; the recorded section lengths are never checked against the buffer
length (`slice` silently clamps). -/
def parseContainer (b : List Nat) : Except String ParsedContainer := do
  let m0 ← getU8 b 0
  let m1 ← getU8 b 1
  let m2 ← getU8 b 2
  let m3 ← getU8 b 3
  if ¬([m0, m1, m2, m3] = containerMagic) then
    throw "Invalid container magic"
  let version ← getU8 b 4
  if ¬(version = 1) then
    throw "Unsupported container version"
  let blockSize ← getU8 b 5
  let discardBits ← getU8 b 6
  let smoothByte ← getU8 b 7
  let width ← getU32 b 8
  let height ← getU32 b 12
  let qoiLen ← getU32 b 16
  let yLen ← getU32 b 20
  let cbLen ← getU32 b 24
  let crLen ← getU32 b 28
  let qoi := jsSlice b 32 qoiLen
  let huffmanY := jsSlice b (32 + qoiLen) yLen
  let huffmanCb := jsSlice b (32 + qoiLen + yLen) cbLen
  let huffmanCr := jsSlice b (32 + qoiLen + yLen + cbLen) crLen
  pure { version := version, width := width, height := height,
         blockSize := blockSize, discardBits := discardBits,
         smooth := smoothByte = 1,
         qoi := qoi, huffmanY := huffmanY, huffmanCb := huffmanCb,
         huffmanCr := huffmanCr, totalSize := b.length }

/-- Big-endian u32 read of four buffer bytes, as a pure function. -/
def recU32 (b : List Nat) (i : Nat) : Nat :=
  byteAt b i * 2 ^ 24 + byteAt b (i + 1) * 2 ^ 16 + byteAt b (i + 2) * 2 ^ 8 +
    byteAt b (i + 3)

/-- Concrete 32-byte container: valid magic and version, `qoiLen` recorded as
5 although no payload follows (so the four lengths plus 32 do not sum to the
buffer length). -/
def c3buf : List Nat :=
  containerMagic ++ [1, 8, 0, 1] ++ u32BE 2 ++ u32BE 2 ++
    u32BE 5 ++ u32BE 0 ++ u32BE 0 ++ u32BE 0

/-- Witness for `parseContainer_accepts_inconsistent_lengths` at the concrete
buffer recording a `qoiLen` of 7 with an empty payload. -/
def c3wbuf : List Nat :=
  containerMagic ++ [1, 4, 0, 0] ++ u32BE 1 ++ u32BE 1 ++
    u32BE 7 ++ u32BE 0 ++ u32BE 0 ++ u32BE 0

/-- Concrete 32-byte container whose smooth byte (offset 7) is 2. -/
def c5buf : List Nat :=
  containerMagic ++ [1, 8, 0, 2] ++ u32BE 2 ++ u32BE 2 ++
    u32BE 0 ++ u32BE 0 ++ u32BE 0 ++ u32BE 0

/-- Witness for `parseContainer_smooth_iff_byte_one` at a concrete buffer
whose smooth byte is 1. -/
def c5wbuf : List Nat :=
  containerMagic ++ [1, 2, 0, 1] ++ u32BE 3 ++ u32BE 3 ++
    u32BE 0 ++ u32BE 0 ++ u32BE 0 ++ u32BE 0

/-! ## Paeth predictor (`app/api/compress/route.ts` / `utils/decode.ts`) -/

/-- The Paeth selector shared by `buildResidualImage` (route.ts:43) and
`decodePaethResidual` (decode.ts:5): `p = A + B − C`, pick the neighbor with
the least `|p − ·|`, ties resolved A, then B, then C. -/
def paeth (a b c : Nat) : Nat :=
  let p : Int := (a : Int) + b - c
  let pa := (p - a).natAbs
  let pb := (p - b).natAbs
  let pc := (p - c).natAbs
  if pa ≤ pb ∧ pa ≤ pc then a else if pb ≤ pc then b else c

/-- Row-major pixel coordinates `(x, y)`, the iteration order of the nested
`for (y) for (x)` loops. -/
def rasterPositions (w h : Nat) : List (Nat × Nat) :=
  (List.range h).flatMap fun y => (List.range w).map fun x => (x, y)

/-- The per-channel prediction `pred(c)` at `(x, y)`: left, up and up-left
neighbors read through `read` (missing neighbors are 0). -/
def paethPred (read : Nat → Nat) (w x y c : Nat) : Nat :=
  let a := if 0 < x then read ((y * w + (x - 1)) * 4 + c) else 0
  let b := if 0 < y then read (((y - 1) * w + x) * 4 + c) else 0
  let cc := if 0 < x ∧ 0 < y then read (((y - 1) * w + (x - 1)) * 4 + c) else 0
  paeth a b cc

/-- The four output bytes of `buildResidualImage` for the pixel at `(x, y)`:
`(src − pred + 256) & 0xff` on R, G, B, and the source alpha unchanged.
Predictions read the source image `data` itself. -/
def residualPix (w : Nat) (data : List Nat) (xy : Nat × Nat) : List Nat :=
  let o := (xy.2 * w + xy.1) * 4
  let pr := fun c => paethPred (byteAt data) w xy.1 xy.2 c
  [(byteAt data o + 256 - pr 0) % 256,
   (byteAt data (o + 1) + 256 - pr 1) % 256,
   (byteAt data (o + 2) + 256 - pr 2) % 256,
   byteAt data (o + 3)]

/-- `buildResidualImage` (route.ts:24): every pixel of the output is computed
from the input image only, in raster order. -/
def buildResidualImage (img : Image) : Image :=
  { width := img.width, height := img.height,
    data := (rasterPositions img.width img.height).flatMap
      (residualPix img.width img.data) }

/-- One pixel of `decodePaethResidual`'s reconstruction loop: predictions
read the already-reconstructed output `out` (causal), then the residual bytes
are added mod 256 and the alpha byte is copied. -/
def decodeStep (w : Nat) (data : List Nat) (out : List Nat) (xy : Nat × Nat) :
    List Nat :=
  let o := (xy.2 * w + xy.1) * 4
  let pr := fun c => paethPred (byteAt out) w xy.1 xy.2 c
  out ++
    [(byteAt data o + pr 0) % 256,
     (byteAt data (o + 1) + pr 1) % 256,
     (byteAt data (o + 2) + pr 2) % 256,
     byteAt data (o + 3)]

/-- `decodePaethResidual` (decode.ts:15): left-to-right, top-to-bottom
reconstruction writing four bytes per pixel.  The source writes into a
pre-allocated `Uint8ClampedArray` at index `(y·w + x)·4 + c`, which in raster
order is exactly the next free position, so the output is modelled as the
accumulated list of written bytes (for a well-formed residual,
`data.length = 4·w·h`, the buffer is filled exactly once left to right). -/
def decodePaethResidual (res : Image) : Image :=
  { width := res.width, height := res.height,
    data := (rasterPositions res.width res.height).foldl
      (decodeStep res.width res.data) [] }

/-- Witness for `paeth_inverse_forward` at a concrete 2×2 gradient image. -/
def c7wimg : Image :=
  ⟨2, 2, [0, 0, 0, 255, 64, 64, 64, 255, 128, 128, 128, 255, 255, 255, 255, 255]⟩

/-- Witness for `buildResidual_alpha_passthrough` at a 1×1 image with a
non-opaque alpha byte. -/
def c4wimg : Image := ⟨1, 1, [9, 8, 7, 42]⟩

/-! ## Nodal transform (`utils/algorithm.ts`)

The source computes the YCrCb conversions in IEEE-754 binary64; here the
arithmetic is exact rational arithmetic on unnormalized
numerator/denominator pairs (`Frac`, kept unreduced so that the kernel can
evaluate it), with the decimal literals taken exactly.  Theorems below
depend only on integer-valued outputs of this function (pixel copies at
`discardBits = 0`, the constant 255 alpha plane, grid dimensions, and nodal
bytes whose exact values are far from rounding boundaries), never on a
float-rounding-sensitive channel value. -/

/-- Exact rational value as an unreduced fraction; every denominator
arising below is positive. -/
structure Frac where
  num : Int
  den : Int
  deriving Repr, DecidableEq

def fofn (n : Nat) : Frac := ⟨n, 1⟩

def fofi (n : Int) : Frac := ⟨n, 1⟩

def fadd (a b : Frac) : Frac := ⟨a.num * b.den + b.num * a.den, a.den * b.den⟩

def fsub (a b : Frac) : Frac := ⟨a.num * b.den - b.num * a.den, a.den * b.den⟩

def fmul (a b : Frac) : Frac := ⟨a.num * b.num, a.den * b.den⟩

def fdivF (a b : Frac) : Frac := ⟨a.num * b.den, a.den * b.num⟩

/-- Comparison, valid for the positive denominators used here. -/
def fle (a b : Frac) : Bool := a.num * b.den ≤ b.num * a.den

def fmin (a b : Frac) : Frac := if fle a b then a else b

def fmax (a b : Frac) : Frac := if fle a b then b else a

def ffloor (q : Frac) : Int := q.num.fdiv q.den

/-- Result record of `processImageFrame`. -/
structure ProcessResult where
  processedImageData : Image
  nodalPointsY : List Int
  nodalPointsCb : List Int
  nodalPointsCr : List Int
  deriving Repr, DecidableEq

/-- `Math.round`: round half toward positive infinity, `⌊q + 1/2⌋`. -/
def jsRound (q : Frac) : Int := ffloor (fadd q ⟨1, 2⟩)

/-- `Uint8ClampedArray` conversion of an already-[0,255]-clamped value:
round half to even. -/
def clampRoundHalfEven (q : Frac) : Nat :=
  let f := ffloor q
  let t := 2 * (q.num - f * q.den)
  if t < q.den then f.toNat
  else if q.den < t then (f + 1).toNat
  else if f % 2 = 0 then f.toNat else (f + 1).toNat

/-- RGB → YCrCb of algorithm.ts (Y, Cb, Cr); the decimal coefficients are
exact. -/
def ycbcr (r g b : Nat) : Frac × Frac × Frac :=
  (fadd (fadd (fmul ⟨299, 1000⟩ (fofn r)) (fmul ⟨587, 1000⟩ (fofn g)))
     (fmul ⟨114, 1000⟩ (fofn b)),
   fadd (fadd (fadd (fmul ⟨-1687, 10000⟩ (fofn r))
     (fmul ⟨-3313, 10000⟩ (fofn g))) (fmul ⟨1, 2⟩ (fofn b))) (fofn 128),
   fadd (fadd (fadd (fmul ⟨1, 2⟩ (fofn r)) (fmul ⟨-4187, 10000⟩ (fofn g)))
     (fmul ⟨-813, 10000⟩ (fofn b))) (fofn 128))

/-- `quantize` (algorithm.ts:43): round, and for `discard > 0` drop the low
bits and mask to a byte.  All values quantized by the source are in
`[0, 255]`, so the `Int.toNat` is exact. -/
def quantize (discard : Nat) (val : Frac) : Int :=
  let rounded := jsRound val
  if discard = 0 then rounded
  else (((rounded.toNat >>> discard) <<< discard) &&& 255 : Nat)

/-- Sum of Y, Cb, Cr over one tile, with the pixel count. -/
def tileSum (w : Nat) (data : List Nat) (xStart yStart xEnd yEnd : Nat) :
    Frac × Frac × Frac × Nat :=
  (List.range' yStart (yEnd - yStart)).foldl (fun acc y =>
    (List.range' xStart (xEnd - xStart)).foldl (fun acc x =>
      let o := (y * w + x) * 4
      let t := ycbcr (byteAt data o) (byteAt data (o + 1)) (byteAt data (o + 2))
      (fadd acc.1 t.1, fadd acc.2.1 t.2.1, fadd acc.2.2.1 t.2.2,
        acc.2.2.2 + 1)) acc)
    (fofn 0, fofn 0, fofn 0, 0)

/-- Nodal triple of one grid cell `(gx, gy)` (algorithm.ts:49-90): tile mean
of Y, Cb, Cr, the chroma means clamped to `[0, 255]`, each quantized; an
empty tile keeps the zero-initialized node. -/
def nodalOf (w h block discard : Nat) (data : List Nat) (g : Nat × Nat) :
    Int × Int × Int :=
  let xStart := g.1 * block
  let yStart := g.2 * block
  let xEnd := min w (xStart + block)
  let yEnd := min h (yStart + block)
  let s := tileSum w data xStart yStart xEnd yEnd
  let count := s.2.2.2
  if count = 0 then (0, 0, 0)
  else
    (quantize discard (fdivF s.1 (fofn count)),
     quantize discard (fmin (fofn 255) (fmax (fofn 0) (fdivF s.2.1 (fofn count)))),
     quantize discard (fmin (fofn 255) (fmax (fofn 0) (fdivF s.2.2.1 (fofn count)))))

/-- `lerp` (algorithm.ts:93). -/
def lerp (a b t : Frac) : Frac := fadd a (fmul (fsub b a) t)

/-- The bilinear (smooth) reconstruction of one output pixel
(algorithm.ts:131-172). -/
def smoothPix (w h block gridWidth gridHeight : Nat)
    (nY nCb nCr : List Int) (xy : Nat × Nat) : List Nat :=
  let x := xy.1
  let y := xy.2
  let gy := y / block
  let gy1 := min (gy + 1) (gridHeight - 1)
  let y0 := gy * block
  let y1 := min (h - 1) ((gy + 1) * block)
  let ty : Frac := if y1 = y0 then fofn 0
    else fdivF (fsub (fofn y) (fofn y0)) (fsub (fofn y1) (fofn y0))
  let gx := x / block
  let gx1 := min (gx + 1) (gridWidth - 1)
  let x0 := gx * block
  let x1 := min (w - 1) ((gx + 1) * block)
  let tx : Frac := if x1 = x0 then fofn 0
    else fdivF (fsub (fofn x) (fofn x0)) (fsub (fofn x1) (fofn x0))
  let idx00 := gy * gridWidth + gx
  let idx10 := gy * gridWidth + gx1
  let idx01 := gy1 * gridWidth + gx
  let idx11 := gy1 * gridWidth + gx1
  let nv := fun (n : List Int) (i : Nat) => fofi (n.getD i 0)
  let yVal := lerp (lerp (nv nY idx00) (nv nY idx10) tx)
    (lerp (nv nY idx01) (nv nY idx11) tx) ty
  let cbVal := fsub (lerp (lerp (nv nCb idx00) (nv nCb idx10) tx)
    (lerp (nv nCb idx01) (nv nCb idx11) tx) ty) (fofn 128)
  let crVal := fsub (lerp (lerp (nv nCr idx00) (nv nCr idx10) tx)
    (lerp (nv nCr idx01) (nv nCr idx11) tx) ty) (fofn 128)
  let r := fadd yVal (fmul ⟨1402, 1000⟩ crVal)
  let g := fsub (fsub yVal (fmul ⟨34414, 100000⟩ cbVal))
    (fmul ⟨71414, 100000⟩ crVal)
  let b := fadd yVal (fmul ⟨1772, 1000⟩ cbVal)
  [clampRoundHalfEven (fmin (fofn 255) (fmax (fofn 0) r)),
   clampRoundHalfEven (fmin (fofn 255) (fmax (fofn 0) g)),
   clampRoundHalfEven (fmin (fofn 255) (fmax (fofn 0) b)), 255]

/-- The flat (non-smooth) reconstruction of one output pixel
(algorithm.ts:98-129): every pixel of a tile receives the color converted
from that tile's node.  The source iterates tiles and fills their pixels;
pixel `(x, y)` belongs to exactly the tile `(x / block, y / block)`, so the
per-pixel formulation writes the same bytes. -/
def flatPix (gridWidth block : Nat) (nY nCb nCr : List Int) (xy : Nat × Nat) :
    List Nat :=
  let idx := (xy.2 / block) * gridWidth + (xy.1 / block)
  let yv : Frac := fofi (nY.getD idx 0)
  let cbv : Frac := fofi (nCb.getD idx 0 - 128)
  let crv : Frac := fofi (nCr.getD idx 0 - 128)
  let r := fadd yv (fmul ⟨1402, 1000⟩ crv)
  let g := fsub (fsub yv (fmul ⟨34414, 100000⟩ cbv)) (fmul ⟨71414, 100000⟩ crv)
  let b := fadd yv (fmul ⟨1772, 1000⟩ cbv)
  [clampRoundHalfEven (fmin (fofn 255) (fmax (fofn 0) r)),
   clampRoundHalfEven (fmin (fofn 255) (fmax (fofn 0) g)),
   clampRoundHalfEven (fmin (fofn 255) (fmax (fofn 0) b)), 255]

/-- `processImageFrame` (algorithm.ts:24): nodal extraction with optional
quantization, then preview reconstruction (copy for `discard = 0`, flat fill
or bilinear otherwise). -/
def processImageFrame (img : Image) (blockSize discardBits : Nat)
    (smooth : Bool) : ProcessResult :=
  let w := img.width
  let h := img.height
  let data := img.data
  let block := max 2 blockSize
  let discard := min 6 discardBits
  let gridWidth := (w + block - 1) / block
  let gridHeight := (h + block - 1) / block
  let nodes := (rasterPositions gridWidth gridHeight).map
    (nodalOf w h block discard data)
  let nY := nodes.map (·.1)
  let nCb := nodes.map (·.2.1)
  let nCr := nodes.map (·.2.2)
  let outputData :=
    if discard = 0 then data
    else if smooth then
      (rasterPositions w h).flatMap
        (smoothPix w h block gridWidth gridHeight nY nCb nCr)
    else
      (rasterPositions w h).flatMap (flatPix gridWidth block nY nCb nCr)
  { processedImageData := ⟨w, h, outputData⟩,
    nodalPointsY := nY, nodalPointsCb := nCb, nodalPointsCr := nCr }

/-- Concrete 1×1 source image whose single pixel has alpha 7. -/
def c4img : Image := ⟨1, 1, [10, 20, 30, 7]⟩

/-! ## QOI codec (`utils/qoi.ts`) -/

def qoiHash (r g b a : Nat) : Nat := (r * 3 + g * 5 + b * 7 + a * 11) % 64

/-- Sign extension of the low 8 bits, i.e. the JS idiom `(x << 24) >> 24`. -/
def signed8 (d : Int) : Int :=
  let m := d.emod 256
  if 128 ≤ m then m - 256 else m

/-- 32-bit signed reinterpretation, i.e. the value of a JS `x | 0`. -/
def toInt32 (n : Nat) : Int :=
  let m : Nat := n % 2 ^ 32
  if 2 ^ 31 ≤ m then (m : Int) - 2 ^ 32 else (m : Int)

/-- State of the QOI encoder: previous pixel, pending run, 64-entry (×4
bytes) index, and emitted bytes. -/
structure QoiEnc where
  pxR : Nat
  pxG : Nat
  pxB : Nat
  pxA : Nat
  run : Nat
  index : Array Nat
  out : List Nat

def aGet (a : Array Nat) (i : Nat) : Nat := a.getD i 0

def aSet (a : Array Nat) (i : Nat) (v : Nat) : Array Nat := a.setD i v

/-- One source pixel of `encodeQOI` (qoi.ts:66-161): run extension/flush,
index hit, then DIFF / LUMA / RGB / RGBA emission. -/
def qoiEncStep (st : QoiEnc) (r g b a : Nat) : QoiEnc :=
  if r = st.pxR ∧ g = st.pxG ∧ b = st.pxB ∧ a = st.pxA then
    let run := st.run + 1
    if run = 62 then
      { st with run := 0, out := st.out ++ [0xC0 ||| (run - 1)] }
    else
      { st with run := run }
  else
    let flushed := if 0 < st.run then st.out ++ [0xC0 ||| (st.run - 1)] else st.out
    let pos := qoiHash r g b a
    let off := pos * 4
    if aGet st.index off = r ∧ aGet st.index (off + 1) = g ∧
        aGet st.index (off + 2) = b ∧ aGet st.index (off + 3) = a then
      { pxR := r, pxG := g, pxB := b, pxA := a, run := 0, index := st.index,
        out := flushed ++ [0x00 ||| pos] }
    else
      let index := aSet (aSet (aSet (aSet st.index off r) (off + 1) g)
        (off + 2) b) (off + 3) a
      let bytes :=
        if a = st.pxA then
          let vr := signed8 ((r : Int) - st.pxR)
          let vg := signed8 ((g : Int) - st.pxG)
          let vb := signed8 ((b : Int) - st.pxB)
          if -3 < vr ∧ vr < 2 ∧ -3 < vg ∧ vg < 2 ∧ -3 < vb ∧ vb < 2 then
            [0x40 ||| ((vr + 2).toNat <<< 4) ||| ((vg + 2).toNat <<< 2) |||
              (vb + 2).toNat]
          else
            let dr := signed8 (vr - vg)
            let db := signed8 (vb - vg)
            if -33 < vg ∧ vg < 32 ∧ -9 < dr ∧ dr < 8 ∧ -9 < db ∧ db < 8 then
              [0x80 ||| (vg + 32).toNat, ((dr + 8).toNat <<< 4) ||| (db + 8).toNat]
            else
              [0xFE, r, g, b]
        else
          [0xFF, r, g, b, a]
      { pxR := r, pxG := g, pxB := b, pxA := a, run := 0, index := index,
        out := flushed ++ bytes }

/-- `encodeQOI` (qoi.ts:19): 14-byte header, per-pixel ops, final run flush,
and the 7×0x00, 0x01 end marker. -/
def encodeQOI (img : Image) : List Nat :=
  let total := img.width * img.height
  let init : QoiEnc :=
    ⟨0, 0, 0, 255, 0, Array.mkArray 256 0, []⟩
  let fin := (List.range total).foldl (fun st i =>
    qoiEncStep st (byteAt img.data (4 * i)) (byteAt img.data (4 * i + 1))
      (byteAt img.data (4 * i + 2)) (byteAt img.data (4 * i + 3))) init
  [113, 111, 105, 102] ++ u32BE (img.width % 2 ^ 32) ++
    u32BE (img.height % 2 ^ 32) ++ [4, 0] ++ fin.out ++
    (if 0 < fin.run then [0xC0 ||| (fin.run - 1)] else []) ++
    [0, 0, 0, 0, 0, 0, 0, 1]

/-- State of the QOI decoder. -/
structure QoiDec where
  pxR : Nat
  pxG : Nat
  pxB : Nat
  pxA : Nat
  run : Nat
  index : Array Nat
  p : Nat
  out : List Nat

/-- One iteration of the `decodeQOI` loop (qoi.ts:198-247): consume a pending
run or read one op (updating the index after every op), then emit the four
current pixel bytes.  Out-of-range reads (impossible on encoder output, whose
op stream ends 9 bytes before the buffer end) are modelled as 0. -/
def qoiDecStep (bytes : List Nat) (st : QoiDec) : QoiDec :=
  if 0 < st.run then
    { st with
      run := st.run - 1
      out := st.out ++ [st.pxR, st.pxG, st.pxB, st.pxA] }
  else
    let b1 := byteAt bytes st.p
    let st :=
      if b1 = 0xFE then
        { st with
          pxR := byteAt bytes (st.p + 1)
          pxG := byteAt bytes (st.p + 2)
          pxB := byteAt bytes (st.p + 3)
          p := st.p + 4 }
      else if b1 = 0xFF then
        { st with
          pxR := byteAt bytes (st.p + 1)
          pxG := byteAt bytes (st.p + 2)
          pxB := byteAt bytes (st.p + 3)
          pxA := byteAt bytes (st.p + 4)
          p := st.p + 5 }
      else if b1 &&& 0xC0 = 0x00 then
        let idx := (b1 &&& 0x3F) * 4
        { st with
          pxR := aGet st.index idx
          pxG := aGet st.index (idx + 1)
          pxB := aGet st.index (idx + 2)
          pxA := aGet st.index (idx + 3)
          p := st.p + 1 }
      else if b1 &&& 0xC0 = 0x40 then
        { st with
          pxR := ((st.pxR + ((b1 >>> 4) &&& 0x03) + 256) - 2) % 256
          pxG := ((st.pxG + ((b1 >>> 2) &&& 0x03) + 256) - 2) % 256
          pxB := ((st.pxB + (b1 &&& 0x03) + 256) - 2) % 256
          p := st.p + 1 }
      else if b1 &&& 0xC0 = 0x80 then
        let b2 := byteAt bytes (st.p + 1)
        let vg : Int := ((b1 &&& 0x3F : Nat) : Int) - 32
        let dr : Int := (((b2 >>> 4) &&& 0x0F : Nat) : Int) - 8
        let db : Int := ((b2 &&& 0x0F : Nat) : Int) - 8
        { st with
          pxR := (((st.pxR : Int) + vg + dr + 256).emod 256).toNat
          pxG := (((st.pxG : Int) + vg + 256).emod 256).toNat
          pxB := (((st.pxB : Int) + vg + db + 256).emod 256).toNat
          p := st.p + 2 }
      else
        { st with
          run := b1 &&& 0x3F
          p := st.p + 1 }
    let ip := qoiHash st.pxR st.pxG st.pxB st.pxA * 4
    let index := aSet (aSet (aSet (aSet st.index ip st.pxR) (ip + 1) st.pxG)
      (ip + 2) st.pxB) (ip + 3) st.pxA
    { st with
      index := index
      out := st.out ++ [st.pxR, st.pxG, st.pxB, st.pxA] }

/-- The decode loop: one pixel per iteration while pixels remain and
`p < |bytes| − 8`.  `remaining` counts pixels still to produce, which the
source tracks as `pxPos < pixels.length` (each iteration advances `pxPos`
by 4). -/
def qoiDecLoop (bytes : List Nat) (remaining : Nat) (st : QoiDec) : QoiDec :=
  match remaining with
  | 0 => st
  | n + 1 =>
      if st.p + 8 < bytes.length then
        qoiDecLoop bytes n (qoiDecStep bytes st)
      else
        st

/-- `decodeQOI` (qoi.ts:176): header checks, the op loop, and the
zero-filled remainder of the pre-allocated pixel buffer when the loop stops
early.  Width and height are read with signed 32-bit shifts as in the
source; a negative pixel-buffer size is the `RangeError` of the
`Uint8ClampedArray` constructor. -/
def decodeQOI (bytes : List Nat) : Except String Image :=
  if bytes.length < 14 + 8 then
    .error "QOI stream too small"
  else if ¬(byteAt bytes 0 = 113 ∧ byteAt bytes 1 = 111 ∧
      byteAt bytes 2 = 105 ∧ byteAt bytes 3 = 102) then
    .error "Invalid QOI magic"
  else if ¬(byteAt bytes 12 = 4) then
    .error "Only RGBA QOI is supported"
  else
    let w := toInt32 (byteAt bytes 4 * 2 ^ 24 + byteAt bytes 5 * 2 ^ 16 +
      byteAt bytes 6 * 2 ^ 8 + byteAt bytes 7)
    let h := toInt32 (byteAt bytes 8 * 2 ^ 24 + byteAt bytes 9 * 2 ^ 16 +
      byteAt bytes 10 * 2 ^ 8 + byteAt bytes 11)
    if w * h < 0 then
      .error "RangeError"
    else
      let total := (w * h).toNat
      let st := qoiDecLoop bytes total
        ⟨0, 0, 0, 255, 0, Array.mkArray 256 0, 14, []⟩
      .ok ⟨w.toNat, h.toNat, st.out ++ List.replicate (4 * total - st.out.length) 0⟩

/-- Concrete 1×2 image: two identical fully-transparent-free black pixels. -/
def c6img : Image := ⟨1, 2, [0, 0, 0, 255, 0, 0, 0, 255]⟩

/-! ## Huffman codec (`utils/huffman.ts`) -/

def RLE_MARKER : Nat := 0xff

/-- `deltaEncode` (huffman.ts:155): running difference from 0, clamped to
`[−128, 127]`, biased by +128 into a byte; `prev` tracks the unclamped
input value. -/
def deltaEncode (data : List Int) : List Nat :=
  (data.foldl (fun (acc : List Nat × Int) v =>
    let diff := max (-128) (min 127 (v - acc.2))
    (acc.1 ++ [(diff + 128).toNat &&& 255], v)) ([], 0)).1

/-- Length of the equal-prefix of a list, capped (the source bounds a run at
255 bytes in total, i.e. at most 254 extensions). -/
def countEq (v : Nat) : List Nat → Nat → Nat
  | [], _ => 0
  | x :: xs, cap => if x = v ∧ 0 < cap then 1 + countEq v xs (cap - 1) else 0

/-- One pass of `rleEncode` (huffman.ts:170): take the maximal run (≤ 255)
of the head value; emit a `{0xFF, run, value}` group when the run has length
at least 3 or the value is the marker, else the literal bytes.  `fuel` bounds
the iteration count; `rleEncode` passes the input length, which suffices
because every step consumes at least one byte. -/
def rleGo : Nat → List Nat → List Nat
  | 0, _ => []
  | _, [] => []
  | fuel + 1, v :: rest =>
      let k := countEq v rest 254
      let run := 1 + k
      (if 3 ≤ run ∨ v = RLE_MARKER then [RLE_MARKER, run, v]
       else List.replicate run v) ++ rleGo fuel (rest.drop k)

def rleEncode (data : List Nat) : List Nat := rleGo data.length data

/-- The `Map<number, number>` of byte frequencies: association list in
first-occurrence (insertion) order, as JS `Map` iteration guarantees. -/
def countFreqs (l : List Nat) : List (Nat × Nat) :=
  l.foldl (fun acc v =>
    if acc.any (fun p => p.1 = v) then
      acc.map (fun p => if p.1 = v then (p.1, p.2 + 1) else p)
    else acc ++ [(v, 1)]) []

/-- Huffman trees of `buildCodeLengths`; leaves carry symbols. -/
inductive HTree where
  | leaf (sym : Nat)
  | node (l r : HTree)
  deriving Repr, DecidableEq

/-- The queue insertion of huffman.ts:224-227: place the parent before the
first element of frequency ≥ its own. -/
def insertByFreq (p : Nat × HTree) : List (Nat × HTree) → List (Nat × HTree)
  | [] => [p]
  | q :: qs => if q.1 < p.1 then q :: insertByFreq p qs else p :: q :: qs

/-- The combining loop of `buildCodeLengths`: repeatedly merge the two
lowest-frequency trees.  `fuel` bounds iterations; the queue length drops by
one per step, so the initial queue length suffices. -/
def combineGo : Nat → List (Nat × HTree) → Option HTree
  | _, [] => none
  | _, [t] => some t.2
  | 0, _ => none
  | fuel + 1, a :: b :: rest =>
      combineGo fuel (insertByFreq (a.1 + b.1, HTree.node a.2 b.2) rest)

/-- The `walk` of huffman.ts:231-238: depth-first leaf depths (left before
right), `depth || 1`. -/
def walkDepths : HTree → Nat → List (Nat × Nat)
  | .leaf s, d => [(s, if d = 0 then 1 else d)]
  | .node l r, d => walkDepths l (d + 1) ++ walkDepths r (d + 1)

/-- Stable insertion of `x` (an earlier element) into an already sorted
list: `x` passes only elements strictly below it, so equal elements keep
their original order — the stability ECMAScript guarantees for
`Array.prototype.sort`. -/
def jsSortInsert (le : α → α → Bool) (x : α) : List α → List α
  | [] => [x]
  | y :: ys => if le y x ∧ ¬ le x y then y :: jsSortInsert le x ys
               else x :: y :: ys

/-- Stable sort with a boolean `≤` comparator (insertion sort).  Models
`Array.prototype.sort` with a consistent comparator: any stable sorting
algorithm produces this exact list. -/
def jsSort (le : α → α → Bool) : List α → List α
  | [] => []
  | x :: xs => jsSortInsert le x (jsSort le xs)

/-- `buildCodeLengths` (huffman.ts:208): stable sort of the frequency entries
by frequency, tree construction, then leaf depths.  A single-symbol alphabet
gets code length 1. -/
def buildCodeLengths (freqs : List (Nat × Nat)) : List (Nat × Nat) :=
  let queue := jsSort (fun a b => a.1 ≤ b.1)
    (freqs.map (fun p => (p.2, HTree.leaf p.1)))
  match queue with
  | [] => []
  | [t] => match t.2 with
           | .leaf s => [(s, 1)]
           | _ => []
  | _ => match combineGo queue.length queue with
         | some t => walkDepths t 0
         | none => []

/-- The canonical sort of huffman.ts:260: length ascending, then symbol
ascending (total on distinct symbols, so stability is irrelevant). -/
def canonSort (cl : List (Nat × Nat)) : List (Nat × Nat) :=
  jsSort (fun a b => a.2 < b.2 ∨ (a.2 = b.2 ∧ a.1 ≤ b.1)) cl

/-- The canonical code recurrence for all entries after the first:
`code = (prev + 1) <<< (len − prevLen)`. -/
def assignRest (code prevLen : Nat) : List (Nat × Nat) → List (Nat × Nat × Nat)
  | [] => []
  | (s, l) :: rest =>
      let c := (code + 1) <<< (l - prevLen)
      (s, l, c) :: assignRest c l rest

/-- Canonical code assignment (huffman.ts:268-279): the first sorted symbol
gets code 0, the rest follow the recurrence; entries are
`(symbol, len, code)`. -/
def assignCodes : List (Nat × Nat) → List (Nat × Nat × Nat)
  | [] => []
  | (s, l) :: rest => (s, l, 0) :: assignRest 0 l rest

/-- The `codes`/`lens` direct-lookup arrays, as a lookup over the assignment
(symbols are distinct): returns `(code, len)`. -/
def codeOf (codes : List (Nat × Nat × Nat)) (sym : Nat) : Nat × Nat :=
  match codes.find? (fun t => t.1 = sym) with
  | some (_, l, c) => (c, l)
  | none => (0, 0)

/-- MSB-first bits of the `l`-bit code `c`, as pushed by the bit loop of
huffman.ts:310-313. -/
def codeBits (c l : Nat) : List Nat :=
  (List.range l).reverse.map (fun b => (c >>> b) &&& 1)

/-- Bit-packing state: emitted bytes, accumulator, pending bit count, and
the current capacity of the output `Uint8Array` (writes land at the end of
`out`, since the source writes sequentially at `outPos = out.length`). -/
structure BitPack where
  out : List Nat
  acc : Nat
  pending : Nat
  bufLen : Nat

/-- Push one bit (huffman.ts:310-325): flush a full byte, doubling the
buffer first when `outPos` has reached its capacity. -/
def pushBit (st : BitPack) (bit : Nat) : BitPack :=
  let acc := (st.acc <<< 1) ||| bit
  let pending := st.pending + 1
  if pending = 8 then
    let bufLen := if st.bufLen ≤ st.out.length then st.bufLen * 2 else st.bufLen
    { out := st.out ++ [acc], acc := 0, pending := 0, bufLen := bufLen }
  else
    { st with acc := acc, pending := pending }

/-- `encodeHuffman` (huffman.ts:246): delta, RLE, code lengths, canonical
codes, then the header (`count` — truncated to a byte by the `Uint8Array`
store — then `(symbol, len)` pairs in canonical order) and the MSB-first
bit-packed body, zero-padded.  The final flush
(huffman.ts:330-333) performs no capacity check: a flush byte landing
exactly at capacity is dropped (`slice` then clamps), which the embedding
reproduces through `bufLen`. -/
def encodeHuffman (data : List Int) : List Nat :=
  if data.length = 0 then []
  else
    let deltas := deltaEncode data
    let rle := rleEncode deltas
    let freqs := countFreqs rle
    let codeLens := canonSort (buildCodeLengths freqs)
    let codes := assignCodes codeLens
    let estimatedSize := 1 + codeLens.length * 2 + rle.length
    let header := [codeLens.length % 256] ++ codeLens.flatMap (fun p => [p.1, p.2])
    let packed := rle.foldl (fun st sym =>
      let cl := codeOf codes sym
      (codeBits cl.1 cl.2).foldl pushBit st)
      ⟨header, 0, 0, estimatedSize * 2⟩
    if 0 < packed.pending then
      if packed.out.length < packed.bufLen then
        packed.out ++ [packed.acc <<< (8 - packed.pending)]
      else
        packed.out
    else
      packed.out

/-! ### Huffman decoder

`decodeHuffman` (huffman.ts:340) computes with JS numbers that can become
`undefined` (out-of-bounds typed-array or property reads) or `NaN`
(arithmetic on `undefined`); both propagate through arithmetic and make
every `<`-comparison false.  They are modelled as `none : Option Int`.
Typed-array writes at an out-of-range or non-numeric index are dropped, and
a `NaN`/`undefined` value stores as 0 — as in JS. -/

/-- 32-bit signed wrap of an integer (JS `ToInt32`). -/
def int32Wrap (x : Int) : Int :=
  let m := x.emod (2 ^ 32)
  if 2 ^ 31 ≤ m then m - 2 ^ 32 else m

/-- JS addition where either side may be `undefined`/`NaN`. -/
def jadd : Option Int → Option Int → Option Int
  | some a, some b => some (a + b)
  | _, _ => none

/-- JS `<` — false whenever a side is `undefined`/`NaN`. -/
def jltB : Option Int → Option Int → Bool
  | some a, some b => decide (a < b)
  | _, _ => false

/-- JS `x << 1` as in `currentCode <<= 1`: `ToInt32` of the operand (`NaN`
becomes 0), doubled, wrapped. -/
def jsShl1 : Option Int → Option Int
  | some c => some (int32Wrap (int32Wrap c * 2))
  | none => some 0

/-- `Int32Array` store at a possibly-`undefined` index with a
possibly-`NaN` value. -/
def i32store (a : Array Int) (idx : Option Int) (v : Option Int) : Array Int :=
  match idx with
  | some i =>
      if 0 ≤ i ∧ i < (a.size : Int) then
        a.setD i.toNat (match v with | some x => int32Wrap x | none => 0)
      else a
  | none => a

/-- Read `lenCounts[len]`: a real count for an in-range index, `undefined`
otherwise (index 33…255 is out of the 33-entry array; an `undefined` index
reads the stray ordinary property, which holds `NaN` when it exists). -/
def lcRead (lenCounts : Array Nat) : Option Int → Option Int
  | some l => if 0 ≤ l ∧ l < 33 then some (lenCounts.getD l.toNat 0) else none
  | none => none

/-- The sort comparator of huffman.ts:367 under JS coercions:
`a.len === b.len ? a.symbol - b.symbol : a.len - b.len`, where a `NaN`
comparator result counts as 0 (equal).  `undefined === undefined` is true. -/
def jsCmpLe (a b : Option Nat × Option Nat) : Bool :=
  match a.2, b.2 with
  | some la, some lb =>
      if la = lb then
        match a.1, b.1 with
        | some sa, some sb => sa ≤ sb
        | _, _ => true
      else la ≤ lb
  | none, none =>
      match a.1, b.1 with
      | some sa, some sb => sa ≤ sb
      | _, _ => true
  | _, _ => true

/-- State of the canonical-table reconstruction loop (huffman.ts:397-423). -/
structure TableState where
  i : Option Int
  currentCode : Option Int
  currentLen : Option Int
  symbolOffset : Option Int
  minCode : Array Int
  maxCode : Array Int
  valPtr : Array Int

/-- The `while (currentLen < len)` shift loop.  255 iterations suffice: when
the condition can hold, `len` is a header byte < 256 and `currentLen` a
non-negative value. -/
def shlLoop : Nat → Option Int → Option Int → Option Int → Option Int × Option Int
  | 0, c, cl, _ => (c, cl)
  | fuel + 1, c, cl, len =>
      if jltB cl len then shlLoop fuel (jsShl1 c) (jadd cl (some 1)) len
      else (c, cl)

/-- The table loop: per group of equal code length, record `minCode`,
`valPtr`, `maxCode` and advance by the group size.  `i` leaves the defined
world (exiting the loop) exactly when a length is `undefined` or ≥ 33, as in
the source where `i += NaN` ends the loop.  Each productive iteration
advances `i` by at least 1, so `sorted.length + 1` fuel suffices. -/
def tableGo : Nat → List (Option Nat × Option Nat) → Array Nat → TableState →
    TableState
  | 0, _, _, st => st
  | fuel + 1, sorted, lenCounts, st =>
      if jltB st.i (some sorted.length) then
        let len : Option Int := match st.i with
          | some iv => ((sorted.getD iv.toNat (none, none)).2).map (Nat.cast)
          | none => none
        let s1 := shlLoop 255 st.currentCode st.currentLen len
        let minCode := i32store st.minCode len s1.1
        let valPtr := i32store st.valPtr len st.symbolOffset
        let countForLen := lcRead lenCounts len
        let maxCode := i32store st.maxCode len
          (jadd (jadd s1.1 countForLen) (some (-1)))
        tableGo fuel sorted lenCounts
          { i := jadd st.i countForLen
            currentCode := jadd s1.1 countForLen
            currentLen := s1.2
            symbolOffset := jadd st.symbolOffset countForLen
            minCode := minCode
            maxCode := maxCode
            valPtr := valPtr }
      else st

/-- Bit-reader state of the decode loop. -/
structure HufDec where
  p : Nat
  acc : Nat
  bits : Nat
  rle : Array Nat
  rlePos : Nat

/-- The refill loop (`while (bitsAvailable < 24 && p < dataLen)`), at most
three iterations from any `bits < 24`. -/
def refill : Nat → List Nat → Nat → Nat → Nat → Nat × Nat × Nat
  | 0, _, p, acc, bits => (p, acc, bits)
  | fuel + 1, data, p, acc, bits =>
      if bits < 24 ∧ p < data.length then
        refill fuel data (p + 1) (((acc <<< 8) ||| byteAt data p) % 2 ^ 32)
          (bits + 8)
      else (p, acc, bits)

/-- The inner `while (true)` of huffman.ts:488-523: read one bit at a time
into `curCode` until it falls inside a canonical range (returning the symbol
and remaining bit count) or the attempt fails (`bitsAvailable` exhausted, or
`curLen` reached 30 without a match). -/
def symGo : Nat → Nat → Nat → Nat → Nat → Array Int → Array Int → Array Int →
    List Nat → Option Nat × Nat
  | 0, _, _, _, bits, _, _, _, _ => (none, bits)
  | fuel + 1, curLen, curCode, acc, bits, minCode, maxCode, valPtr, symbols =>
      let curLen := curLen + 1
      if bits = 0 then (none, bits)
      else
        let bits := bits - 1
        let bit := (acc >>> bits) &&& 1
        let curCode := (curCode <<< 1) ||| bit
        let mc := maxCode.getD curLen (-1)
        if mc ≠ -1 ∧ (curCode : Int) ≤ mc then
          let symbolIndex : Int := valPtr.getD curLen (-1) +
            ((curCode : Int) - minCode.getD curLen (-1))
          let sym := if 0 ≤ symbolIndex ∧ symbolIndex < (symbols.length : Int)
            then symbols.getD symbolIndex.toNat 0 else 0
          (some sym, bits)
        else if 30 ≤ curLen then (none, bits)
        else symGo fuel curLen curCode acc bits minCode maxCode valPtr symbols

/-- The main decode loop (huffman.ts:445-527).  Every continuing iteration
consumes at least one bit of the at most `8·|data|` available, so
`8·|data| + 1` fuel suffices. -/
def outerGo (data : List Nat) (minCode maxCode valPtr : Array Int)
    (symbols : List Nat) (startLen : Option Int) (expectedLength : Nat) :
    Nat → HufDec → HufDec
  | 0, st => st
  | fuel + 1, st =>
      if st.p < data.length ∨ 0 < st.bits then
        let r := refill 3 data st.p st.acc st.bits
        let st : HufDec := { st with p := r.1, acc := r.2.1, bits := r.2.2 }
        if jltB (some (st.bits : Int)) startLen ∧ data.length ≤ st.p then st
        else
          match hsym : symGo 31 0 0 st.acc st.bits minCode maxCode valPtr
            symbols with
          | (none, bits') => { st with bits := bits' }
          | (some sym, bits') =>
              let st : HufDec :=
                { st with
                  bits := bits'
                  rle := st.rle.setD st.rlePos sym
                  rlePos := st.rlePos + 1 }
              if expectedLength * 2 ≤ st.rlePos then st
              else outerGo data minCode maxCode valPtr symbols startLen
                expectedLength fuel st
      else st

/-- Clamped delta reconstruction of one output byte
(huffman.ts:562-580). -/
def clampPix (prev v : Nat) : Nat :=
  let d : Int := (v : Int) - 128
  (max 0 (min 255 ((prev : Int) + d))).toNat

/-- The run replay inside the fused loop, stopping at `expectedLength`. -/
def fusedRun : Nat → Nat → List Nat → Nat → Nat → List Nat × Nat
  | 0, _, out, prev, _ => (out, prev)
  | r + 1, v, out, prev, len =>
      if len ≤ out.length then (out, prev)
      else
        let pixel := clampPix prev v
        fusedRun r v (out ++ [pixel]) pixel len

/-- The fused RLE + delta decode (huffman.ts:529-582), over the first
`rlePos` bytes of the symbol stream.  `i` advances by at least 1 per
iteration, so `rlePos + 1` fuel suffices. -/
def fusedGo : Nat → Array Nat → Nat → Nat → List Nat → Nat → Nat → List Nat
  | 0, _, _, _, out, _, _ => out
  | fuel + 1, rle, rlePos, i, out, prev, len =>
      if i < rlePos then
        if len ≤ out.length then out
        else
          let val := rle.getD i 0
          if val = RLE_MARKER then
            if rlePos ≤ i + 2 then out
            else
              let run := rle.getD (i + 1) 0
              let v := rle.getD (i + 2) 0
              let s := fusedRun run v out prev len
              fusedGo fuel rle rlePos (i + 3) s.1 s.2 len
          else
            let pixel := clampPix prev val
            fusedGo fuel rle rlePos (i + 1) (out ++ [pixel]) pixel len
      else out

/-- `decodeHuffman` (huffman.ts:340): parse the header, rebuild the
canonical tables, bit-decode the symbol stream (bounded by
`expectedLength·2` symbols), then invert RLE and delta into exactly
`expectedLength` bytes; positions never reached stay zero in the
pre-allocated output.  The one exception path of the source is a zero
symbol count with non-empty input: `codeLens[0].len` then throws a
`TypeError`. -/
def decodeHuffman (data : List Nat) (expectedLength : Nat) :
    Except String (List Nat) :=
  if data.length = 0 ∨ expectedLength = 0 then .ok []
  else
    let count := byteAt data 0
    let codeLens : List (Option Nat × Option Nat) :=
      (List.range count).map (fun i => (data[1 + 2 * i]?, data[2 + 2 * i]?))
    let p := 1 + 2 * count
    let lenCounts := codeLens.foldl (fun a e =>
      match e.2 with
      | some l => if l < 33 then a.setD l (a.getD l 0 + 1) else a
      | none => a) (Array.mkArray 33 0)
    let sorted := jsSort jsCmpLe codeLens
    if count = 0 then
      .error "TypeError"
    else
      let symbols : List Nat := sorted.map (fun e => e.1.getD 0)
      let startLen : Option Int := ((sorted.getD 0 (none, none)).2).map Nat.cast
      let tbl := tableGo (sorted.length + 1) sorted lenCounts
        { i := some 0
          currentCode := some 0
          currentLen := startLen
          symbolOffset := some 0
          minCode := Array.mkArray 32 (-1)
          maxCode := Array.mkArray 32 (-1)
          valPtr := Array.mkArray 32 (-1) }
      let st := outerGo data tbl.minCode tbl.maxCode tbl.valPtr symbols
        startLen expectedLength (8 * data.length + 1)
        ⟨p, 0, 0, Array.mkArray (expectedLength * 2) 0, 0⟩
      let out := fusedGo (st.rlePos + 1) st.rle st.rlePos 0 [] 0 expectedLength
      .ok (out ++ List.replicate (expectedLength - out.length) 0)

/-! ## Pipeline (`app/api/compress/route.ts` and `utils/decode.ts`) -/

/-- Result record of `decodeContainerToImage`. -/
structure DecodedContainer where
  imageData : Image
  width : Nat
  height : Nat
  blockSize : Nat
  discardBits : Nat
  smooth : Bool
  qoiSize : Nat
  nodalSize : Nat
  totalSize : Nat
  nodalPointsY : List Nat
  nodalPointsCb : List Nat
  nodalPointsCr : List Nat
  deriving Repr, DecidableEq

/-- `decodeContainerToImage` (decode.ts:61): parse, Huffman-decode the three
nodal streams with `expectedLength = ⌈W/max(2,b)⌉·⌈H/max(2,b)⌉`, QOI-decode
the residual, check its dimensions against the header, and invert the Paeth
residual. -/
def decodeContainerToImage (buffer : List Nat) :
    Except String DecodedContainer := do
  let parsed ← parseContainer buffer
  let block := max 2 parsed.blockSize
  let gridWidth := (parsed.width + block - 1) / block
  let gridHeight := (parsed.height + block - 1) / block
  let nodeCount := gridWidth * gridHeight
  let nodalPointsY ← decodeHuffman parsed.huffmanY nodeCount
  let nodalPointsCb ← decodeHuffman parsed.huffmanCb nodeCount
  let nodalPointsCr ← decodeHuffman parsed.huffmanCr nodeCount
  let residualImage ← decodeQOI parsed.qoi
  if ¬(residualImage.width = parsed.width ∧
      residualImage.height = parsed.height) then
    throw "QOI payload dimensions do not match container header"
  let reconstructed := decodePaethResidual residualImage
  pure { imageData := reconstructed, width := parsed.width,
         height := parsed.height, blockSize := parsed.blockSize,
         discardBits := parsed.discardBits, smooth := parsed.smooth,
         qoiSize := parsed.qoi.length,
         nodalSize := parsed.huffmanY.length + parsed.huffmanCb.length +
           parsed.huffmanCr.length,
         totalSize := parsed.totalSize,
         nodalPointsY := nodalPointsY, nodalPointsCb := nodalPointsCb,
         nodalPointsCr := nodalPointsCr }

/-- The encode pipeline of the `POST` handler (route.ts:170-187):
`processImageFrame`, Paeth residual of the preview, QOI, three Huffman
streams, container. -/
def encodePipeline (img : Image) (blockSize discardBits : Nat)
    (smooth : Bool) : List Nat :=
  let processed := processImageFrame img blockSize discardBits smooth
  let residual := buildResidualImage processed.processedImageData
  let qoiBytes := encodeQOI residual
  let huffmanY := encodeHuffman processed.nodalPointsY
  let huffmanCb := encodeHuffman processed.nodalPointsCb
  let huffmanCr := encodeHuffman processed.nodalPointsCr
  buildContainer
    { width := img.width, height := img.height, blockSize := blockSize,
      discardBits := discardBits, smooth := smooth, qoi := qoiBytes,
      huffmanY := huffmanY, huffmanCb := huffmanCb, huffmanCr := huffmanCr }

/-- The 2×2 solid red image (spec scenario S1). -/
def c1img : Image :=
  ⟨2, 2, [255, 0, 0, 255, 255, 0, 0, 255, 255, 0, 0, 255, 255, 0, 0, 255]⟩

/-- The container bytes `encodePipeline` produces for `c1img` with
`b = 2, d = 0, s = true`. -/
def c1container : List Nat :=
  [75, 77, 82, 49, 1, 2, 0, 1] ++ u32BE 2 ++ u32BE 2 ++
    u32BE 25 ++ u32BE 4 ++ u32BE 4 ++ u32BE 6 ++
    [113, 111, 105, 102, 0, 0, 0, 2, 0, 0, 0, 2, 4, 0, 90, 122, 193,
     0, 0, 0, 0, 0, 0, 0, 1] ++
    [1, 204, 1, 0] ++ [1, 213, 1, 0] ++ [2, 1, 1, 255, 1, 160]

/-! ## Round-trip correctness of the Huffman codec (claim C2)

Stage 1: the delta bytes of an in-range input, and the fused RLE + delta
decoder replaying them. -/

/-- The delta byte stream of a byte-valued input, one byte per element
(specification-level recursion; equal to `deltaEncode` on the cast list). -/
def dBytes (prev : Nat) : List Nat → List Nat
  | [] => []
  | x :: xs =>
      ((max (-128) (min 127 ((x : Int) - prev)) + 128).toNat &&& 255) ::
        dBytes x xs

/-- The delta steps stay inside `[−128, 127]` (so the clamp is the identity)
and the values are bytes. -/
def deltaOkB (prev : Nat) : List Nat → Bool
  | [] => true
  | x :: xs =>
      decide (x ≤ 255) && decide (-128 ≤ (x : Int) - prev) &&
        decide ((x : Int) - prev ≤ 127) && deltaOkB x xs

/-- The leaf symbols of a Huffman tree, in left-to-right order. -/
def treeSyms : HTree → List Nat
  | .leaf s => [s]
  | .node l r => treeSyms l ++ treeSyms r

/-- The leaf symbols of a queue, in order. -/
def qsyms (q : List (Nat × HTree)) : List Nat :=
  (q.map Prod.snd).flatMap treeSyms

/-! Canonical code assignment in open form. -/

/-- Open-form canonical assignment: each entry's code is
`x <<< (len − prevLen)` where `x` is one past the previous code. -/
def canonFrom (x prevLen : Nat) : List (Nat × Nat) → List (Nat × Nat × Nat)
  | [] => []
  | (s, l) :: rest =>
      (s, l, x <<< (l - prevLen)) :: canonFrom (x <<< (l - prevLen) + 1) l rest

/-- Codes of one equal-length group: consecutive values from `c0`. -/
def seqCodes (c0 : Nat) : List (Nat × Nat) → List (Nat × Nat × Nat)
  | [] => []
  | (s, l) :: r => (s, l, c0) :: seqCodes (c0 + 1) r

/-- The `(nextCode, prevLen)` state after assigning a block. -/
def canonState (x p : Nat) : List (Nat × Nat) → Nat × Nat
  | [] => (x, p)
  | (_, l) :: r => canonState (x <<< (l - p) + 1) l r

/-- Dominance between an earlier and a later canonical code: the later
code is at least the earlier-plus-one, scaled up to the later length.  (So
the later code's length-`a` prefix is strictly beyond code `a`.) -/
def canonDom (a b : Nat × Nat × Nat) : Prop :=
  a.2.1 ≤ b.2.1 ∧ (a.2.2 + 1) * 2 ^ (b.2.1 - a.2.1) ≤ b.2.2

/-! The encoder's bit stream. -/

/-- MSB-first value of a bit list. -/
def bitsVal (l : List Nat) : Nat := l.foldl (fun a b => 2 * a + b) 0

/-- The completed bytes of a bit stream (one per full group of 8 bits). -/
def byteListOf (p : List Nat) : List Nat :=
  (List.range (p.length / 8)).map (fun i => bitsVal ((p.drop (8 * i)).take 8))

/-- The RLE stream of the encoder front end. -/
def rleOfI (data : List Int) : List Nat := rleEncode (deltaEncode data)

/-- The canonically sorted `(symbol, length)` table of the encoder. -/
def clOf (data : List Int) : List (Nat × Nat) :=
  canonSort (buildCodeLengths (countFreqs (rleOfI data)))

/-- The canonical `(symbol, length, code)` assignment of the encoder. -/
def codesOf (data : List Int) : List (Nat × Nat × Nat) := assignCodes (clOf data)

/-- The stream header: symbol count then `(symbol, length)` pairs. -/
def headerOf (data : List Int) : List Nat :=
  [(clOf data).length % 256] ++ (clOf data).flatMap (fun p => [p.1, p.2])

/-- The code bits of one symbol. -/
def symBitsOf (data : List Int) (sym : Nat) : List Nat :=
  codeBits (codeOf (codesOf data) sym).1 (codeOf (codesOf data) sym).2

/-- All body bits of the encoded stream, in order. -/
def allBitsOf (data : List Int) : List Nat :=
  (rleOfI data).flatMap (symBitsOf data)

/-- A bit stream zero-padded to the next byte boundary. -/
def padBits (q : List Nat) : List Nat :=
  q ++ List.replicate ((8 - q.length % 8) % 8) 0

/-- Bit-reader context: `data` is a header of length `hlen` followed by the
bytes of the padded bit stream `P` (one byte per 8 bits). -/
def brCtx (data P : List Nat) (hlen : Nat) : Prop :=
  hlen ≤ data.length ∧
  8 * (data.length - hlen) = P.length ∧
  (∀ b ∈ P, b ≤ 1) ∧
  (∀ m, m < data.length - hlen →
    byteAt data (hlen + m) = bitsVal ((P.drop (8 * m)).take 8))

/-- Bit-reader state invariant: `c` stream bits consumed, `bits` buffered in
the low bits of `acc`. -/
def brInv (data P : List Nat) (hlen c p acc bits : Nat) : Prop :=
  hlen ≤ p ∧ p ≤ data.length ∧ 8 * (p - hlen) = c + bits ∧ bits ≤ 31 ∧
  acc % 2 ^ bits = bitsVal ((P.drop c).take bits)

/-- The well-formedness facts of the canonically sorted code-length table
used throughout the decoder proof (with the global length bound 16). -/
def goodCL (cl : List (Nat × Nat)) : Prop :=
  cl.Pairwise (fun a b => a.2 < b.2 ∨ (a.2 = b.2 ∧ a.1 ≤ b.1)) ∧
  (cl.map Prod.fst).Nodup ∧
  (∀ p ∈ cl, 1 ≤ p.2 ∧ p.2 ≤ 16) ∧
  ((cl.map (fun p => 2 ^ (16 - p.2))).sum ≤ 2 ^ 16)

/-- Postcondition of the canonical-table loop on a suffix of the sorted
entries: group min/max/pointer values are written at each suffix length,
everything else is untouched. -/
def tgPost (X P preLen : Nat) (suf : List (Nat × Nat)) (st st2 : TableState) :
    Prop :=
  st2.minCode.size = 32 ∧ st2.maxCode.size = 32 ∧ st2.valPtr.size = 32 ∧
  (∀ L : Nat, (∀ q ∈ suf, q.2 ≠ L) →
    st2.minCode.getD L (-1) = st.minCode.getD L (-1) ∧
    st2.maxCode.getD L (-1) = st.maxCode.getD L (-1) ∧
    st2.valPtr.getD L (-1) = st.valPtr.getD L (-1)) ∧
  (∀ j : Nat, j < suf.length →
    st2.minCode.getD ((canonFrom X P suf).getD j (0, 0, 0)).2.1 (-1) ≤
      (((canonFrom X P suf).getD j (0, 0, 0)).2.2 : Int) ∧
    (((canonFrom X P suf).getD j (0, 0, 0)).2.2 : Int) ≤
      st2.maxCode.getD ((canonFrom X P suf).getD j (0, 0, 0)).2.1 (-1) ∧
    st2.valPtr.getD ((canonFrom X P suf).getD j (0, 0, 0)).2.1 (-1) +
      ((((canonFrom X P suf).getD j (0, 0, 0)).2.2 : Int) -
        st2.minCode.getD ((canonFrom X P suf).getD j (0, 0, 0)).2.1 (-1)) =
      ((preLen + j : Nat) : Int)) ∧
  (∀ L : Nat, (∃ q ∈ suf, q.2 = L) →
    ∃ j : Nat, j < suf.length ∧
      ((canonFrom X P suf).getD j (0, 0, 0)).2.1 = L ∧
      st2.maxCode.getD L (-1) =
        (((canonFrom X P suf).getD j (0, 0, 0)).2.2 : Int))

/-- The decoder table arrays correctly describe a canonical code
assignment. -/
def tablesOk (cs : List (Nat × Nat × Nat)) (minA maxA valA : Array Int) :
    Prop :=
  minA.size = 32 ∧ maxA.size = 32 ∧ valA.size = 32 ∧
  (∀ L : Nat, (∀ t ∈ cs, t.2.1 ≠ L) → maxA.getD L (-1) = -1) ∧
  (∀ j : Nat, j < cs.length →
    minA.getD ((cs.getD j (0, 0, 0)).2.1) (-1) ≤
      ((cs.getD j (0, 0, 0)).2.2 : Int) ∧
    ((cs.getD j (0, 0, 0)).2.2 : Int) ≤
      maxA.getD ((cs.getD j (0, 0, 0)).2.1) (-1) ∧
    valA.getD ((cs.getD j (0, 0, 0)).2.1) (-1) +
      (((cs.getD j (0, 0, 0)).2.2 : Int) -
        minA.getD ((cs.getD j (0, 0, 0)).2.1) (-1)) = (j : Int)) ∧
  (∀ L : Nat, (∃ t ∈ cs, t.2.1 = L) →
    ∃ j : Nat, j < cs.length ∧ (cs.getD j (0, 0, 0)).2.1 = L ∧
      maxA.getD L (-1) = ((cs.getD j (0, 0, 0)).2.2 : Int))

/-! ## Theorems -/

theorem getU8_ok (b : List Nat) (i : Nat) (h : i < b.length) :
    getU8 b i = .ok (byteAt b i) := by
  simp [getU8, h, byteAt, List.getD_eq_getElem, List.get_eq_getElem]

theorem getU32_ok (b : List Nat) (i : Nat) (h : i + 4 ≤ b.length) :
    getU32 b i = .ok (recU32 b i) := by
  simp only [getU32, recU32]
  rw [getU8_ok b i (by omega), getU8_ok b (i + 1) (by omega),
    getU8_ok b (i + 2) (by omega), getU8_ok b (i + 3) (by omega)]
  rfl

/-- Happy-path characterization of `parseContainer`: on any buffer of at
least 32 bytes whose magic and version bytes are right, parsing succeeds and
returns exactly these fields — no condition on the recorded section
lengths. -/
theorem parseContainer_ok_of (b : List Nat) (h32 : 32 ≤ b.length)
    (hm0 : byteAt b 0 = 75) (hm1 : byteAt b 1 = 77) (hm2 : byteAt b 2 = 82)
    (hm3 : byteAt b 3 = 49) (hv : byteAt b 4 = 1) :
    parseContainer b = .ok
      { version := 1, width := recU32 b 8, height := recU32 b 12,
        blockSize := byteAt b 5, discardBits := byteAt b 6,
        smooth := byteAt b 7 = 1,
        qoi := jsSlice b 32 (recU32 b 16),
        huffmanY := jsSlice b (32 + recU32 b 16) (recU32 b 20),
        huffmanCb := jsSlice b (32 + recU32 b 16 + recU32 b 20) (recU32 b 24),
        huffmanCr :=
          jsSlice b (32 + recU32 b 16 + recU32 b 20 + recU32 b 24) (recU32 b 28),
        totalSize := b.length } := by
  rw [parseContainer, getU8_ok b 0 (by omega), getU8_ok b 1 (by omega),
    getU8_ok b 2 (by omega), getU8_ok b 3 (by omega), getU8_ok b 4 (by omega),
    getU8_ok b 5 (by omega), getU8_ok b 6 (by omega), getU8_ok b 7 (by omega),
    getU32_ok b 8 (by omega), getU32_ok b 12 (by omega),
    getU32_ok b 16 (by omega), getU32_ok b 20 (by omega),
    getU32_ok b 24 (by omega), getU32_ok b 28 (by omega),
    hm0, hm1, hm2, hm3, hv]
  rfl

/-- Claim C3 is false on the code: `c3buf` records section lengths
`5, 0, 0, 0`, and `32 + 5 + 0 + 0 + 0 ≠ 32 = |c3buf|`, yet `parseContainer`
succeeds instead of raising a format error. -/
theorem parseContainer_no_length_check_cex :
    recU32 c3buf 16 = 5 ∧ recU32 c3buf 20 = 0 ∧ recU32 c3buf 24 = 0 ∧
      recU32 c3buf 28 = 0 ∧ c3buf.length = 32 ∧
      headerSize + (5 + 0 + 0 + 0) ≠ c3buf.length ∧
      (parseContainer c3buf).isOk = true := by
  decide

/-- Claim C3 (amended): `parseContainer` performs no consistency check of the
four recorded section lengths against the buffer length; any buffer of at
least 32 bytes with valid magic and version parses successfully even when
`32 + qoiLen + yLen + cbLen + crLen` differs from the buffer length (the
section slices silently clamp to the available bytes). -/
theorem parseContainer_accepts_inconsistent_lengths (b : List Nat)
    (h32 : 32 ≤ b.length)
    (hm0 : byteAt b 0 = 75) (hm1 : byteAt b 1 = 77) (hm2 : byteAt b 2 = 82)
    (hm3 : byteAt b 3 = 49) (hv : byteAt b 4 = 1)
    (hbad : headerSize +
      (recU32 b 16 + recU32 b 20 + recU32 b 24 + recU32 b 28) ≠ b.length) :
    (parseContainer b).isOk = true := by
  rw [parseContainer_ok_of b h32 hm0 hm1 hm2 hm3 hv]
  rfl

theorem parseContainer_accepts_inconsistent_lengths_witness :
    (parseContainer c3wbuf).isOk = true :=
  parseContainer_accepts_inconsistent_lengths c3wbuf (by decide) (by decide)
    (by decide) (by decide) (by decide) (by decide) (by decide)

/-- Claim C5 is false on the code: the smooth byte of `c5buf` is the non-zero
value 2, yet parsing reads `smooth = false` (the source compares with
`=== 1`, not with `≠ 0`). -/
theorem parseContainer_smooth_two_reads_off_cex :
    byteAt c5buf 7 = 2 ∧ (parseContainer c5buf).map (·.smooth) = .ok false :=
  ⟨by decide, by rfl⟩

/-- Claim C5 (amended): when parsing a container, the smooth flag is on
exactly when the byte at offset 7 is the value 1; the value 0 and every other
non-zero value are read as off. -/
theorem parseContainer_smooth_iff_byte_one (b : List Nat)
    (h32 : 32 ≤ b.length)
    (hm0 : byteAt b 0 = 75) (hm1 : byteAt b 1 = 77) (hm2 : byteAt b 2 = 82)
    (hm3 : byteAt b 3 = 49) (hv : byteAt b 4 = 1) :
    (parseContainer b).map (·.smooth) = .ok (decide (byteAt b 7 = 1)) := by
  rw [parseContainer_ok_of b h32 hm0 hm1 hm2 hm3 hv]
  rfl

theorem parseContainer_smooth_iff_byte_one_witness :
    (parseContainer c5wbuf).map (·.smooth) = .ok (decide (byteAt c5wbuf 7 = 1)) :=
  parseContainer_smooth_iff_byte_one c5wbuf (by decide) (by decide) (by decide)
    (by decide) (by decide) (by decide)

theorem byteAt_lt (data : List Nat) (hbytes : ∀ v ∈ data, v < 256) (i : Nat) :
    byteAt data i < 256 := by
  unfold byteAt
  rcases h : data[i]? with _ | v
  · simp [List.getD, h]
  · simpa [List.getD, h] using hbytes v (List.getElem?_mem h)

theorem paeth_le (a b c m : Nat) (ha : a ≤ m) (hb : b ≤ m) (hc : c ≤ m) :
    paeth a b c ≤ m := by
  unfold paeth
  dsimp only
  split_ifs with h1 h2
  exacts [ha, hb, hc]

theorem rasterPositions_length (w h : Nat) :
    (rasterPositions w h).length = h * w := by
  unfold rasterPositions
  induction h with
  | zero => simp
  | succ n ih =>
      rw [List.range_succ, List.flatMap_append]
      simp only [List.length_append, ih, List.flatMap_cons, List.flatMap_nil,
        List.append_nil, List.length_map, List.length_range]
      ring

theorem rasterPositions_getElem (w h k : Nat) (hk : k < h * w) :
    (rasterPositions w h)[k]? = some (k % w, k / w) := by
  induction h with
  | zero => omega
  | succ n ih =>
      have hw : 0 < w := by
        by_contra hw0
        have hz : w = 0 := by omega
        subst hz
        simp at hk
      rw [rasterPositions, List.range_succ, List.flatMap_append]
      have hlen : (List.range n |>.flatMap fun y =>
          (List.range w).map fun x => (x, y)).length = n * w := by
        simpa [rasterPositions] using rasterPositions_length w n
      by_cases hk' : k < n * w
      · rw [List.getElem?_append_left (by rw [hlen]; exact hk')]
        exact ih hk'
      · rw [List.getElem?_append_right (by rw [hlen]; omega)]
        have hx : k - n * w < w := by
          have := hk
          simp only [Nat.succ_mul] at this
          omega
        rw [hlen]
        simp only [List.flatMap_cons, List.flatMap_nil, List.append_nil,
          List.getElem?_map, List.getElem?_range hx]
        have hmod : k % w = k - n * w := by
          conv_lhs => rw [show k = (k - n * w) + n * w by omega]
          rw [Nat.add_mul_mod_self_right]
          exact Nat.mod_eq_of_lt hx
        have hdiv : k / w = n := by
          conv_lhs => rw [show k = (k - n * w) + n * w by omega]
          rw [Nat.add_mul_div_right _ _ hw, Nat.div_eq_of_lt hx]
          omega
        simp [hmod, hdiv]

/-- Reading byte `4k + c` of a stream built from 4-byte pixel chunks gives
byte `c` of chunk `k`. -/
theorem flatMap_four_getD (f : α → List Nat) (hf : ∀ a, (f a).length = 4)
    (l : List α) (k c : Nat) (hk : k < l.length) (hc : c < 4) :
    byteAt (l.flatMap f) (4 * k + c) = byteAt (f l[k]) c := by
  induction l generalizing k with
  | nil => simp at hk
  | cons a t ih =>
      rw [List.flatMap_cons]
      cases k with
      | zero =>
          simp only [Nat.mul_zero, Nat.zero_add, List.getElem_cons_zero]
          unfold byteAt
          rw [List.getD_append _ _ _ _ (by rw [hf a]; omega)]
      | succ k' =>
          simp only [List.getElem_cons_succ]
          unfold byteAt
          rw [List.getD_append_right _ _ _ _ (by rw [hf a]; omega)]
          have : 4 * (k' + 1) + c - (f a).length = 4 * k' + c := by
            rw [hf a]; omega
          rw [this]
          exact ih k' (by simpa using hk)

theorem byteAt_take (data : List Nat) (n i : Nat) (h : i < n) :
    byteAt (data.take n) i = byteAt data i := by
  unfold byteAt
  by_cases hi : i < data.length
  · rw [List.getD_eq_getElem _ _ (by simp; omega), List.getD_eq_getElem _ _ hi]
    simp [List.getElem_take]
  · rw [List.getD_eq_default _ _ (by simp; omega), List.getD_eq_default _ _ (by omega)]

theorem take_four_more (data : List Nat) (k : Nat) (h : 4 * k + 4 ≤ data.length) :
    data.take (4 * (k + 1)) = data.take (4 * k) ++
      [byteAt data (4 * k), byteAt data (4 * k + 1), byteAt data (4 * k + 2),
       byteAt data (4 * k + 3)] := by
  have h4 : 4 * (k + 1) = (((4 * k + 1) + 1) + 1) + 1 := by ring
  rw [h4, List.take_succ, List.take_succ, List.take_succ, List.take_succ]
  have g : ∀ i, i < data.length → data[i]?.toList = [byteAt data i] := by
    intro i hi
    rw [List.getElem?_eq_getElem hi]
    unfold byteAt
    rw [List.getD_eq_getElem _ _ hi]
    rfl
  rw [g _ (by omega), g _ (by omega), g _ (by omega), g _ (by omega)]
  simp

theorem residualPix_length (w : Nat) (data : List Nat) (a : Nat × Nat) :
    (residualPix w data a).length = 4 := rfl

theorem mod256_roundtrip (r p : Nat) (hr : r < 256) (hp : p < 256) :
    ((r + 256 - p) % 256 + p) % 256 = r := by
  rw [Nat.mod_add_mod]
  have h : r + 256 - p + p = r + 256 := by omega
  rw [h]
  omega

theorem paethPred_lt (read : Nat → Nat) (hread : ∀ i, read i < 256)
    (w x y c : Nat) : paethPred read w x y c < 256 := by
  unfold paethPred
  have h : ∀ n m k : Nat, n ≤ 255 → m ≤ 255 → k ≤ 255 → paeth n m k < 256 := by
    intro n m k hn hm hk
    have := paeth_le n m k 255 hn hm hk
    omega
  apply h <;> (split_ifs <;> first | exact Nat.le_of_lt_succ (hread _) | omega)

/-- The causal reconstruction reads of pixel `k` (at most index `4k − 1`)
see the same bytes as the encoder's reads of the source image. -/
theorem paethPred_take (data : List Nat) (w x y k c : Nat) (hc : c < 4)
    (hk : y * w + x = k) (hw : 0 < w) (hxw : x < w) :
    paethPred (byteAt (data.take (4 * k))) w x y c =
      paethPred (byteAt data) w x y c := by
  unfold paethPred
  have e1 : (if 0 < x then byteAt (data.take (4 * k)) ((y * w + (x - 1)) * 4 + c)
      else 0) = if 0 < x then byteAt data ((y * w + (x - 1)) * 4 + c) else 0 := by
    split_ifs with hx
    · exact byteAt_take _ _ _ (by omega)
    · rfl
  have e2 : (if 0 < y then byteAt (data.take (4 * k)) (((y - 1) * w + x) * 4 + c)
      else 0) = if 0 < y then byteAt data (((y - 1) * w + x) * 4 + c) else 0 := by
    split_ifs with hy
    · apply byteAt_take
      have h1 : (y - 1) * w + x + w = y * w + x := by
        have h2 : (y - 1) * w + w = y * w := by
          have h3 : y - 1 + 1 = y := by omega
          calc (y - 1) * w + w = (y - 1 + 1) * w := by ring
            _ = y * w := by rw [h3]
        omega
      omega
    · rfl
  have e3 : (if 0 < x ∧ 0 < y then
      byteAt (data.take (4 * k)) (((y - 1) * w + (x - 1)) * 4 + c) else 0) =
      if 0 < x ∧ 0 < y then byteAt data (((y - 1) * w + (x - 1)) * 4 + c)
      else 0 := by
    split_ifs with hxy
    · apply byteAt_take
      have h2 : (y - 1) * w + w = y * w := by
        have h3 : y - 1 + 1 = y := by omega
        calc (y - 1) * w + w = (y - 1 + 1) * w := by ring
          _ = y * w := by rw [h3]
      omega
    · rfl
  rw [e1, e2, e3]

/-- Invariant of the reconstruction loop: after `k` pixels the output equals
the first `4k` bytes of the original image. -/
theorem decode_fold_invariant (w h : Nat) (data : List Nat)
    (hlen : data.length = 4 * (h * w))
    (hbytes : ∀ v ∈ data, v < 256) :
    ∀ k, k ≤ h * w →
      ((rasterPositions w h).take k).foldl
        (decodeStep w ((rasterPositions w h).flatMap (residualPix w data))) []
        = data.take (4 * k) := by
  intro k
  induction k with
  | zero => intro _; rfl
  | succ k ih =>
      intro hk1
      have hk : k < h * w := by omega
      have hw : 0 < w := by
        by_contra hw0
        have hz : w = 0 := by omega
        subst hz
        simp at hk
      have hpos : (rasterPositions w h)[k]? = some (k % w, k / w) :=
        rasterPositions_getElem w h k hk
      rw [List.take_succ, hpos, List.foldl_append, ih (by omega)]
      show decodeStep w _ _ _ = _
      unfold decodeStep
      dsimp only
      set x := k % w with hxdef
      set y := k / w with hydef
      have hxw : x < w := Nat.mod_lt _ hw
      have hyx : y * w + x = k := by
        rw [hxdef, hydef, Nat.mul_comm]
        exact Nat.div_add_mod k w
      have ho4 : (y * w + x) * 4 = 4 * k := by rw [hyx]; ring
      rw [ho4]
      have hkb : k < (rasterPositions w h).length := by
        rw [rasterPositions_length]
        exact hk
      have hget : (rasterPositions w h)[k] = (x, y) := by
        have h2 := hpos
        rw [List.getElem?_eq_getElem hkb] at h2
        exact Option.some.inj h2
      have hflat : ∀ c, c < 4 →
          byteAt ((rasterPositions w h).flatMap (residualPix w data))
            (4 * k + c) = byteAt (residualPix w data (x, y)) c := by
        intro c hc
        rw [flatMap_four_getD (residualPix w data) (residualPix_length w data)
          (rasterPositions w h) k c (by rw [rasterPositions_length]; exact hk) hc,
          hget]
      have hpred : ∀ c, c < 4 →
          paethPred (byteAt (data.take (4 * k))) w x y c =
            paethPred (byteAt data) w x y c := fun c hc =>
        paethPred_take data w x y k c hc hyx hw hxw
      have hres : ∀ c, c < 4 → byteAt (residualPix w data (x, y)) c =
          if c = 3 then byteAt data (4 * k + c)
          else (byteAt data (4 * k + c) + 256 - paethPred (byteAt data) w x y c)
            % 256 := by
        intro c hc
        interval_cases c <;>
          simp only [residualPix, byteAt, List.getD_cons_zero, List.getD_cons_succ,
            ho4, if_true, if_false] <;> rfl
      have hbyte : ∀ c, c < 4 → byteAt data (4 * k + c) < 256 := fun c _ =>
        byteAt_lt data hbytes _
      have hpredlt : ∀ c, paethPred (byteAt data) w x y c < 256 :=
        paethPred_lt (byteAt data) (fun i => byteAt_lt data hbytes i) w x y
      have hentry : ∀ c, c < 3 →
          (byteAt ((rasterPositions w h).flatMap (residualPix w data))
              (4 * k + c) +
            paethPred (byteAt (data.take (4 * k))) w x y c) % 256 =
          byteAt data (4 * k + c) := by
        intro c hc
        rw [hflat c (by omega), hpred c (by omega), hres c (by omega)]
        simp only [show c ≠ 3 by omega, if_false]
        exact mod256_roundtrip _ _ (hbyte c (by omega)) (hpredlt c)
      have he0 : (byteAt ((rasterPositions w h).flatMap (residualPix w data))
            (4 * k) + paethPred (byteAt (data.take (4 * k))) w x y 0) % 256 =
          byteAt data (4 * k) := by
        have h0 := hentry 0 (by omega)
        simpa using h0
      have halpha : byteAt ((rasterPositions w h).flatMap (residualPix w data))
          (4 * k + 3) = byteAt data (4 * k + 3) := by
        rw [hflat 3 (by omega), hres 3 (by omega)]
        simp
      rw [he0, hentry 1 (by omega), hentry 2 (by omega), halpha]
      rw [take_four_more data k (by omega)]

/-- Claim C7: for every well-formed RGBA image, the causal inverse Paeth
reconstruction of the forward Paeth residual is the original image
(`decodePaethResidual (buildResidualImage I) = I`). -/
theorem paeth_inverse_forward (img : Image)
    (hlen : img.data.length = 4 * (img.height * img.width))
    (hbytes : ∀ v ∈ img.data, v < 256) :
    decodePaethResidual (buildResidualImage img) = img := by
  obtain ⟨w, h, data⟩ := img
  simp only [buildResidualImage, decodePaethResidual] at *
  have hfold := decode_fold_invariant w h data hlen hbytes (h * w) (le_refl _)
  rw [List.take_of_length_le (by rw [rasterPositions_length])] at hfold
  rw [List.take_of_length_le (by omega)] at hfold
  simp only [Image.mk.injEq]
  exact ⟨trivial, trivial, hfold⟩

theorem paeth_inverse_forward_witness :
    decodePaethResidual (buildResidualImage c7wimg) = c7wimg :=
  paeth_inverse_forward c7wimg (by decide) (by decide)

/-- Claim C4 (amended): `buildResidualImage` passes the alpha byte of its
input image through unchanged at every pixel.  Its input in the encode
pipeline is the preview `processImageFrame(...).processedImageData`, so the
residual alpha equals the preview alpha — which is the source alpha only when
`discardBits = 0` (the preview is then a copy); for `discardBits > 0` the
preview stores alpha 255 everywhere. -/
theorem buildResidual_alpha_passthrough (img : Image) (k : Nat)
    (hk : k < img.height * img.width) :
    byteAt (buildResidualImage img).data (4 * k + 3) =
      byteAt img.data (4 * k + 3) := by
  obtain ⟨w, h, data⟩ := img
  simp only at hk
  have hw : 0 < w := by
    by_contra hw0
    have hz : w = 0 := by omega
    subst hz
    simp at hk
  simp only [buildResidualImage]
  rw [flatMap_four_getD _ (residualPix_length w data) _ k 3
    (by rw [rasterPositions_length]; exact hk) (by omega)]
  have hkb : k < (rasterPositions w h).length := by
    rw [rasterPositions_length]
    exact hk
  have hget : (rasterPositions w h)[k] = (k % w, k / w) := by
    have h2 := rasterPositions_getElem w h k hk
    rw [List.getElem?_eq_getElem hkb] at h2
    exact Option.some.inj h2
  rw [hget]
  show byteAt [_, _, _, byteAt data ((k / w * w + k % w) * 4 + 3)] 3 = _
  have hyx : k / w * w + k % w = k := by
    rw [Nat.mul_comm]
    exact Nat.div_add_mod k w
  rw [hyx]
  show byteAt data (k * 4 + 3) = byteAt data (4 * k + 3)
  rw [Nat.mul_comm]

theorem buildResidual_alpha_passthrough_witness :
    byteAt (buildResidualImage c4wimg).data 3 = byteAt c4wimg.data 3 := by
  have h := buildResidual_alpha_passthrough c4wimg 0 (by decide)
  simpa using h

/-- Claim C4 is false on the code for `discardBits > 0`: encoding `c4img`
with `blockSize = 2, discardBits = 1, smooth = false` builds the residual
from the reconstructed preview, whose alpha plane is the constant 255, so
the residual's alpha byte is 255 while the source's is 7. -/
theorem residual_alpha_not_source_cex :
    byteAt (buildResidualImage
        (processImageFrame c4img 2 1 false).processedImageData).data 3 = 255 ∧
      byteAt c4img.data 3 = 7 := by
  constructor
  · rfl
  · rfl

/-- Claim C6 fails on the code: both pixels of `c6img` equal the decoder's
initial previous pixel, so the whole image is one RUN op; the decode loop
demands `p < |bytes| − 8` even while a run is pending, stops after the first
pixel, and leaves the second pixel zero-filled — the round trip loses it. -/
theorem qoi_roundtrip_cex :
    decodeQOI (encodeQOI c6img) = .ok ⟨1, 2, [0, 0, 0, 255, 0, 0, 0, 0]⟩ ∧
      (⟨1, 2, [0, 0, 0, 255, 0, 0, 0, 0]⟩ : Image) ≠ c6img := by
  constructor
  · rfl
  · decide

theorem countEq_le (v : Nat) (l : List Nat) (cap : Nat) :
    countEq v l cap ≤ l.length := by
  induction l generalizing cap with
  | nil => simp [countEq]
  | cons x xs ih =>
      simp only [countEq]
      split
      · have := ih (cap - 1)
        simp only [List.length_cons]
        omega
      · simp

/-- Claim C9 is false on the code: the delta front-end biases every
difference by +128, so the zero differences of `[42,42,42,42,42]` become the
byte 128, not 0 — the post-delta sequence is `[170,128,128,128,128]`, not
`[170,0,0,0,0]` (and the RLE stream is `[170, 0xFF, 4, 128]`, not
`[170, 0xFF, 4, 0]`). -/
theorem huffman_s4_delta_cex :
    deltaEncode [42, 42, 42, 42, 42] = [170, 128, 128, 128, 128] ∧
      [170, 128, 128, 128, 128] ≠ [170, 0, 0, 0, 0] := by
  constructor
  · rfl
  · decide

/-- Claim C9 (amended): for `[42,42,42,42,42]` the post-delta byte sequence
is `170,128,128,128,128` (`delta 0` biases to byte 128), its run-length
encoding is `[170, 0xFF, 4, 128]`, and `decodeHuffman` applied to the full
encoding with `expectedLength = 5` returns `[42,42,42,42,42]`. -/
theorem huffman_s4_amended :
    deltaEncode [42, 42, 42, 42, 42] = [170, 128, 128, 128, 128] ∧
      rleEncode [170, 128, 128, 128, 128] = [170, 0xFF, 4, 128] ∧
      decodeHuffman (encodeHuffman [42, 42, 42, 42, 42]) 5 =
        .ok [42, 42, 42, 42, 42] := by
  refine ⟨rfl, rfl, rfl⟩

/-- Claim C2 is false on the code: the delta stage clamps the first
difference `200 − 0` to 127, and the decoder then reproduces at most 127;
for the one-byte sequence `[200]` the round trip returns `[0]` (the clamped
delta byte is 0xFF, whose RLE escape group is additionally cut short by the
decoder's `expectedLength·2` symbol cap). -/
theorem huffman_roundtrip_cex :
    decodeHuffman (encodeHuffman [200]) 1 = .ok [0] ∧
      ([0] : List Nat) ≠ [200] := by
  exact ⟨rfl, by decide⟩

/-- Claim C8 is false on the code: a complete header whose bitstream is
empty (here one symbol, so the decoder would need bits to produce 3 output
bytes) returns zeros without raising any error, instead of the format error
the claim requires for a bitstream that ends before `expectedLength`. -/
theorem decodeHuffman_no_error_cex :
    decodeHuffman [1, 65, 1] 3 = .ok [0, 0, 0] := by
  rfl

/-- Claim C10 is false on the code: a non-empty input whose first byte (the
symbol count) is 0 makes `codeLens[0].len` throw a `TypeError`, so
`decodeHuffman` does not return an `expectedLength`-byte buffer for every
non-empty input. -/
theorem decodeHuffman_count_zero_throws_cex :
    decodeHuffman [0] 1 = .error "TypeError" := by
  rfl

theorem clampPix_lt (prev v : Nat) : clampPix prev v < 256 := by
  unfold clampPix
  dsimp only
  have h : (max 0 (min 255 ((prev : Int) + ((v : Int) - 128)))) ≤ 255 :=
    max_le (by norm_num) (min_le_left _ _)
  have h2 := Int.toNat_le.mpr h
  omega

theorem fusedRun_facts (r v : Nat) :
    ∀ (out : List Nat) (prev L : Nat), out.length ≤ L →
      (∀ u ∈ out, u < 256) →
      (fusedRun r v out prev L).1.length ≤ L ∧
        (∀ u ∈ (fusedRun r v out prev L).1, u < 256) := by
  induction r with
  | zero => intro out prev L h1 h2; exact ⟨h1, h2⟩
  | succ n ih =>
      intro out prev L h1 h2
      rw [fusedRun]
      split
      · exact ⟨h1, h2⟩
      · rename_i hlt
        apply ih
        · simp only [List.length_append, List.length_cons, List.length_nil]
          omega
        · intro u hu
          rcases List.mem_append.mp hu with h | h
          · exact h2 u h
          · rw [List.mem_singleton.mp h]
            exact clampPix_lt _ _

theorem fusedGo_facts (fuel : Nat) :
    ∀ (rle : Array Nat) (rlePos i : Nat) (out : List Nat) (prev L : Nat),
      out.length ≤ L → (∀ u ∈ out, u < 256) →
      (fusedGo fuel rle rlePos i out prev L).length ≤ L ∧
        (∀ u ∈ fusedGo fuel rle rlePos i out prev L, u < 256) := by
  induction fuel with
  | zero => intro _ _ _ out _ _ h1 h2; exact ⟨h1, h2⟩
  | succ n ih =>
      intro rle rlePos i out prev L h1 h2
      rw [fusedGo]
      by_cases hpos : i < rlePos
      · rw [if_pos hpos]
        by_cases hfull : L ≤ out.length
        · rw [if_pos hfull]
          exact ⟨h1, h2⟩
        · rw [if_neg hfull]
          dsimp only
          by_cases hmark : rle.getD i 0 = RLE_MARKER
          · rw [if_pos hmark]
            by_cases hcut : rlePos ≤ i + 2
            · rw [if_pos hcut]
              exact ⟨h1, h2⟩
            · rw [if_neg hcut]
              have hr := fusedRun_facts (rle.getD (i + 1) 0) (rle.getD (i + 2) 0)
                out prev L h1 h2
              exact ih rle rlePos (i + 3) _ _ L hr.1 hr.2
          · rw [if_neg hmark]
            apply ih
            · simp only [List.length_append, List.length_cons, List.length_nil]
              omega
            · intro u hu
              rcases List.mem_append.mp hu with h | h
              · exact h2 u h
              · rw [List.mem_singleton.mp h]
                exact clampPix_lt _ _
      · rw [if_neg hpos]
        exact ⟨h1, h2⟩

/-- Structure of every non-throwing `decodeHuffman` run: the output is the
fused-decode list padded with zeros to exactly `expectedLength` bytes. -/
theorem decodeHuffman_ok_shape (data : List Nat) (L : Nat) (hd : data ≠ [])
    (hc : byteAt data 0 ≠ 0) (hL : 0 < L) :
    ∃ out : List Nat, decodeHuffman data L =
        .ok (out ++ List.replicate (L - out.length) 0) ∧
      (∀ u ∈ out, u < 256) ∧ out.length ≤ L := by
  have h1 : (data.length = 0 ∨ L = 0) = False := by
    apply eq_false
    push_neg
    exact ⟨by simpa [List.length_eq_zero] using hd, by omega⟩
  have h2 : (byteAt data 0 = 0) = False := eq_false hc
  simp only [decodeHuffman, h1, h2, if_false]
  refine ⟨_, rfl, ?_, ?_⟩
  · exact (fusedGo_facts _ _ _ _ _ _ _ (by simp) (by simp)).2
  · exact (fusedGo_facts _ _ _ _ _ _ _ (by simp) (by simp)).1

/-- Claim C10 (amended): for every non-empty input whose first byte (the
symbol count) is non-zero and every `expectedLength > 0`, `decodeHuffman`
terminates without raising and returns exactly `expectedLength` bytes, each
in `[0, 255]`; corrupt or truncated streams leave the unreached positions
zero.  (A zero first byte on non-empty input is the sole throwing path.) -/
theorem decodeHuffman_total_of_count_nonzero (data : List Nat) (L : Nat)
    (hd : data ≠ []) (hc : byteAt data 0 ≠ 0) (hL : 0 < L) :
    (decodeHuffman data L).map
      (fun out => (out.length, out.all (fun v => v < 256))) = .ok (L, true) := by
  obtain ⟨out, heq, hall, hlen⟩ := decodeHuffman_ok_shape data L hd hc hL
  rw [heq]
  simp only [Except.map, List.length_append, List.length_replicate]
  have e1 : out.length + (L - out.length) = L := by omega
  have e2 : (out ++ List.replicate (L - out.length) 0).all
      (fun v => decide (v < 256)) = true := by
    rw [List.all_eq_true]
    intro u hu
    rcases List.mem_append.mp hu with h | h
    · simpa using hall u h
    · simp [List.eq_of_mem_replicate h]
  rw [e1, e2]

/-- Witness for `decodeHuffman_total_of_count_nonzero` on a one-byte (header
truncated) stream. -/
theorem decodeHuffman_total_of_count_nonzero_witness :
    (decodeHuffman [7] 2).map
      (fun out => (out.length, out.all (fun v => v < 256))) = .ok (2, true) :=
  decodeHuffman_total_of_count_nonzero [7] 2 (by decide) (by decide) (by decide)

/-- The decode loop does nothing when the byte pointer already sits at the
end of the buffer and no bits are buffered. -/
theorem outerGo_done (data : List Nat) (minCode maxCode valPtr : Array Int)
    (symbols : List Nat) (startLen : Option Int) (L fuel : Nat) (st : HufDec)
    (h : data.length ≤ st.p) (hb : st.bits = 0) :
    outerGo data minCode maxCode valPtr symbols startLen L fuel st = st := by
  cases fuel with
  | zero => rfl
  | succ n =>
      rw [outerGo]
      rw [if_neg (by omega)]

/-- An empty symbol stream decodes to the unchanged accumulator. -/
theorem fusedGo_zero (fuel : Nat) (rle : Array Nat) (i : Nat) (out : List Nat)
    (prev L : Nat) : fusedGo fuel rle 0 i out prev L = out := by
  cases fuel with
  | zero => rfl
  | succ n =>
      rw [fusedGo]
      rw [if_neg (by omega)]

/-- Claim C8 (amended): `decodeHuffman` raises no format error for a
bitstream that ends before `expectedLength` bytes are produced (nor for
unmatched bit patterns): it stops decoding and returns the
`expectedLength`-byte output with every unproduced position zero.  Here: a
complete header followed by no bitstream bytes at all decodes to all
zeros. -/
theorem decodeHuffman_truncated_returns_zeros (count : Nat) (pairs : List Nat)
    (L : Nat) (hc : count ≠ 0) (hp : pairs.length = 2 * count) (hL : 0 < L) :
    decodeHuffman (count :: pairs) L = .ok (List.replicate L 0) := by
  have h1 : ((count :: pairs).length = 0 ∨ L = 0) = False := by
    apply eq_false
    push_neg
    exact ⟨by simp, by omega⟩
  have h2 : (byteAt (count :: pairs) 0 = 0) = False := by
    apply eq_false
    simpa [byteAt] using hc
  simp only [decodeHuffman, h1, h2, if_false]
  rw [outerGo_done _ _ _ _ _ _ _ _ _
    (by simp only [byteAt, List.getD_cons_zero, List.length_cons, hp]; omega) rfl]
  rw [fusedGo_zero]
  simp

/-- Witness for `decodeHuffman_truncated_returns_zeros` on a two-symbol
header with no bitstream. -/
theorem decodeHuffman_truncated_returns_zeros_witness :
    decodeHuffman [2, 7, 1, 9, 200] 4 = .ok (List.replicate 4 0) :=
  decodeHuffman_truncated_returns_zeros 2 [7, 1, 9, 200] 4 (by decide)
    (by decide) (by decide)

set_option maxRecDepth 2000 in
theorem c1_encode_eval : encodePipeline c1img 2 0 true = c1container := by
  decide

set_option maxRecDepth 2000 in
theorem c1_decode_eval :
    (decodeContainerToImage c1container).toOption.map (·.imageData.data) =
      some [255, 0, 0, 255, 255, 0, 0, 255, 255, 0, 0, 255, 255, 0, 0, 0] := by
  decide

/-- Claim C1 fails on the code at the spec's own scenario S1: encoding the
2×2 solid red image with `b = 2, d = 0, s = true` and decoding the container
loses the last pixel.  The residual stream ends in a QOI RUN op covering the
last two pixels; `decodeQOI`'s loop also requires `p < |bytes| − 8` while a
run is still pending, so it stops one pixel short and the zero-filled pixel
(alpha 0) survives into the Paeth reconstruction. -/
theorem kmr_lossless_roundtrip_cex :
    (decodeContainerToImage (encodePipeline c1img 2 0 true)).toOption.map
        (·.imageData.data) =
      some [255, 0, 0, 255, 255, 0, 0, 255, 255, 0, 0, 255, 255, 0, 0, 0] ∧
      ([255, 0, 0, 255, 255, 0, 0, 255, 255, 0, 0, 255, 255, 0, 0, 0]
        : List Nat) ≠ c1img.data := by
  rw [c1_encode_eval]
  exact ⟨c1_decode_eval, by decide⟩

theorem deltaEncode_foldl_general (vr : List Nat) :
    ∀ (out : List Nat) (prev : Nat),
      ((vr.map Int.ofNat).foldl (fun (acc : List Nat × Int) v =>
        let diff := max (-128) (min 127 (v - acc.2))
        (acc.1 ++ [(diff + 128).toNat &&& 255], v)) (out, (prev : Int))).1 =
      out ++ dBytes prev vr := by
  induction vr with
  | nil => intro out prev; simp [dBytes]
  | cons x xs ih =>
      intro out prev
      simp only [List.map_cons, List.foldl_cons, dBytes]
      have := ih (out ++ [(max (-128) (min 127 ((x : Int) - prev)) + 128).toNat
        &&& 255]) x
      simp only [Int.ofNat_eq_coe] at this ⊢
      rw [this]
      simp

theorem deltaEncode_eq_dBytes (vr : List Nat) :
    deltaEncode (vr.map Int.ofNat) = dBytes 0 vr := by
  have h := deltaEncode_foldl_general vr [] 0
  simpa [deltaEncode] using h

theorem dBytes_length (prev : Nat) (l : List Nat) :
    (dBytes prev l).length = l.length := by
  induction l generalizing prev with
  | nil => rfl
  | cons x xs ih => simp [dBytes, ih]

/-- Under in-range deltas the clamp vanishes: the byte is exactly
`x − prev + 128`. -/
theorem dBytes_head (prev x : Nat) (xs : List Nat)
    (h : deltaOkB prev (x :: xs) = true) :
    dBytes prev (x :: xs) =
      ((x : Int) - prev + 128).toNat :: dBytes x xs ∧
      ((x : Int) - prev + 128).toNat ≤ 255 ∧ x ≤ 255 ∧
      deltaOkB x xs = true := by
  simp only [deltaOkB, Bool.and_eq_true, decide_eq_true_eq] at h
  obtain ⟨⟨⟨h1, h2⟩, h3⟩, h4⟩ := h
  have hclamp : max (-128) (min 127 ((x : Int) - prev)) = (x : Int) - prev := by
    rw [min_eq_right h3, max_eq_right h2]
  have hle : ((x : Int) - prev + 128).toNat ≤ 255 := by omega
  have hand : ((x : Int) - prev + 128).toNat &&& 255 =
      ((x : Int) - prev + 128).toNat := by
    have h8 : ((x : Int) - prev + 128).toNat < 256 := by omega
    have hmod := Nat.and_pow_two_sub_one_eq_mod (((x : Int) - prev + 128).toNat) 8
    norm_num at hmod
    rw [hmod]
    exact Nat.mod_eq_of_lt h8
  refine ⟨?_, hle, h1, h4⟩
  rw [dBytes, hclamp, hand]

/-- The inverse step: adding the unbiased delta back recovers the value (no
clamping occurs for in-range data). -/
theorem clampPix_byte (prev x : Nat) (hx : x ≤ 255)
    (h2 : -128 ≤ (x : Int) - prev) (h3 : (x : Int) - prev ≤ 127) :
    clampPix prev ((x : Int) - prev + 128).toNat = x := by
  unfold clampPix
  dsimp only
  have hcast : ((((x : Int) - prev + 128).toNat : Int)) =
      (x : Int) - prev + 128 := by omega
  rw [hcast]
  have e1 : (prev : Int) + ((x : Int) - prev + 128 - 128) = x := by ring
  rw [e1]
  have e2 : min 255 (x : Int) = x := min_eq_right (by omega)
  rw [e2]
  have e3 : max 0 (x : Int) = x := max_eq_right (by omega)
  rw [e3]
  omega

theorem countEq_take (v : Nat) (l : List Nat) (cap : Nat) :
    l.take (countEq v l cap) = List.replicate (countEq v l cap) v := by
  induction l generalizing cap with
  | nil => simp [countEq]
  | cons x xs ih =>
      rw [countEq]
      split
      · rename_i h
        rw [h.1, Nat.add_comm 1 (countEq v xs (cap - 1))]
        simp only [List.take_succ_cons, List.replicate_succ, List.cons.injEq]
        exact ⟨trivial, ih (cap - 1)⟩
      · simp

theorem getLastD_cons_eq (x prev : Nat) (xs : List Nat) :
    (x :: xs).getLastD prev = xs.getLastD x := by
  cases xs <;> simp [List.getLastD]

theorem deltaOkB_split (prev : Nat) (l1 l2 : List Nat) :
    deltaOkB prev (l1 ++ l2) =
      (deltaOkB prev l1 && deltaOkB (l1.getLastD prev) l2) := by
  induction l1 generalizing prev with
  | nil => simp [deltaOkB]
  | cons x xs ih =>
      simp only [List.cons_append, deltaOkB, List.append_eq, ih x,
        getLastD_cons_eq, Bool.and_assoc]

theorem dBytes_append (prev : Nat) (l1 l2 : List Nat) :
    dBytes prev (l1 ++ l2) = dBytes prev l1 ++ dBytes (l1.getLastD prev) l2 := by
  induction l1 generalizing prev with
  | nil => simp [dBytes]
  | cons x xs ih =>
      simp only [List.cons_append, dBytes, List.append_eq, ih x,
        getLastD_cons_eq, List.cons.injEq, true_and]

theorem rleGo_nil (f : Nat) : rleGo f [] = [] := by
  cases f <;> rfl

theorem fusedRun_replay (r : Nat) :
    ∀ (b : Nat) (v1 : List Nat) (prev : Nat) (out : List Nat) (L : Nat),
      v1.length = r →
      deltaOkB prev v1 = true →
      dBytes prev v1 = List.replicate r b →
      out.length + r ≤ L →
      fusedRun r b out prev L = (out ++ v1, v1.getLastD prev) := by
  induction r with
  | zero =>
      intro b v1 prev out L hlen hok hd hL
      rw [List.length_eq_zero] at hlen
      subst hlen
      simp [fusedRun, List.getLastD]
  | succ r ih =>
      intro b v1 prev out L hlen hok hd hL
      cases v1 with
      | nil => simp at hlen
      | cons x xs =>
          obtain ⟨hdb, hble, hx, hok'⟩ := dBytes_head prev x xs hok
          rw [hdb, List.replicate_succ] at hd
          have hb : ((x : Int) - prev + 128).toNat = b := (List.cons.injEq _ _ _ _ ▸ hd).1
          have hrest : dBytes x xs = List.replicate r b := (List.cons.injEq _ _ _ _ ▸ hd).2
          rw [fusedRun]
          rw [if_neg (by simp at hlen ⊢; omega)]
          simp only [deltaOkB, Bool.and_eq_true, decide_eq_true_eq] at hok
          have hpix : clampPix prev b = x := by
            rw [← hb]
            exact clampPix_byte prev x hok.1.1.1 hok.1.1.2 hok.1.2
          rw [hpix]
          have := ih b xs x (out ++ [x]) L (by simpa using hlen) hok' hrest
            (by simp at hL ⊢; omega)
          rw [this, List.append_assoc, getLastD_cons_eq]
          simp

/-- Stage-1 main lemma: the fused RLE + delta loop, reading an array whose
bytes from position `i` hold the RLE groups of the delta bytes of `vr`
(with arbitrary junk beyond position `i + |rle|`), replays exactly `vr`. -/
theorem fused_replay (fuelR : Nat) :
    ∀ (vr : List Nat) (prev : Nat) (i : Nat) (out : List Nat) (rs : Array Nat)
      (rlePos L fuelF : Nat),
      vr.length ≤ fuelR →
      deltaOkB prev vr = true →
      (∀ k, k < (rleGo fuelR (dBytes prev vr)).length →
        rs.getD (i + k) 0 = (rleGo fuelR (dBytes prev vr)).getD k 0) →
      i + (rleGo fuelR (dBytes prev vr)).length ≤ rlePos →
      out.length + vr.length = L →
      (rleGo fuelR (dBytes prev vr)).length < fuelF →
      fusedGo fuelF rs rlePos i out prev L = out ++ vr := by
  induction fuelR with
  | zero =>
      intro vr prev i out rs rlePos L fuelF hlen hok hagree hpos hL hfuel
      rw [List.length_eq_zero.mp (by omega : vr.length = 0)] at hL ⊢
      cases fuelF with
      | zero => omega
      | succ m =>
          rw [fusedGo]
          by_cases hip : i < rlePos
          · rw [if_pos hip, if_pos (by simp at hL; omega)]
            simp
          · rw [if_neg hip]
            simp
  | succ f ih =>
      intro vr prev i out rs rlePos L fuelF hlen hok hagree hpos hL hfuel
      cases vr with
      | nil =>
          simp only [List.length_nil] at hL
          cases fuelF with
          | zero => omega
          | succ m =>
              rw [fusedGo]
              by_cases hip : i < rlePos
              · rw [if_pos hip, if_pos (by omega)]
                simp
              · rw [if_neg hip]
                simp
      | cons x xs =>
          obtain ⟨hdb, hble, hxle, hok2⟩ := dBytes_head prev x xs hok
          rw [hdb] at hagree hpos hfuel
          have hG : rleGo (f + 1)
              (((x : Int) - (prev : Int) + 128).toNat :: dBytes x xs) =
              (if 3 ≤ 1 + countEq (((x : Int) - (prev : Int) + 128).toNat)
                  (dBytes x xs) 254 ∨
                  (((x : Int) - (prev : Int) + 128).toNat) = RLE_MARKER
               then [RLE_MARKER,
                 1 + countEq (((x : Int) - (prev : Int) + 128).toNat)
                   (dBytes x xs) 254,
                 (((x : Int) - (prev : Int) + 128).toNat)]
               else List.replicate
                 (1 + countEq (((x : Int) - (prev : Int) + 128).toNat)
                   (dBytes x xs) 254)
                 (((x : Int) - (prev : Int) + 128).toNat)) ++
                rleGo f ((dBytes x xs).drop
                  (countEq (((x : Int) - (prev : Int) + 128).toNat)
                    (dBytes x xs) 254)) := rfl
          rw [hG] at hagree hpos hfuel
          set b0 := (((x : Int) - (prev : Int) + 128).toNat) with hb0
          set dR := dBytes x xs with hdR
          set kk := countEq b0 dR 254 with hkk
          have hkxs : kk ≤ xs.length := by
            have := countEq_le b0 dR 254
            rw [hdR, dBytes_length] at this
            exact this
          set vT := (x :: xs).take (1 + kk) with hvT
          set vD := (x :: xs).drop (1 + kk) with hvD
          have hvTD : vT ++ vD = x :: xs := List.take_append_drop _ _
          have hvTlen : vT.length = 1 + kk := by
            rw [hvT, List.length_take]
            simp
            omega
          set prev2 := vT.getLastD prev with hprev2
          have hsplit : dBytes prev (x :: xs) =
              dBytes prev vT ++ dBytes prev2 vD := by
            conv_lhs => rw [← hvTD]
            rw [dBytes_append, hprev2]
          have hokTD := deltaOkB_split prev vT vD
          rw [hvTD, hok] at hokTD
          have hokT : deltaOkB prev vT = true := by
            cases hT : deltaOkB prev vT <;> simp [hT] at hokTD ⊢
          have hokD : deltaOkB prev2 vD = true := by
            rw [hprev2]
            cases hD : deltaOkB (vT.getLastD prev) vD
            · rw [hD] at hokTD
              simp at hokTD
            · rfl
          have htakerep : dBytes prev vT = List.replicate (1 + kk) b0 := by
            have hlenT : (dBytes prev vT).length = 1 + kk := by
              rw [dBytes_length, hvTlen]
            have htake : (dBytes prev vT ++ dBytes prev2 vD).take (1 + kk) =
                dBytes prev vT := by
              rw [← hlenT]
              exact List.take_left _ _
            rw [← hsplit, hdb] at htake
            rw [← htake, Nat.add_comm 1 kk, List.take_succ_cons, hkk,
              countEq_take, List.replicate_succ]
          have hdropD : dBytes prev2 vD = dR.drop kk := by
            have hdrop : (dBytes prev vT ++ dBytes prev2 vD).drop (1 + kk) =
                dBytes prev2 vD := by
              have hlenT : (dBytes prev vT).length = 1 + kk := by
                rw [dBytes_length, hvTlen]
              rw [← hlenT]
              exact List.drop_left _ _
            rw [← hsplit, hdb] at hdrop
            rw [← hdrop, Nat.add_comm 1 kk, List.drop_succ_cons]
          by_cases hcase : 3 ≤ 1 + kk ∨ b0 = RLE_MARKER
          · -- marker group [0xFF, run, b0]
            rw [if_pos hcase] at hagree hpos hfuel
            cases fuelF with
            | zero => simp at hfuel
            | succ m =>
                rw [fusedGo]
                have hip : i < rlePos := by
                  simp only [List.length_append, List.length_cons] at hpos
                  omega
                rw [if_pos hip,
                  if_neg (show ¬ L ≤ out.length by simp at hL ⊢; omega)]
                dsimp only
                have hval : rs.getD i 0 = RLE_MARKER := by
                  have := hagree 0 (by simp)
                  simpa using this
                rw [hval, if_pos rfl]
                have hcut : ¬ (rlePos ≤ i + 2) := by
                  simp only [List.length_append, List.length_cons] at hpos
                  omega
                rw [if_neg hcut]
                have hrun : rs.getD (i + 1) 0 = 1 + kk := by
                  have := hagree 1 (by simp)
                  simpa using this
                have hvv : rs.getD (i + 2) 0 = b0 := by
                  have := hagree 2 (by simp)
                  simpa using this
                rw [hrun, hvv]
                rw [fusedRun_replay (1 + kk) b0 vT prev out L hvTlen hokT
                  htakerep (by simp only [List.length_cons] at hL; omega)]
                dsimp only
                rw [← hprev2]
                have hrec := ih vD prev2 (i + 3) (out ++ vT) rs rlePos L m
                  (by rw [hvD]; simp only [List.length_drop, List.length_cons]
                      simp only [List.length_cons] at hlen
                      omega)
                  hokD
                  (by rw [hdropD]
                      intro k2 hk2
                      have := hagree (3 + k2) (by simp; omega)
                      rw [show i + (3 + k2) = i + 3 + k2 by omega] at this
                      rw [this]
                      rw [List.getD_append_right _ _ _ _ (by simp)]
                      simp)
                  (by rw [hdropD]
                      simp only [List.length_append, List.length_cons] at hpos
                      omega)
                  (by rw [List.length_append, hvTlen, hvD, List.length_drop]
                      simp only [List.length_cons] at hL ⊢
                      omega)
                  (by rw [hdropD]
                      simp only [List.length_append, List.length_cons] at hfuel
                      omega)
                rw [hrec, List.append_assoc, hvTD]
          · -- literal group, run is 1 or 2
            rw [if_neg hcase] at hagree hpos hfuel
            push_neg at hcase
            obtain ⟨hrunsmall, hbne⟩ := hcase
            have hkk01 : kk = 0 ∨ kk = 1 := by omega
            rcases hkk01 with hkk0 | hkk1
            · -- single literal byte
              rw [hkk0, List.drop_zero] at hagree hpos hfuel
              cases fuelF with
              | zero => simp at hfuel
              | succ m =>
                  rw [fusedGo]
                  have hip : i < rlePos := by
                    simp only [List.length_append, List.length_replicate] at hpos
                    omega
                  rw [if_pos hip,
                    if_neg (show ¬ L ≤ out.length by simp at hL ⊢; omega)]
                  dsimp only
                  have hval : rs.getD i 0 = b0 := by
                    have := hagree 0 (by simp)
                    simpa using this
                  rw [hval, if_neg hbne]
                  simp only [deltaOkB, Bool.and_eq_true, decide_eq_true_eq] at hok
                  have hpix : clampPix prev b0 = x := by
                    rw [hb0]
                    exact clampPix_byte prev x hok.1.1.1 hok.1.1.2 hok.1.2
                  rw [hpix]
                  have hrec := ih xs x (i + 1) (out ++ [x]) rs rlePos L m
                    (by simp only [List.length_cons] at hlen; omega)
                    hok2
                    (by rw [hdR] at hagree
                        intro k2 hk2
                        have := hagree (1 + k2) (by simp; omega)
                        rw [show i + (1 + k2) = i + 1 + k2 by omega] at this
                        rw [this]
                        rw [List.getD_append_right _ _ _ _ (by simp)]
                        simp)
                    (by rw [hdR] at hpos
                        simp only [List.length_append, List.length_replicate]
                          at hpos
                        omega)
                    (by simp only [List.length_append, List.length_cons,
                          List.length_nil] at hL ⊢
                        omega)
                    (by rw [hdR] at hfuel
                        simp only [List.length_append, List.length_replicate]
                          at hfuel
                        omega)
                  rw [hrec, List.append_assoc]
                  simp
            · -- two literal bytes
              cases xs with
              | nil => rw [hkk1] at hkxs; simp at hkxs
              | cons x2 rest2 =>
                  obtain ⟨hdb2, hble2, hx2le, hok3⟩ := dBytes_head x x2 rest2 hok2
                  have hb2 : (((x2 : Int) - (x : Int) + 128).toNat) = b0 := by
                    have h1 := countEq_take b0 dR 254
                    rw [← hkk, hkk1, hdR, hdb2] at h1
                    simpa using h1
                  rw [hkk1] at hagree hpos hfuel
                  cases fuelF with
                  | zero => simp at hfuel
                  | succ m =>
                      rw [fusedGo]
                      have hip : i < rlePos := by
                        simp only [List.length_append, List.length_replicate]
                          at hpos
                        omega
                      rw [if_pos hip,
                        if_neg (show ¬ L ≤ out.length by simp at hL ⊢; omega)]
                      dsimp only
                      have hval : rs.getD i 0 = b0 := by
                        have := hagree 0 (by simp)
                        simpa using this
                      rw [hval, if_neg hbne]
                      simp only [deltaOkB, Bool.and_eq_true,
                        decide_eq_true_eq] at hok
                      have hpix : clampPix prev b0 = x := by
                        rw [hb0]
                        exact clampPix_byte prev x hok.1.1.1 hok.1.1.2 hok.1.2
                      rw [hpix]
                      cases m with
                      | zero =>
                          simp only [List.length_append,
                            List.length_replicate] at hfuel
                          omega
                      | succ m2 =>
                          rw [fusedGo]
                          have hip2 : i + 1 < rlePos := by
                            simp only [List.length_append,
                              List.length_replicate] at hpos
                            omega
                          rw [if_pos hip2,
                            if_neg (show ¬ L ≤ (out ++ [x]).length by
                              simp at hL ⊢; omega)]
                          dsimp only
                          have hval2 : rs.getD (i + 1) 0 = b0 := by
                            have := hagree 1 (by simp)
                            simpa using this
                          rw [hval2, if_neg hbne]
                          simp only [deltaOkB, Bool.and_eq_true,
                            decide_eq_true_eq] at hok2
                          have hpix2 : clampPix x b0 = x2 := by
                            rw [← hb2]
                            exact clampPix_byte x x2 hok2.1.1.1 hok2.1.1.2
                              hok2.1.2
                          rw [hpix2]
                          have hdrop1 : dR.drop 1 = dBytes x2 rest2 := by
                            rw [hdR, hdb2]
                            simp
                          have hrec := ih rest2 x2 (i + 2) ((out ++ [x]) ++ [x2])
                            rs rlePos L m2
                            (by simp only [List.length_cons] at hlen; omega)
                            hok3
                            (by rw [← hdrop1]
                                intro k2 hk2
                                have := hagree (2 + k2)
                                  (by simp only [List.length_append,
                                        List.length_replicate]
                                      omega)
                                rw [show i + (2 + k2) = i + 2 + k2 by omega]
                                  at this
                                rw [this]
                                rw [List.getD_append_right _ _ _ _ (by simp)]
                                simp)
                            (by rw [← hdrop1]
                                simp only [List.length_append,
                                  List.length_replicate] at hpos
                                omega)
                            (by simp only [List.length_append,
                                  List.length_cons, List.length_nil] at hL ⊢
                                omega)
                            (by rw [← hdrop1]
                                simp only [List.length_append,
                                  List.length_replicate] at hfuel
                                omega)
                          rw [hrec]
                          simp

/-! Stage 2 for claim C2: the canonical Huffman code.  Generic facts about
the stable insertion sort `jsSort` first. -/

theorem jsSortInsert_perm (le : α → α → Bool) (x : α) (l : List α) :
    (jsSortInsert le x l).Perm (x :: l) := by
  induction l with
  | nil => rfl
  | cons y ys ih =>
      rw [jsSortInsert]
      by_cases h : le y x ∧ ¬ le x y
      · rw [if_pos h]
        exact ((ih.cons y).trans (List.Perm.swap x y ys)).symm.symm
      · rw [if_neg h]

theorem jsSort_perm (le : α → α → Bool) (l : List α) :
    (jsSort le l).Perm l := by
  induction l with
  | nil => rfl
  | cons x xs ih =>
      rw [jsSort]
      exact (jsSortInsert_perm le x (jsSort le xs)).trans (ih.cons x)

theorem jsSort_length (le : α → α → Bool) (l : List α) :
    (jsSort le l).length = l.length :=
  (jsSort_perm le l).length_eq

theorem jsSortInsert_sorted (le : α → α → Bool)
    (htot : ∀ a b, le a b = true ∨ le b a = true)
    (htrans : ∀ a b c, le a b = true → le b c = true → le a c = true)
    (x : α) (l : List α) (hl : l.Pairwise (fun a b => le a b = true)) :
    (jsSortInsert le x l).Pairwise (fun a b => le a b = true) := by
  induction l with
  | nil => simp [jsSortInsert]
  | cons y ys ih =>
      rw [jsSortInsert]
      rw [List.pairwise_cons] at hl
      by_cases h : le y x ∧ ¬ le x y
      · rw [if_pos h]
        rw [List.pairwise_cons]
        refine ⟨?_, ih hl.2⟩
        intro a ha
        have := (jsSortInsert_perm le x ys).mem_iff.mp ha
        rcases List.mem_cons.mp this with rfl | hmem
        · exact h.1
        · exact hl.1 a hmem
      · rw [if_neg h]
        have hxy : le x y = true := by
          rcases htot x y with hh | hh
          · exact hh
          · by_contra hc
            exact h ⟨hh, hc⟩
        rw [List.pairwise_cons]
        refine ⟨?_, List.pairwise_cons.mpr hl⟩
        intro a ha
        rcases List.mem_cons.mp ha with rfl | hmem
        · exact hxy
        · exact htrans x y a hxy (hl.1 a hmem)

theorem jsSort_sorted (le : α → α → Bool)
    (htot : ∀ a b, le a b = true ∨ le b a = true)
    (htrans : ∀ a b c, le a b = true → le b c = true → le a c = true)
    (l : List α) :
    (jsSort le l).Pairwise (fun a b => le a b = true) := by
  induction l with
  | nil => simp [jsSort]
  | cons x xs ih => exact jsSortInsert_sorted le htot htrans x (jsSort le xs) ih

theorem jsSortInsert_of_le (le : α → α → Bool) (x : α) (l : List α)
    (h : ∀ a ∈ l, le x a = true) : jsSortInsert le x l = x :: l := by
  cases l with
  | nil => rfl
  | cons y ys =>
      rw [jsSortInsert, if_neg]
      intro hc
      exact hc.2 (h y (List.mem_cons_self y ys))

/-- Sorting an already sorted list is the identity (the decoder re-sorts the
canonically ordered header entries). -/
theorem jsSort_sorted_id (le : α → α → Bool) (l : List α)
    (h : l.Pairwise (fun a b => le a b = true)) : jsSort le l = l := by
  induction l with
  | nil => rfl
  | cons x xs ih =>
      rw [List.pairwise_cons] at h
      rw [jsSort, ih h.2]
      exact jsSortInsert_of_le le x xs h.1

/-- Keys of the frequency map: no duplicates, and every input value is a
key. -/
theorem countFreqs_keys (l : List Nat) : ∀ acc : List (Nat × Nat),
    (acc.map Prod.fst).Nodup →
    (((l.foldl (fun acc v =>
        if acc.any (fun p => p.1 = v) then
          acc.map (fun p => if p.1 = v then (p.1, p.2 + 1) else p)
        else acc ++ [(v, 1)]) acc).map Prod.fst).Nodup ∧
      ∀ x, (x ∈ l ∨ x ∈ acc.map Prod.fst) →
        x ∈ (l.foldl (fun acc v =>
          if acc.any (fun p => p.1 = v) then
            acc.map (fun p => if p.1 = v then (p.1, p.2 + 1) else p)
          else acc ++ [(v, 1)]) acc).map Prod.fst) := by
  induction l with
  | nil =>
      intro acc hnd
      refine ⟨hnd, ?_⟩
      intro x hx
      rcases hx with hx | hx
      · simp at hx
      · exact hx
  | cons v vs ih =>
      intro acc hnd
      simp only [List.foldl_cons]
      have hstep : ((if acc.any (fun p => p.1 = v) then
          acc.map (fun p => if p.1 = v then (p.1, p.2 + 1) else p)
        else acc ++ [(v, 1)]).map Prod.fst) =
          if acc.any (fun p => p.1 = v) then acc.map Prod.fst
          else acc.map Prod.fst ++ [v] := by
        by_cases h : acc.any (fun p => p.1 = v)
        · rw [if_pos h, if_pos h, List.map_map]
          congr 1
          funext p
          by_cases hp : p.1 = v <;> simp [hp]
        · rw [if_neg h, if_neg h]
          simp
      have hnd2 : (((if acc.any (fun p => p.1 = v) then
          acc.map (fun p => if p.1 = v then (p.1, p.2 + 1) else p)
        else acc ++ [(v, 1)])).map Prod.fst).Nodup := by
        rw [hstep]
        by_cases h : acc.any (fun p => p.1 = v)
        · rw [if_pos h]
          exact hnd
        · rw [if_neg h]
          have hv : v ∉ acc.map Prod.fst := by
            intro hmem
            rw [List.mem_map] at hmem
            obtain ⟨p, hp, hpv⟩ := hmem
            exact h (List.any_eq_true.mpr ⟨p, hp, by simpa using hpv⟩)
          simp [List.nodup_append, hnd, hv]
      obtain ⟨ha, hb⟩ := ih _ hnd2
      refine ⟨ha, ?_⟩
      intro x hx
      apply hb
      rcases hx with hx | hx
      · rcases List.mem_cons.mp hx with heq | hx2
        · right
          rw [hstep, heq]
          by_cases h : acc.any (fun p => p.1 = v)
          · rw [if_pos h]
            rw [List.any_eq_true] at h
            obtain ⟨p, hp, hpv⟩ := h
            rw [List.mem_map]
            exact ⟨p, hp, by simpa using hpv⟩
          · rw [if_neg h]
            simp
        · exact Or.inl hx2
      · right
        rw [hstep]
        by_cases h : acc.any (fun p => p.1 = v)
        · rwa [if_pos h]
        · rw [if_neg h]
          exact List.mem_append_left _ hx

theorem walkDepths_syms (t : HTree) : ∀ d : Nat,
    (walkDepths t d).map Prod.fst = treeSyms t := by
  induction t with
  | leaf s => intro d; rw [walkDepths, treeSyms]; simp
  | node l r ihl ihr =>
      intro d
      rw [walkDepths, treeSyms]
      simp [ihl, ihr]

theorem walkDepths_ne_nil (t : HTree) : ∀ d : Nat, walkDepths t d ≠ [] := by
  induction t with
  | leaf s => intro d; simp [walkDepths]
  | node l r ihl ihr =>
      intro d
      rw [walkDepths]
      intro h
      exact ihl (d + 1) (List.append_eq_nil.mp h).1

theorem walkDepths_depth_bounds (t : HTree) : ∀ d : Nat,
    ∀ p ∈ walkDepths t d, d ≤ p.2 ∧ 1 ≤ p.2 := by
  induction t with
  | leaf s =>
      intro d p hp
      rw [walkDepths] at hp
      rcases List.mem_singleton.mp hp with rfl
      by_cases h : d = 0 <;> simp [h] <;> omega
  | node l r ihl ihr =>
      intro d p hp
      rw [walkDepths] at hp
      rcases List.mem_append.mp hp with h | h
      · have := ihl (d + 1) p h
        omega
      · have := ihr (d + 1) p h
        omega

/-- Kraft equality for subtrees: the depths of the leaves of a subtree
rooted at depth `d ≥ 1` sum (as `2^(M−len)`) to `2^(M−d)`. -/
theorem walkDepths_kraft (t : HTree) : ∀ d M : Nat, 1 ≤ d →
    (∀ p ∈ walkDepths t d, p.2 ≤ M) →
    ((walkDepths t d).map (fun p => 2 ^ (M - p.2))).sum = 2 ^ (M - d) := by
  induction t with
  | leaf s =>
      intro d M hd hM
      rw [walkDepths]
      rw [if_neg (by omega : ¬ d = 0)]
      simp
  | node l r ihl ihr =>
      intro d M hd hM
      rw [walkDepths] at hM ⊢
      have hMl : ∀ p ∈ walkDepths l (d + 1), p.2 ≤ M :=
        fun p hp => hM p (List.mem_append_left _ hp)
      have hMr : ∀ p ∈ walkDepths r (d + 1), p.2 ≤ M :=
        fun p hp => hM p (List.mem_append_right _ hp)
      have hdM : d + 1 ≤ M := by
        obtain ⟨p, hp⟩ := List.exists_mem_of_ne_nil _ (walkDepths_ne_nil l (d + 1))
        have h1 := (walkDepths_depth_bounds l (d + 1) p hp).1
        have h2 := hMl p hp
        omega
      rw [List.map_append, List.sum_append, ihl (d + 1) M (by omega) hMl,
        ihr (d + 1) M (by omega) hMr]
      have : M - d = (M - (d + 1)) + 1 := by omega
      rw [this, pow_succ]
      ring

theorem insertByFreq_perm (p : Nat × HTree) (l : List (Nat × HTree)) :
    (insertByFreq p l).Perm (p :: l) := by
  induction l with
  | nil => rfl
  | cons q qs ih =>
      rw [insertByFreq]
      by_cases h : q.1 < p.1
      · rw [if_pos h]
        exact (ih.cons q).trans (List.Perm.swap p q qs)
      · rw [if_neg h]

theorem qsyms_perm {q1 q2 : List (Nat × HTree)} (h : q1.Perm q2) :
    (qsyms q1).Perm (qsyms q2) :=
  List.Perm.flatMap_right treeSyms (h.map Prod.snd)

/-- The combining loop preserves the multiset of leaf symbols. -/
theorem combineGo_syms : ∀ (fuel : Nat) (q : List (Nat × HTree)) (t : HTree),
    combineGo fuel q = some t → (treeSyms t).Perm (qsyms q) := by
  intro fuel
  induction fuel with
  | zero =>
      intro q t h
      match q with
      | [] => exact Option.noConfusion h
      | [t0] =>
          rw [combineGo] at h
          injection h with h
          rw [← h]
          simp [qsyms]
      | a :: b :: rest => exact Option.noConfusion h
  | succ fuel ih =>
      intro q t h
      match q with
      | [] => exact Option.noConfusion h
      | [t0] =>
          rw [combineGo] at h
          injection h with h
          rw [← h]
          simp [qsyms]
      | a :: b :: rest =>
          rw [combineGo] at h
          have h1 := ih _ t h
          have h2 : (qsyms (insertByFreq (a.1 + b.1, HTree.node a.2 b.2)
              rest)).Perm (qsyms ((a.1 + b.1, HTree.node a.2 b.2) :: rest)) :=
            qsyms_perm (insertByFreq_perm _ _)
          refine (h1.trans h2).trans ?_
      -- qsyms (m :: rest) = (syms a ++ syms b) ++ qsyms rest
      -- and qsyms (a :: b :: rest) = syms a ++ (syms b ++ qsyms rest)
          simp [qsyms, treeSyms, List.flatMap_cons, List.append_assoc]

/-- The combining loop succeeds on a non-empty queue with enough fuel. -/
theorem combineGo_some : ∀ (fuel : Nat) (q : List (Nat × HTree)),
    q ≠ [] → q.length ≤ fuel + 1 → ∃ t, combineGo fuel q = some t := by
  intro fuel
  induction fuel with
  | zero =>
      intro q hne hlen
      match q with
      | [] => exact absurd rfl hne
      | [t0] => exact ⟨t0.2, by rw [combineGo]⟩
      | a :: b :: rest => simp at hlen
  | succ fuel ih =>
      intro q hne hlen
      match q with
      | [] => exact absurd rfl hne
      | [t0] => exact ⟨t0.2, by rw [combineGo]⟩
      | a :: b :: rest =>
          have hlen2 : (insertByFreq (a.1 + b.1, HTree.node a.2 b.2)
              rest).length = rest.length + 1 :=
            (insertByFreq_perm _ _).length_eq
          obtain ⟨t, ht⟩ := ih (insertByFreq (a.1 + b.1, HTree.node a.2 b.2)
              rest)
            (by intro hc; rw [hc] at hlen2; simp at hlen2)
            (by rw [hlen2]; simp at hlen; omega)
          exact ⟨t, by rw [combineGo]; exact ht⟩

theorem qsyms_leaves (freqs : List (Nat × Nat)) :
    qsyms (freqs.map (fun p => (p.2, HTree.leaf p.1))) = freqs.map Prod.fst := by
  induction freqs with
  | nil => rfl
  | cons p ps ih =>
      simp only [List.map_cons, qsyms, List.flatMap_cons, treeSyms] at ih ⊢
      rw [ih]
      rfl

/-- The symbols of the code-length table are a permutation of the frequency
keys. -/
theorem buildCodeLengths_syms_perm (freqs : List (Nat × Nat)) :
    ((buildCodeLengths freqs).map Prod.fst).Perm (freqs.map Prod.fst) := by
  have hperm := jsSort_perm (fun a b : Nat × HTree => a.1 ≤ b.1)
    (freqs.map (fun p => (p.2, HTree.leaf p.1)))
  simp only [buildCodeLengths]
  cases hqe : jsSort (fun a b : Nat × HTree => a.1 ≤ b.1)
      (freqs.map (fun p => (p.2, HTree.leaf p.1))) with
  | nil =>
      rw [hqe] at hperm
      have : freqs.map (fun p => (p.2, HTree.leaf p.1)) = [] :=
        hperm.symm.eq_nil
      rw [List.map_eq_nil] at this
      rw [this]
  | cons t rest =>
      rw [hqe] at hperm
      cases rest with
      | nil =>
          have hmem : t ∈ freqs.map (fun p => (p.2, HTree.leaf p.1)) :=
            hperm.mem_iff.mp (List.mem_singleton_self t)
          rw [List.mem_map] at hmem
          obtain ⟨p, hp, hpt⟩ := hmem
          rw [← hpt]
          dsimp only
          have hq : (qsyms [t]).Perm (freqs.map Prod.fst) := by
            rw [← qsyms_leaves freqs]
            exact qsyms_perm hperm
          rw [← hpt] at hq
          simpa [qsyms, treeSyms] using hq
      | cons t2 rest2 =>
          obtain ⟨tr, htr⟩ := combineGo_some (t :: t2 :: rest2).length
            (t :: t2 :: rest2) (by simp) (by simp)
          rw [htr]
          dsimp only
          rw [walkDepths_syms]
          have h1 := combineGo_syms _ _ _ htr
          have h2 : (qsyms (t :: t2 :: rest2)).Perm (freqs.map Prod.fst) := by
            rw [← qsyms_leaves freqs]
            exact qsyms_perm hperm
          exact h1.trans h2

/-- Structure of the code-length table: empty, a single symbol of length 1,
or the leaf depths of a tree walked from the root. -/
theorem buildCodeLengths_shape (freqs : List (Nat × Nat)) :
    buildCodeLengths freqs = [] ∨
      (∃ s, buildCodeLengths freqs = [(s, 1)]) ∨
      ∃ t, buildCodeLengths freqs = walkDepths t 0 := by
  simp only [buildCodeLengths]
  cases hqe : jsSort (fun a b : Nat × HTree => a.1 ≤ b.1)
      (freqs.map (fun p => (p.2, HTree.leaf p.1))) with
  | nil => exact Or.inl rfl
  | cons t rest =>
      cases rest with
      | nil =>
          have hperm := jsSort_perm (fun a b : Nat × HTree => a.1 ≤ b.1)
            (freqs.map (fun p => (p.2, HTree.leaf p.1)))
          rw [hqe] at hperm
          have hmem : t ∈ freqs.map (fun p => (p.2, HTree.leaf p.1)) :=
            hperm.mem_iff.mp (List.mem_singleton_self t)
          rw [List.mem_map] at hmem
          obtain ⟨p, hp, hpt⟩ := hmem
          rw [← hpt]
          exact Or.inr (Or.inl ⟨p.1, rfl⟩)
      | cons t2 rest2 =>
          obtain ⟨tr, htr⟩ := combineGo_some (t :: t2 :: rest2).length
            (t :: t2 :: rest2) (by simp) (by simp)
          rw [htr]
          exact Or.inr (Or.inr ⟨tr, rfl⟩)

/-- Every code length is at least 1. -/
theorem buildCodeLengths_len_pos (freqs : List (Nat × Nat)) :
    ∀ p ∈ buildCodeLengths freqs, 1 ≤ p.2 := by
  rcases buildCodeLengths_shape freqs with h | ⟨s, h⟩ | ⟨t, h⟩ <;> rw [h]
  · simp
  · intro p hp
    rcases List.mem_singleton.mp hp with rfl
    exact le_refl 1
  · intro p hp
    exact (walkDepths_depth_bounds t 0 p hp).2

/-- Kraft inequality for the code lengths. -/
theorem buildCodeLengths_kraft (freqs : List (Nat × Nat)) (M : Nat)
    (hM : ∀ p ∈ buildCodeLengths freqs, p.2 ≤ M) :
    ((buildCodeLengths freqs).map (fun p => 2 ^ (M - p.2))).sum ≤ 2 ^ M := by
  rcases buildCodeLengths_shape freqs with h | ⟨s, h⟩ | ⟨t, h⟩ <;>
    rw [h] at hM ⊢
  · simp
  · simp only [List.map_cons, List.map_nil, List.sum_cons, List.sum_nil,
      Nat.add_zero]
    exact Nat.pow_le_pow_right (by norm_num) (by omega)
  · cases t with
    | leaf s =>
        rw [walkDepths] at hM ⊢
        rw [if_pos rfl] at hM ⊢
        simp only [List.map_cons, List.map_nil, List.sum_cons, List.sum_nil,
          Nat.add_zero]
        exact Nat.pow_le_pow_right (by norm_num) (by omega)
    | node l r =>
        rw [walkDepths] at hM ⊢
        have hMl : ∀ p ∈ walkDepths l 1, p.2 ≤ M :=
          fun p hp => hM p (List.mem_append_left _ hp)
        have hMr : ∀ p ∈ walkDepths r 1, p.2 ≤ M :=
          fun p hp => hM p (List.mem_append_right _ hp)
        have hM1 : 1 ≤ M := by
          obtain ⟨p, hp⟩ := List.exists_mem_of_ne_nil _ (walkDepths_ne_nil l 1)
          have := (walkDepths_depth_bounds l 1 p hp).1
          have := hMl p hp
          omega
        rw [List.map_append, List.sum_append,
          walkDepths_kraft l 1 M (le_refl 1) hMl,
          walkDepths_kraft r 1 M (le_refl 1) hMr]
        have h2 : 2 ^ M = 2 ^ (M - 1) * 2 := by
          conv_lhs => rw [show M = (M - 1) + 1 by omega]
          rw [pow_succ]
        omega

theorem assignRest_eq_canonFrom : ∀ (rest : List (Nat × Nat)) (code p : Nat),
    assignRest code p rest = canonFrom (code + 1) p rest := by
  intro rest
  induction rest with
  | nil => intro code p; rfl
  | cons q r ih =>
      intro code p
      obtain ⟨s, l⟩ := q
      rw [assignRest, canonFrom]
      rw [ih]

theorem assignCodes_eq_canonFrom (s0 l0 : Nat) (rest : List (Nat × Nat)) :
    assignCodes ((s0, l0) :: rest) = canonFrom 0 l0 ((s0, l0) :: rest) := by
  rw [assignCodes, canonFrom, assignRest_eq_canonFrom]
  simp [Nat.shiftLeft_eq]

theorem canonFrom_length : ∀ (l : List (Nat × Nat)) (x p : Nat),
    (canonFrom x p l).length = l.length := by
  intro l
  induction l with
  | nil => intro x p; rfl
  | cons q r ih =>
      intro x p
      obtain ⟨s, l1⟩ := q
      rw [canonFrom]
      simp [ih]

theorem canonFrom_map : ∀ (l : List (Nat × Nat)) (x p : Nat),
    (canonFrom x p l).map (fun t => (t.1, t.2.1)) = l := by
  intro l
  induction l with
  | nil => intro x p; rfl
  | cons q r ih =>
      intro x p
      obtain ⟨s, l1⟩ := q
      rw [canonFrom]
      simp [ih]

theorem canonFrom_append : ∀ (l1 l2 : List (Nat × Nat)) (x p : Nat),
    canonFrom x p (l1 ++ l2) =
      canonFrom x p l1 ++
        canonFrom (canonState x p l1).1 (canonState x p l1).2 l2 := by
  intro l1
  induction l1 with
  | nil => intro l2 x p; rfl
  | cons q r ih =>
      intro l2 x p
      obtain ⟨s, l⟩ := q
      rw [List.cons_append, canonFrom, canonFrom, canonState]
      rw [ih]
      rfl

theorem seqCodes_length : ∀ (blk : List (Nat × Nat)) (c0 : Nat),
    (seqCodes c0 blk).length = blk.length := by
  intro blk
  induction blk with
  | nil => intro c0; rfl
  | cons q r ih =>
      intro c0
      obtain ⟨s, l⟩ := q
      rw [seqCodes]
      simp [ih]

theorem seqCodes_getD : ∀ (blk : List (Nat × Nat)) (c0 j : Nat),
    j < blk.length →
    (seqCodes c0 blk).getD j (0, 0, 0) =
      ((blk.getD j (0, 0)).1, (blk.getD j (0, 0)).2, c0 + j) := by
  intro blk
  induction blk with
  | nil => intro c0 j h; simp at h
  | cons q r ih =>
      intro c0 j h
      obtain ⟨s, l⟩ := q
      rw [seqCodes]
      cases j with
      | zero => simp
      | succ j2 =>
          simp only [List.getD_cons_succ]
          rw [ih c0.succ j2 (by simp at h; omega)]
          have : c0 + 1 + j2 = c0 + (j2 + 1) := by omega
          rw [Nat.succ_eq_add_one, this]

/-- Assigning a non-empty equal-length block: consecutive codes from the
shifted start, then the rest from one past the block's last code. -/
theorem canonFrom_group (L : Nat) : ∀ (grp : List (Nat × Nat))
    (x p : Nat) (rest : List (Nat × Nat)),
    grp ≠ [] → (∀ q ∈ grp, q.2 = L) →
    canonFrom x p (grp ++ rest) =
      seqCodes (x <<< (L - p)) grp ++
        canonFrom (x <<< (L - p) + grp.length) L rest := by
  intro grp
  induction grp with
  | nil => intro x p rest hne hall; exact absurd rfl hne
  | cons q tail ih =>
      intro x p rest hne hall
      obtain ⟨s, l1⟩ := q
      have hl1 : L = l1 := (hall (s, l1) (List.mem_cons_self _ _)).symm
      subst hl1
      rw [List.cons_append, canonFrom, seqCodes]
      cases tail with
      | nil =>
          rw [List.nil_append, seqCodes]
          simp only [List.length_cons, List.length_nil]
          rw [List.singleton_append]
      | cons q2 tail2 =>
          rw [ih (x <<< (L - p) + 1) L rest (by simp)
            (fun q hq => hall q (List.mem_cons_of_mem _ hq))]
          have hz : (x <<< (L - p) + 1) <<< (L - L) = x <<< (L - p) + 1 := by
            simp
          rw [hz]
          simp only [List.cons_append, List.length_cons]
          have he : x <<< (L - p) + 1 + (tail2.length + 1) =
              x <<< (L - p) + (tail2.length + 1 + 1) := by omega
          rw [he]

/-- Kraft-sum invariant: every assigned code fits in its length. -/
theorem canonFrom_fits (M : Nat) : ∀ (l : List (Nat × Nat)) (x p : Nat),
    x * 2 ^ (M - p) + (l.map (fun q => 2 ^ (M - q.2))).sum ≤ 2 ^ M →
    (∀ q ∈ l, p ≤ q.2 ∧ q.2 ≤ M) →
    l.Pairwise (fun a b => a.2 ≤ b.2) →
    ∀ t ∈ canonFrom x p l, t.2.2 + 1 ≤ 2 ^ t.2.1 := by
  intro l
  induction l with
  | nil => intro x p hk hb hs t ht; simp [canonFrom] at ht
  | cons q tail ih =>
      intro x p hk hb hs t ht
      obtain ⟨s, l1⟩ := q
      have hpl1 : p ≤ l1 ∧ l1 ≤ M := hb (s, l1) (List.mem_cons_self _ _)
      have hc : x <<< (l1 - p) = x * 2 ^ (l1 - p) := Nat.shiftLeft_eq x _
      have hscale : (x * 2 ^ (l1 - p) + 1) * 2 ^ (M - l1) =
          x * 2 ^ (M - p) + 2 ^ (M - l1) := by
        have hexp : 2 ^ (l1 - p) * 2 ^ (M - l1) = 2 ^ (M - p) := by
          rw [← pow_add]
          congr 1
          omega
        calc (x * 2 ^ (l1 - p) + 1) * 2 ^ (M - l1)
            = x * (2 ^ (l1 - p) * 2 ^ (M - l1)) + 2 ^ (M - l1) := by ring
          _ = x * 2 ^ (M - p) + 2 ^ (M - l1) := by rw [hexp]
      rw [canonFrom] at ht
      simp only [List.map_cons, List.sum_cons] at hk
      rcases List.mem_cons.mp ht with heq | hmem
      · subst heq
        dsimp only
        rw [hc]
        have h1 : (x * 2 ^ (l1 - p) + 1) * 2 ^ (M - l1) ≤ 2 ^ M := by
          rw [hscale]
          omega
        have h2 : (2 : Nat) ^ M = 2 ^ l1 * 2 ^ (M - l1) := by
          rw [← pow_add]
          congr 1
          omega
        rw [h2] at h1
        exact Nat.le_of_mul_le_mul_right h1 (Nat.pos_pow_of_pos _ (by norm_num))
      · rw [List.pairwise_cons] at hs
        refine ih (x <<< (l1 - p) + 1) l1 ?_ ?_ hs.2 t hmem
        · rw [hc, hscale]
          omega
        · intro q hq
          exact ⟨hs.1 q hq, (hb q (List.mem_cons_of_mem _ hq)).2⟩

theorem canonDom_trans : Transitive canonDom := by
  intro a b c hab hbc
  obtain ⟨hl1, h1⟩ := hab
  obtain ⟨hl2, h2⟩ := hbc
  refine ⟨le_trans hl1 hl2, ?_⟩
  have hexp : 2 ^ (b.2.1 - a.2.1) * 2 ^ (c.2.1 - b.2.1) =
      2 ^ (c.2.1 - a.2.1) := by
    rw [← pow_add]
    congr 1
    omega
  calc (a.2.2 + 1) * 2 ^ (c.2.1 - a.2.1)
      = ((a.2.2 + 1) * 2 ^ (b.2.1 - a.2.1)) * 2 ^ (c.2.1 - b.2.1) := by
        rw [mul_assoc, hexp]
    _ ≤ b.2.2 * 2 ^ (c.2.1 - b.2.1) := Nat.mul_le_mul_right _ h1
    _ ≤ (b.2.2 + 1) * 2 ^ (c.2.1 - b.2.1) := Nat.mul_le_mul_right _ (by omega)
    _ ≤ c.2.2 := h2

theorem canonFrom_chain : ∀ (l : List (Nat × Nat)) (x p : Nat),
    l.Pairwise (fun a b => a.2 ≤ b.2) →
    List.Chain' canonDom (canonFrom x p l) := by
  intro l
  induction l with
  | nil => intro x p h; exact List.chain'_nil
  | cons q tail ih =>
      intro x p h
      obtain ⟨s, l1⟩ := q
      rw [List.pairwise_cons] at h
      rw [canonFrom]
      cases tail with
      | nil => exact List.chain'_singleton _
      | cons q2 tail2 =>
          obtain ⟨s2, l2⟩ := q2
          rw [canonFrom]
          rw [List.chain'_cons]
          constructor
          · refine ⟨h.1 (s2, l2) (List.mem_cons_self _ _), ?_⟩
            simp [Nat.shiftLeft_eq]
          · have := ih (x <<< (l1 - p) + 1) l1 h.2
            rw [canonFrom] at this
            exact this

theorem canonFrom_pairwise (l : List (Nat × Nat)) (x p : Nat)
    (h : l.Pairwise (fun a b => a.2 ≤ b.2)) :
    (canonFrom x p l).Pairwise canonDom := by
  haveI : IsTrans (Nat × Nat × Nat) canonDom :=
    ⟨fun a b c hab hbc => canonDom_trans hab hbc⟩
  exact List.chain'_iff_pairwise.mp (canonFrom_chain l x p h)

theorem canonSort_perm (cl : List (Nat × Nat)) : (canonSort cl).Perm cl :=
  jsSort_perm _ cl

theorem canonSort_pairwise (cl : List (Nat × Nat)) :
    (canonSort cl).Pairwise
      (fun a b => a.2 < b.2 ∨ (a.2 = b.2 ∧ a.1 ≤ b.1)) := by
  have h := jsSort_sorted
    (fun a b : Nat × Nat => decide (a.2 < b.2 ∨ (a.2 = b.2 ∧ a.1 ≤ b.1)))
    (by
      intro a b
      rcases Nat.lt_trichotomy a.2 b.2 with h1 | h1 | h1
      · left; simp; omega
      · rcases Nat.le_total a.1 b.1 with h2 | h2
        · left; simp; omega
        · right; simp; omega
      · right; simp; omega)
    (by
      intro a b c h1 h2
      simp only [decide_eq_true_eq] at h1 h2 ⊢
      omega)
    cl
  refine h.imp ?_
  intro a b hab
  simpa using hab

theorem canonSort_lens_sorted (cl : List (Nat × Nat)) :
    (canonSort cl).Pairwise (fun a b => a.2 ≤ b.2) := by
  refine (canonSort_pairwise cl).imp ?_
  intro a b hab
  omega

theorem shl_or_bit (a b : Nat) (hb : b ≤ 1) : (a <<< 1) ||| b = 2 * a + b := by
  rw [Nat.shiftLeft_eq, pow_one, Nat.mul_comm]
  rcases Nat.le_one_iff_eq_zero_or_eq_one.mp hb with rfl | rfl
  · simp
  · have h1 : (2 * a ||| 1) / 2 = a := by
      rw [Nat.or_div_two]
      simp
    have h2 : (2 * a ||| 1) % 2 = 1 := by
      rw [Nat.or_mod_two_eq_one]
      simp
    omega

theorem bitsVal_append_bit (q : List Nat) (b : Nat) :
    bitsVal (q ++ [b]) = 2 * bitsVal q + b := by
  rw [bitsVal, List.foldl_append]
  rfl

theorem chunk_stable (q : List Nat) (b : Nat) (i : Nat)
    (h : 8 * i + 8 ≤ q.length) :
    ((q ++ [b]).drop (8 * i)).take 8 = (q.drop (8 * i)).take 8 := by
  rw [List.drop_append_of_le_length (by omega)]
  rw [List.take_append_of_le_length (by rw [List.length_drop]; omega)]

theorem byteListOf_snoc_full (q : List Nat) (b : Nat) (h : q.length % 8 = 7) :
    byteListOf (q ++ [b]) =
      byteListOf q ++ [bitsVal ((q ++ [b]).drop (8 * (q.length / 8)))] := by
  rw [byteListOf, byteListOf]
  have hlen : (q ++ [b]).length / 8 = q.length / 8 + 1 := by
    rw [List.length_append, List.length_cons, List.length_nil]
    omega
  rw [hlen, List.range_succ, List.map_append, List.map_cons, List.map_nil]
  congr 1
  · apply List.map_congr_left
    intro i hi
    rw [List.mem_range] at hi
    rw [chunk_stable q b i (by omega)]
  · have hfull : ((q ++ [b]).drop (8 * (q.length / 8))).length ≤ 8 := by
      rw [List.length_drop, List.length_append, List.length_cons,
        List.length_nil]
      omega
    rw [List.take_of_length_le hfull]

theorem byteListOf_snoc_pad (q : List Nat) (b : Nat)
    (h : q.length % 8 ≠ 7) :
    byteListOf (q ++ [b]) = byteListOf q := by
  rw [byteListOf, byteListOf]
  have hlen : (q ++ [b]).length / 8 = q.length / 8 := by
    rw [List.length_append, List.length_cons, List.length_nil]
    omega
  rw [hlen]
  apply List.map_congr_left
  intro i hi
  rw [List.mem_range] at hi
  rw [chunk_stable q b i (by omega)]

/-- Folding `pushBit` over a bit list from a fresh accumulator: full bytes
appended to the output, leftover bits in the accumulator, and no resize as
long as the full bytes fit the initial capacity. -/
theorem pushBit_fold (p : List Nat) (out0 : List Nat) (B0 : Nat)
    (hbits : ∀ b ∈ p, b ≤ 1)
    (hcap : out0.length + p.length / 8 ≤ B0) :
    p.foldl pushBit ⟨out0, 0, 0, B0⟩ =
      ⟨out0 ++ byteListOf p, bitsVal (p.drop (8 * (p.length / 8))),
        p.length % 8, B0⟩ := by
  induction p using List.reverseRecOn with
  | nil => simp [byteListOf, bitsVal]
  | append_singleton q b ih =>
      have hbq : ∀ x ∈ q, x ≤ 1 := fun x hx =>
        hbits x (List.mem_append_left _ hx)
      have hb : b ≤ 1 :=
        hbits b (List.mem_append_right _ (List.mem_singleton_self b))
      have hqb8 : (q ++ [b]).length = q.length + 1 := by
        rw [List.length_append, List.length_cons, List.length_nil]
      have hcapq : out0.length + q.length / 8 ≤ B0 := by
        rw [hqb8] at hcap
        omega
      have hblen : (byteListOf q).length = q.length / 8 := by
        rw [byteListOf, List.length_map, List.length_range]
      have hdrop : 8 * (q.length / 8) ≤ q.length := by omega
      rw [List.foldl_append, ih hbq hcapq, List.foldl_cons, List.foldl_nil]
      rw [pushBit]
      dsimp only
      rw [shl_or_bit _ _ hb]
      by_cases h7 : q.length % 8 = 7
      · rw [if_pos (by omega : q.length % 8 + 1 = 8)]
        rw [if_neg (by
          rw [List.length_append, hblen]
          rw [hqb8] at hcap
          omega)]
        rw [byteListOf_snoc_full q b h7]
        simp only [BitPack.mk.injEq]
        refine ⟨?_, ?_, ?_, trivial⟩
        · rw [List.drop_append_of_le_length hdrop, bitsVal_append_bit,
            List.append_assoc]
        · rw [hqb8]
          have h8 : 8 * ((q.length + 1) / 8) = q.length + 1 := by omega
          rw [h8, List.drop_of_length_le (by rw [hqb8])]
          rfl
        · rw [hqb8]
          omega
      · rw [if_neg (by omega : ¬ q.length % 8 + 1 = 8)]
        rw [byteListOf_snoc_pad q b h7]
        simp only [BitPack.mk.injEq]
        refine ⟨trivial, ?_, ?_, trivial⟩
        · rw [hqb8]
          have h8 : (q.length + 1) / 8 = q.length / 8 := by omega
          rw [h8, List.drop_append_of_le_length hdrop, bitsVal_append_bit]
        · rw [hqb8]
          omega

theorem foldl_flatMap {β γ δ : Type} (g : β → List γ) (f : δ → γ → δ) :
    ∀ (l : List β) (st : δ),
    l.foldl (fun st sym => (g sym).foldl f st) st = (l.flatMap g).foldl f st := by
  intro l
  induction l with
  | nil => intro st; rfl
  | cons x xs ih =>
      intro st
      rw [List.foldl_cons, List.flatMap_cons, List.foldl_append, ih]

theorem flatMap_pairs_length (cl : List (Nat × Nat)) :
    (cl.flatMap (fun p => [p.1, p.2])).length = 2 * cl.length := by
  induction cl with
  | nil => rfl
  | cons q r ih =>
      rw [List.flatMap_cons]
      simp only [List.length_append, List.length_cons, List.length_nil, ih]
      omega

theorem headerOf_length (data : List Int) :
    (headerOf data).length = 1 + 2 * (clOf data).length := by
  rw [headerOf]
  simp only [List.length_append, List.length_cons, List.length_nil]
  rw [flatMap_pairs_length]

theorem codeBits_le_one (c l : Nat) : ∀ b ∈ codeBits c l, b ≤ 1 := by
  intro b hb
  rw [codeBits, List.mem_map] at hb
  obtain ⟨j, _, hj⟩ := hb
  rw [← hj, Nat.and_one_is_mod]
  omega

theorem codeBits_length (c l : Nat) : (codeBits c l).length = l := by
  rw [codeBits]
  simp

/-- Shape of the encoder output when the packed stream fits the initial
buffer: header, full bytes, then the zero-padded final byte if any bits
remain. -/
theorem encodeHuffman_shape (data : List Int) (hne : ¬ data.length = 0)
    (hcap : (headerOf data).length + (allBitsOf data).length / 8 <
      (1 + (clOf data).length * 2 + (rleOfI data).length) * 2) :
    encodeHuffman data =
      headerOf data ++ byteListOf (allBitsOf data) ++
        (if (allBitsOf data).length % 8 = 0 then []
         else [bitsVal ((allBitsOf data).drop
             (8 * ((allBitsOf data).length / 8))) <<<
           (8 - (allBitsOf data).length % 8)]) := by
  have hr : rleOfI data = rleEncode (deltaEncode data) := rfl
  have hc : clOf data = canonSort (buildCodeLengths (countFreqs
    (rleEncode (deltaEncode data)))) := rfl
  have hcs : codesOf data = assignCodes (canonSort (buildCodeLengths
    (countFreqs (rleEncode (deltaEncode data))))) := rfl
  rw [encodeHuffman, if_neg hne]
  dsimp only
  rw [← hcs, ← hc, ← hr]
  rw [foldl_flatMap (fun sym => codeBits (codeOf (codesOf data) sym).1
    (codeOf (codesOf data) sym).2) pushBit]
  have hback : ((rleOfI data).flatMap (fun sym =>
      codeBits (codeOf (codesOf data) sym).1
        (codeOf (codesOf data) sym).2)) = allBitsOf data := rfl
  rw [hback]
  have hh : headerOf data = [(clOf data).length % 256] ++
      (clOf data).flatMap (fun p => [p.1, p.2]) := rfl
  rw [← hh]
  rw [pushBit_fold (allBitsOf data) (headerOf data)
    ((1 + (clOf data).length * 2 + (rleOfI data).length) * 2)
    (by
      intro b hb
      rw [allBitsOf, List.mem_flatMap] at hb
      obtain ⟨sym, _, hmem⟩ := hb
      exact codeBits_le_one _ _ b hmem)
    (by omega)]
  dsimp only
  by_cases h0 : (allBitsOf data).length % 8 = 0
  · rw [if_pos h0, if_neg (by omega : ¬ 0 < (allBitsOf data).length % 8)]
    rw [List.append_nil]
  · rw [if_neg h0, if_pos (by omega : 0 < (allBitsOf data).length % 8)]
    rw [if_pos (by
      rw [headerOf_length] at hcap
      simp only [List.length_append]
      rw [byteListOf, List.length_map, List.length_range, headerOf_length]
      omega)]

theorem or_eq_add_pow : ∀ (k : Nat) (a b : Nat), a % 2 ^ k = 0 → b < 2 ^ k →
    a ||| b = a + b := by
  intro k
  induction k with
  | zero =>
      intro a b ha hb
      have hb0 : b = 0 := by simpa using hb
      subst hb0
      simp
  | succ k ih =>
      intro a b ha hb
      have ha2 : a % 2 = 0 := by
        rcases Nat.dvd_of_mod_eq_zero ha with ⟨m, hm⟩
        subst hm
        rw [pow_succ, show 2 ^ k * 2 * m = 2 * (2 ^ k * m) by ring]
        exact Nat.mul_mod_right 2 _
      have hmod : (a ||| b) % 2 = b % 2 := by
        by_cases hb2 : b % 2 = 1
        · rw [Nat.or_mod_two_eq_one.mpr (Or.inr hb2), hb2]
        · have hne : ¬ ((a ||| b) % 2 = 1) := by
            rw [Nat.or_mod_two_eq_one]
            push_neg
            exact ⟨by omega, by omega⟩
          omega
      have hdiv : (a ||| b) / 2 = a / 2 + b / 2 := by
        rw [Nat.or_div_two]
        refine ih (a / 2) (b / 2) ?_ ?_
        · rcases Nat.dvd_of_mod_eq_zero ha with ⟨m, hm⟩
          subst hm
          rw [pow_succ]
          rw [show 2 ^ k * 2 * m / 2 = 2 ^ k * m by
            rw [Nat.mul_assoc, Nat.mul_comm 2 m, ← Nat.mul_assoc,
              Nat.mul_div_cancel _ (by norm_num)]]
          exact Nat.mul_mod_right _ _
        · rw [pow_succ] at hb
          omega
      omega

/-- `bitsVal` with an arbitrary seed. -/
theorem bitsVal_seed : ∀ (l : List Nat) (a : Nat),
    l.foldl (fun a b => 2 * a + b) a = a * 2 ^ l.length + bitsVal l := by
  intro l
  induction l with
  | nil => intro a; simp [bitsVal]
  | cons b t ih =>
      intro a
      rw [List.foldl_cons, ih]
      have h2 : bitsVal (b :: t) = b * 2 ^ t.length + bitsVal t := by
        rw [bitsVal, List.foldl_cons, show 2 * 0 + b = b by omega]
        exact ih b
      rw [h2]
      simp only [List.length_cons]
      ring

theorem bitsVal_cons (b : Nat) (t : List Nat) :
    bitsVal (b :: t) = b * 2 ^ t.length + bitsVal t := by
  rw [bitsVal, List.foldl_cons, show 2 * 0 + b = b by omega]
  exact bitsVal_seed t b

theorem bitsVal_lt : ∀ (l : List Nat), (∀ b ∈ l, b ≤ 1) →
    bitsVal l < 2 ^ l.length := by
  intro l
  induction l with
  | nil => intro h; rw [bitsVal]; simp
  | cons b t ih =>
      intro h
      rw [bitsVal_cons, List.length_cons, pow_succ]
      have hb : b ≤ 1 := h b (List.mem_cons_self _ _)
      have := ih (fun x hx => h x (List.mem_cons_of_mem _ hx))
      nlinarith

theorem bitsVal_append (a b : List Nat) :
    bitsVal (a ++ b) = bitsVal a * 2 ^ b.length + bitsVal b := by
  rw [bitsVal, List.foldl_append, bitsVal_seed]
  rfl

theorem bitsVal_zeros (q : List Nat) (k : Nat) :
    bitsVal (q ++ List.replicate k 0) = bitsVal q * 2 ^ k := by
  rw [bitsVal_append, List.length_replicate]
  have hz : bitsVal (List.replicate k 0) = 0 := by
    induction k with
    | zero => rfl
    | succ n ih => rw [List.replicate_succ, bitsVal_cons, ih]; omega
  omega

theorem codeBits_getD (c l j : Nat) (hj : j < l) :
    (codeBits c l).getD j 0 = (c >>> (l - 1 - j)) &&& 1 := by
  rw [codeBits]
  have hlen : ((List.range l).reverse).length = l := by simp
  rw [List.getD_eq_getElem?_getD, List.getElem?_map]
  rw [List.getElem?_reverse (by simpa using hj)]
  rw [List.length_range, List.getElem?_range (by omega)]
  simp

/-- The value of the first `j` bits of an `l`-bit code is the code shifted
down by `l − j`. -/
theorem codeBits_prefix_val (c l : Nat) (hc : c < 2 ^ l) : ∀ j, j ≤ l →
    bitsVal ((codeBits c l).take j) = c >>> (l - j) := by
  intro j
  induction j with
  | zero =>
      intro _
      rw [List.take_zero]
      have : c >>> l = 0 := by
        rw [Nat.shiftRight_eq_div_pow]
        exact Nat.div_eq_of_lt hc
      rw [Nat.sub_zero, this]
      rfl
  | succ j ih =>
      intro hjl
      have hlen : (codeBits c l).length = l := codeBits_length c l
      have htake : (codeBits c l).take (j + 1) =
          (codeBits c l).take j ++ [(codeBits c l).getD j 0] := by
        rw [List.getD_eq_getElem?_getD]
        rw [List.take_succ]
        congr 1
        rw [List.getElem?_eq_getElem (by omega)]
        rfl
      rw [htake, bitsVal_append_bit, ih (by omega), codeBits_getD c l j (by omega)]
      rw [Nat.shiftRight_eq_div_pow, Nat.shiftRight_eq_div_pow,
        Nat.shiftRight_eq_div_pow, Nat.and_one_is_mod]
      have h1 : l - j = (l - 1 - j) + 1 := by omega
      have h2 : l - (j + 1) = l - 1 - j := by omega
      rw [h1, h2, pow_succ]
      rw [← Nat.div_div_eq_div_mul c (2 ^ (l - 1 - j)) 2]
      omega

theorem chunk_stable_list (q zs : List Nat) (i : Nat)
    (h : 8 * i + 8 ≤ q.length) :
    ((q ++ zs).drop (8 * i)).take 8 = (q.drop (8 * i)).take 8 := by
  rw [List.drop_append_of_le_length (by omega)]
  rw [List.take_append_of_le_length (by rw [List.length_drop]; omega)]

theorem padBits_length (q : List Nat) :
    (padBits q).length = 8 * ((q.length + 7) / 8) := by
  rw [padBits, List.length_append, List.length_replicate]
  omega

theorem padBits_bits (q : List Nat) (hq : ∀ b ∈ q, b ≤ 1) :
    ∀ b ∈ padBits q, b ≤ 1 := by
  intro b hb
  rcases List.mem_append.mp hb with h | h
  · exact hq b h
  · rw [List.eq_of_mem_replicate h]
    omega

theorem padBits_getD (q : List Nat) (i : Nat) :
    (padBits q).getD i 0 = q.getD i 0 := by
  by_cases h : i < q.length
  · rw [padBits, List.getD_append _ _ _ _ h]
  · have hrhs : q.getD i 0 = 0 := List.getD_eq_default _ _ (by omega)
    rw [hrhs, padBits]
    by_cases h2 : i < q.length + (8 - q.length % 8) % 8
    · rw [List.getD_eq_getElem?_getD,
        List.getElem?_append_right (by omega : q.length ≤ i)]
      rw [List.getElem?_eq_getElem (by
        rw [List.length_replicate]
        omega)]
      simp
    · rw [List.getD_eq_default _ _ (by
        rw [List.length_append, List.length_replicate]
        omega)]

/-- The encoder's full bytes plus the flush byte are exactly the bytes of
the zero-padded bit stream. -/
theorem byteListOf_padBits (q : List Nat) :
    byteListOf (padBits q) =
      byteListOf q ++
        (if q.length % 8 = 0 then []
         else [bitsVal (q.drop (8 * (q.length / 8))) <<< (8 - q.length % 8)]) := by
  by_cases h0 : q.length % 8 = 0
  · rw [if_pos h0, padBits, show (8 - q.length % 8) % 8 = 0 by omega]
    simp
  · rw [if_neg h0, padBits, show (8 - q.length % 8) % 8 = 8 - q.length % 8 by omega]
    rw [byteListOf, byteListOf]
    have hlen : (q ++ List.replicate (8 - q.length % 8) 0).length / 8 =
        q.length / 8 + 1 := by
      rw [List.length_append, List.length_replicate]
      omega
    rw [hlen, List.range_succ, List.map_append, List.map_cons, List.map_nil]
    congr 1
    · apply List.map_congr_left
      intro i hi
      rw [List.mem_range] at hi
      rw [chunk_stable_list q _ i (by omega)]
    · rw [List.drop_append_of_le_length (by omega)]
      have htake : (q.drop (8 * (q.length / 8)) ++
          List.replicate (8 - q.length % 8) 0).take 8 =
          q.drop (8 * (q.length / 8)) ++
            List.replicate (8 - q.length % 8) 0 := by
        apply List.take_of_length_le
        rw [List.length_append, List.length_drop, List.length_replicate]
        omega
      rw [htake, bitsVal_zeros, Nat.shiftLeft_eq]

theorem byteListOf_getD (p : List Nat) (m : Nat) (hm : m < p.length / 8) :
    (byteListOf p).getD m 0 = bitsVal ((p.drop (8 * m)).take 8) := by
  rw [byteListOf, List.getD_eq_getElem?_getD, List.getElem?_map]
  rw [List.getElem?_range hm]
  rfl

theorem byteListOf_lt (p : List Nat) (hp : ∀ b ∈ p, b ≤ 1) :
    ∀ x ∈ byteListOf p, x < 256 := by
  intro x hx
  rw [byteListOf, List.mem_map] at hx
  obtain ⟨i, _, hi⟩ := hx
  rw [← hi]
  have h1 : ((p.drop (8 * i)).take 8).length ≤ 8 := by
    rw [List.length_take]
    omega
  have h2 := bitsVal_lt ((p.drop (8 * i)).take 8) (by
    intro b hb
    exact hp b (List.mem_of_mem_drop (List.mem_of_mem_take hb)))
  calc bitsVal ((p.drop (8 * i)).take 8) < 2 ^ ((p.drop (8 * i)).take 8).length := h2
    _ ≤ 2 ^ 8 := Nat.pow_le_pow_right (by norm_num) h1
    _ = 256 := by norm_num

theorem chunk_val_lt (P : List Nat) (hP : ∀ b ∈ P, b ≤ 1) (k : Nat) :
    bitsVal ((P.drop k).take 8) < 256 := by
  have h2 := bitsVal_lt ((P.drop k).take 8) (by
    intro b hb
    exact hP b (List.mem_of_mem_drop (List.mem_of_mem_take hb)))
  calc bitsVal ((P.drop k).take 8) < 2 ^ ((P.drop k).take 8).length := h2
    _ ≤ 2 ^ 8 := Nat.pow_le_pow_right (by norm_num)
      (by rw [List.length_take]; omega)
    _ = 256 := by norm_num

theorem acc_shift_in (acc byte b : Nat) (hbyte : byte < 256)
    (hb : b + 8 ≤ 32) :
    (((acc <<< 8) ||| byte) % 2 ^ 32) % 2 ^ (b + 8) =
      (acc % 2 ^ b) * 256 + byte := by
  have hor : (acc <<< 8) ||| byte = acc * 256 + byte := by
    rw [Nat.shiftLeft_eq]
    rw [or_eq_add_pow 8 (acc * 2 ^ 8) byte
      (Nat.mul_mod_left acc (2 ^ 8)) (by norm_num; omega)]
    norm_num
  rw [hor]
  rw [Nat.mod_mod_of_dvd _ (pow_dvd_pow 2 hb)]
  have hsplit : (2 : Nat) ^ (b + 8) = 2 ^ b * 256 := by
    rw [pow_add]
    norm_num
  rw [hsplit]
  have hpow : (1 : Nat) ≤ 2 ^ b := Nat.one_le_two_pow
  have h1 : acc * 256 % (2 ^ b * 256) = acc % 2 ^ b * 256 :=
    Nat.mul_mod_mul_right 256 acc (2 ^ b)
  have hmf : acc % 2 ^ b < 2 ^ b := Nat.mod_lt _ (by omega)
  rw [Nat.add_mod, h1, Nat.mod_eq_of_lt (show byte < 2 ^ b * 256 by nlinarith)]
  rw [Nat.mod_eq_of_lt (by nlinarith)]

/-- The refill loop preserves the reader invariant; afterwards at least 24
bits are buffered or the input is exhausted. -/
theorem refill_spec (data P : List Nat) (hlen : Nat) (hctx : brCtx data P hlen) :
    ∀ (fuel c p acc bits : Nat),
    brInv data P hlen c p acc bits →
    24 ≤ bits + 8 * fuel →
    brInv data P hlen c (refill fuel data p acc bits).1
      (refill fuel data p acc bits).2.1 (refill fuel data p acc bits).2.2 ∧
    (24 ≤ (refill fuel data p acc bits).2.2 ∨
      (refill fuel data p acc bits).1 = data.length) ∧
    bits ≤ (refill fuel data p acc bits).2.2 := by
  obtain ⟨hhl, hPlen, hPbits, hbyte⟩ := hctx
  intro fuel
  induction fuel with
  | zero =>
      intro c p acc bits hinv hfuel
      rw [refill]
      exact ⟨hinv, Or.inl (show (24 : Nat) ≤ bits by omega), le_refl _⟩
  | succ fuel ih =>
      intro c p acc bits hinv hfuel
      obtain ⟨h1, h2, h3, h4, h5⟩ := hinv
      rw [refill]
      by_cases hcond : bits < 24 ∧ p < data.length
      · rw [if_pos hcond]
        have hm : p - hlen < data.length - hlen := by omega
        have hbv := hbyte (p - hlen) hm
        have hblt : byteAt data p < 256 := by
          rw [show hlen + (p - hlen) = p by omega] at hbv
          rw [hbv]
          exact chunk_val_lt P hPbits _
        have hnew : brInv data P hlen c (p + 1)
            (((acc <<< 8) ||| byteAt data p) % 2 ^ 32) (bits + 8) := by
          refine ⟨by omega, by omega, by omega, by omega, ?_⟩
          rw [acc_shift_in acc (byteAt data p) bits hblt (by omega)]
          have hsplit : (P.drop c).take (bits + 8) =
              (P.drop c).take bits ++ (P.drop (c + bits)).take 8 := by
            rw [List.take_add]
            congr 1
            rw [List.drop_drop]
            try congr 1
            try omega
          rw [hsplit, bitsVal_append]
          have hlen8 : ((P.drop (c + bits)).take 8).length = 8 := by
            rw [List.length_take, List.length_drop]
            omega
          rw [hlen8, h5]
          rw [show hlen + (p - hlen) = p by omega] at hbv
          rw [hbv, show c + bits = 8 * (p - hlen) by omega]
          norm_num
        have := ih c (p + 1) (((acc <<< 8) ||| byteAt data p) % 2 ^ 32)
          (bits + 8) hnew (by omega)
        exact ⟨this.1, this.2.1, by omega⟩
      · rw [if_neg hcond]
        push_neg at hcond
        refine ⟨⟨h1, h2, h3, h4, h5⟩, ?_, le_refl _⟩
        by_cases hb24 : bits < 24
        · exact Or.inr (show p = data.length by omega)
        · exact Or.inl (show (24 : Nat) ≤ bits by omega)

theorem aSetD_size {α : Type} (a : Array α) (i : Nat) (v : α) :
    (a.setD i v).size = a.size := by
  simp

theorem aSetD_getD_eq {α : Type} (a : Array α) (i : Nat) (v d : α)
    (h : i < a.size) : (a.setD i v).getD i d = v := by
  unfold Array.setD
  rw [dif_pos h]
  unfold Array.getD
  rw [dif_pos (by simpa using h)]
  simp

theorem aSetD_getD_ne {α : Type} (a : Array α) (i : Nat) (v d : α) (j : Nat)
    (hne : i ≠ j) : (a.setD i v).getD j d = a.getD j d := by
  unfold Array.setD
  by_cases h : i < a.size
  · rw [dif_pos h]
    unfold Array.getD
    by_cases hj : j < a.size
    · rw [dif_pos (by simpa using hj), dif_pos hj]
      simp [Array.getElem_set, hne]
    · rw [dif_neg (by simpa using hj), dif_neg hj]
  · rw [dif_neg h]

theorem mkArray_getD {α : Type} (n : Nat) (v d : α) (j : Nat) (hj : j < n) :
    (Array.mkArray n v).getD j d = v := by
  unfold Array.getD
  rw [dif_pos (by simpa using hj)]
  simp

theorem mkArray_getD_oob {α : Type} (n : Nat) (v d : α) (j : Nat)
    (hj : ¬ j < n) : (Array.mkArray n v).getD j d = d := by
  unfold Array.getD
  rw [dif_neg (by simpa using hj)]

theorem getD_oob {α : Type} (a : Array α) (j : Nat) (d : α)
    (hj : ¬ j < a.size) : a.getD j d = d := by
  unfold Array.getD
  rw [dif_neg hj]

theorem goodCL_clOf (data : List Int)
    (h16 : ∀ p ∈ clOf data, p.2 ≤ 16) : goodCL (clOf data) := by
  have hperm := canonSort_perm (buildCodeLengths (countFreqs (rleOfI data)))
  refine ⟨canonSort_pairwise _, ?_, ?_, ?_⟩
  · have h1 := (countFreqs_keys (rleOfI data) [] (by simp)).1
    have h2 := buildCodeLengths_syms_perm (countFreqs (rleOfI data))
    simp only [List.foldl_nil] at h1
    exact ((hperm.map Prod.fst).trans h2).nodup_iff.mpr h1
  · intro p hp
    have hmem : p ∈ buildCodeLengths (countFreqs (rleOfI data)) :=
      hperm.mem_iff.mp hp
    exact ⟨buildCodeLengths_len_pos _ p hmem, h16 p hp⟩
  · have hsum : ((clOf data).map (fun p => 2 ^ (16 - p.2))).sum =
        ((buildCodeLengths (countFreqs (rleOfI data))).map
          (fun p => 2 ^ (16 - p.2))).sum :=
      (hperm.map (fun p => 2 ^ (16 - p.2))).sum_eq
    rw [hsum]
    exact buildCodeLengths_kraft _ 16 (fun p hp =>
      h16 p (hperm.mem_iff.mpr hp))

theorem rle_mem_clOf (data : List Int) :
    ∀ v ∈ rleOfI data, v ∈ (clOf data).map Prod.fst := by
  intro v hv
  have h1 := (countFreqs_keys (rleOfI data) [] (by simp)).2 v (by
    left
    exact hv)
  have h2 := buildCodeLengths_syms_perm (countFreqs (rleOfI data))
  have hperm := canonSort_perm (buildCodeLengths (countFreqs (rleOfI data)))
  exact ((hperm.map Prod.fst).trans h2).mem_iff.mpr h1

theorem list_map_range_getD {α β : Type} : ∀ (l : List α) (f : α → β) (d : α),
    (List.range l.length).map (fun i => f (l.getD i d)) = l.map f := by
  intro l
  induction l with
  | nil => intro f d; rfl
  | cons x xs ih =>
      intro f d
      rw [List.length_cons, List.range_succ_eq_map, List.map_cons,
        List.map_map, List.map_cons]
      congr 1
      have := ih f d
      rw [← this]
      apply List.map_congr_left
      intro i _
      rfl

theorem flat_pairs_getElem? (cl : List (Nat × Nat)) : ∀ i, i < cl.length →
    ((cl.flatMap fun p => [p.1, p.2])[2 * i]? =
      some (cl.getD i (0, 0)).1) ∧
    ((cl.flatMap fun p => [p.1, p.2])[2 * i + 1]? =
      some (cl.getD i (0, 0)).2) := by
  induction cl with
  | nil => intro i hi; simp at hi
  | cons q r ih =>
      intro i hi
      rw [List.flatMap_cons]
      cases i with
      | zero => simp
      | succ j =>
          have h2 : 2 * (j + 1) = (2 * j) + 2 := by omega
          rw [h2]
          have := ih j (by simp at hi; omega)
          simp only [List.cons_append, List.nil_append]
          constructor
          · rw [show 2 * j + 2 = (2 * j + 1) + 1 by omega]
            rw [List.getElem?_cons_succ, List.getElem?_cons_succ]
            rw [this.1]
            simp
          · rw [show 2 * j + 2 + 1 = (2 * j + 1 + 1) + 1 by omega]
            rw [List.getElem?_cons_succ, List.getElem?_cons_succ]
            rw [this.2]
            simp

/-- The decoder's header read-back: the `(symbol, length)` pairs it builds
from the byte stream are exactly the encoder's canonical table. -/
theorem codeLens_readback (d : List Int) (tail : List Nat) :
    (List.range (clOf d).length).map (fun i =>
      ((headerOf d ++ tail)[1 + 2 * i]?, (headerOf d ++ tail)[2 + 2 * i]?)) =
    (clOf d).map (fun p => ((some p.1 : Option Nat), (some p.2 : Option Nat))) := by
  have hmain : ∀ i, i < (clOf d).length →
      ((headerOf d ++ tail)[1 + 2 * i]? = some ((clOf d).getD i (0, 0)).1 ∧
       (headerOf d ++ tail)[2 + 2 * i]? = some ((clOf d).getD i (0, 0)).2) := by
    intro i hi
    have hflat := flat_pairs_getElem? (clOf d) i hi
    have hh : headerOf d = ((clOf d).length % 256) ::
        (clOf d).flatMap (fun p => [p.1, p.2]) := rfl
    have hlen : (headerOf d).length = 1 + 2 * (clOf d).length :=
      headerOf_length d
    constructor
    · rw [List.getElem?_append_left (by rw [hlen]; omega)]
      rw [hh, show 1 + 2 * i = (2 * i) + 1 by omega, List.getElem?_cons_succ]
      exact hflat.1
    · rw [List.getElem?_append_left (by rw [hlen]; omega)]
      rw [hh, show 2 + 2 * i = (2 * i + 1) + 1 by omega,
        List.getElem?_cons_succ]
      exact hflat.2
  have hstep : (List.range (clOf d).length).map (fun i =>
      ((headerOf d ++ tail)[1 + 2 * i]?, (headerOf d ++ tail)[2 + 2 * i]?)) =
      (List.range (clOf d).length).map (fun i =>
        ((some ((clOf d).getD i (0, 0)).1 : Option Nat),
         (some ((clOf d).getD i (0, 0)).2 : Option Nat))) := by
    apply List.map_congr_left
    intro i hi
    rw [List.mem_range] at hi
    rw [(hmain i hi).1, (hmain i hi).2]
  rw [hstep]
  exact list_map_range_getD (clOf d)
    (fun p => ((some p.1 : Option Nat), (some p.2 : Option Nat))) (0, 0)

theorem lenCounts_fold (cl : List (Nat × Nat)) (hl : ∀ p ∈ cl, p.2 < 33) :
    ∀ a : Array Nat, a.size = 33 →
    (((cl.map (fun p => ((some p.1 : Option Nat), (some p.2 : Option Nat)))).foldl
      (fun a e => match e.2 with
        | some l => if l < 33 then a.setD l (a.getD l 0 + 1) else a
        | none => a) a).size = 33 ∧
     ∀ L : Nat, ((cl.map (fun p =>
        ((some p.1 : Option Nat), (some p.2 : Option Nat)))).foldl
      (fun a e => match e.2 with
        | some l => if l < 33 then a.setD l (a.getD l 0 + 1) else a
        | none => a) a).getD L 0 =
       a.getD L 0 + cl.countP (fun p => decide (p.2 = L))) := by
  induction cl with
  | nil =>
      intro a ha
      refine ⟨ha, ?_⟩
      intro L
      simp [List.countP_nil]
  | cons q r ih =>
      intro a ha
      obtain ⟨s, l⟩ := q
      have hl33 : l < 33 := hl (s, l) (List.mem_cons_self _ _)
      rw [List.map_cons, List.foldl_cons]
      have hstep : (match ((some s : Option Nat), (some l : Option Nat)).2 with
        | some l => if l < 33 then a.setD l (a.getD l 0 + 1) else a
        | none => a) = a.setD l (a.getD l 0 + 1) := by
        dsimp only
        rw [if_pos hl33]
      rw [hstep]
      obtain ⟨hsz, hv⟩ := ih (fun p hp => hl p (List.mem_cons_of_mem _ hp))
        (a.setD l (a.getD l 0 + 1)) (by rw [aSetD_size, ha])
      refine ⟨hsz, ?_⟩
      intro L
      rw [hv L, List.countP_cons]
      by_cases hL : l = L
      · subst hL
        rw [aSetD_getD_eq _ _ _ _ (by omega)]
        rw [if_pos (by simp)]
        omega
      · rw [aSetD_getD_ne _ _ _ _ _ hL]
        rw [if_neg (by simpa using hL)]
        omega

theorem int32Wrap_small (x : Int) (h0 : 0 ≤ x) (h1 : x < 2 ^ 31) :
    int32Wrap x = x := by
  simp only [int32Wrap]
  have hm : x.emod (2 ^ 32) = x := Int.emod_eq_of_lt h0 (by
    calc x < 2 ^ 31 := h1
      _ < 2 ^ 32 := by norm_num)
  rw [hm, if_neg (by omega)]

theorem shlLoop_spec : ∀ (fuel X P L : Nat), P ≤ L → L - P ≤ fuel →
    X * 2 ^ (L - P) < 2 ^ 31 →
    shlLoop fuel (some (X : Int)) (some (P : Int)) (some (L : Int)) =
      (some ((X * 2 ^ (L - P) : Nat) : Int), some (L : Int)) := by
  intro fuel
  induction fuel with
  | zero =>
      intro X P L hPL hfuel hbound
      have hPL2 : P = L := by omega
      subst hPL2
      rw [shlLoop]
      simp
  | succ fuel ih =>
      intro X P L hPL hfuel hbound
      by_cases hlt : P < L
      · rw [shlLoop, if_pos (by
          rw [jltB]
          simp only [decide_eq_true_eq]
          exact_mod_cast hlt)]
        have h2 : 2 * X * 2 ^ (L - (P + 1)) = X * 2 ^ (L - P) := by
          have he : L - P = (L - (P + 1)) + 1 := by omega
          rw [he, pow_succ]
          ring
        have hXle : X ≤ X * 2 ^ (L - P) := Nat.le_mul_of_pos_right X
          (Nat.pos_pow_of_pos _ (by norm_num))
        have h2Xle : 2 * X ≤ X * 2 ^ (L - P) := by
          calc 2 * X = X * 2 := by ring
            _ ≤ X * 2 ^ (L - P) := Nat.mul_le_mul_left X (by
                calc (2 : Nat) = 2 ^ 1 := by norm_num
                  _ ≤ 2 ^ (L - P) := Nat.pow_le_pow_right (by norm_num)
                    (by omega))
        have hX31 : (X : Int) < 2 ^ 31 := by
          exact_mod_cast (show X < 2 ^ 31 from lt_of_le_of_lt hXle hbound)
        have h2X31 : ((2 * X : Nat) : Int) < 2 ^ 31 := by
          exact_mod_cast (show 2 * X < 2 ^ 31 from lt_of_le_of_lt h2Xle hbound)
        have hcast : ((X : Int) * 2) = ((2 * X : Nat) : Int) := by
          push_cast
          ring
        have hshl : jsShl1 (some (X : Int)) = some (((2 * X : Nat)) : Int) := by
          rw [jsShl1, int32Wrap_small _ (by positivity) hX31, hcast,
            int32Wrap_small _ (by positivity) h2X31]
        rw [hshl]
        have hadd : jadd (some (P : Int)) (some 1) =
            some ((P + 1 : Nat) : Int) := by
          rw [jadd]
          congr 1
        rw [hadd]
        rw [ih (2 * X) (P + 1) L (by omega) (by omega) (by rw [h2]; exact hbound)]
        rw [h2]
      · have hPL2 : P = L := by omega
        subst hPL2
        rw [shlLoop, if_neg (by
          rw [jltB]
          simp)]
        simp

theorem canonState_group (L : Nat) : ∀ (grp : List (Nat × Nat)) (X P : Nat),
    grp ≠ [] → (∀ q ∈ grp, q.2 = L) →
    canonState X P grp = (X <<< (L - P) + grp.length, L) := by
  intro grp
  induction grp with
  | nil => intro X P hne _; exact absurd rfl hne
  | cons q tail ih =>
      intro X P hne hall
      obtain ⟨s, l1⟩ := q
      have hl1 : L = l1 := (hall (s, l1) (List.mem_cons_self _ _)).symm
      subst hl1
      rw [canonState]
      cases tail with
      | nil => rw [canonState]; simp
      | cons q2 tail2 =>
          rw [ih (X <<< (L - P) + 1) L (by simp)
            (fun q hq => hall q (List.mem_cons_of_mem _ hq))]
          simp only [List.length_cons]
          rw [show (X <<< (L - P) + 1) <<< (L - L) = X <<< (L - P) + 1 by simp]
          rw [show X <<< (L - P) + 1 + (tail2.length + 1) =
            X <<< (L - P) + (tail2.length + 1 + 1) by omega]

theorem map_getD {α β : Type} (l : List α) (f : α → β) (i : Nat) (d : β)
    (d0 : α) (h : i < l.length) : (l.map f).getD i d = f (l.getD i d0) := by
  rw [List.getD_eq_getElem?_getD, List.getElem?_map,
    List.getElem?_eq_getElem h]
  rw [List.getD_eq_getElem?_getD, List.getElem?_eq_getElem h]
  rfl

theorem getD_append_right_off {α : Type} (l1 l2 : List α) (j : Nat) (d : α) :
    (l1 ++ l2).getD (l1.length + j) d = l2.getD j d := by
  rw [List.getD_append_right _ _ _ _ (by omega)]
  congr 1
  omega

theorem jsCmpLe_of_canonLe (a b : Nat × Nat)
    (h : a.2 < b.2 ∨ (a.2 = b.2 ∧ a.1 ≤ b.1)) :
    jsCmpLe (some a.1, some a.2) (some b.1, some b.2) = true := by
  rw [jsCmpLe]
  dsimp only
  rcases h with h | ⟨h1, h2⟩
  · rw [if_neg (by omega)]
    simp
    omega
  · rw [if_pos h1]
    simpa using h2

/-- The decoder re-sorts the header entries, which already arrive in
canonical order: the sort is the identity. -/
theorem decoder_sort_id (cl : List (Nat × Nat)) (hcl : goodCL cl) :
    jsSort jsCmpLe (cl.map (fun p =>
      ((some p.1 : Option Nat), (some p.2 : Option Nat)))) =
      cl.map (fun p => ((some p.1 : Option Nat), (some p.2 : Option Nat))) := by
  apply jsSort_sorted_id
  rw [List.pairwise_map]
  exact hcl.1.imp (fun {a b} h => jsCmpLe_of_canonLe a b h)

theorem one_le_sum_length {α : Type} : ∀ (l : List α) (f : α → Nat),
    (∀ a ∈ l, 1 ≤ f a) → l.length ≤ (l.map f).sum := by
  intro l
  induction l with
  | nil => intro f _; simp
  | cons x xs ih =>
      intro f h
      rw [List.map_cons, List.sum_cons, List.length_cons]
      have h1 := h x (List.mem_cons_self _ _)
      have h2 := ih f (fun a ha => h a (List.mem_cons_of_mem _ ha))
      omega

theorem goodCL_length_le (cl : List (Nat × Nat)) (hcl : goodCL cl) :
    cl.length ≤ 2 ^ 16 := by
  have h1 := one_le_sum_length cl (fun p => 2 ^ (16 - p.2))
    (fun a _ => Nat.one_le_two_pow)
  exact le_trans h1 hcl.2.2.2

theorem dropWhile_head_false {α : Type} (p : α → Bool) :
    ∀ (l : List α) (r0 : α) (rs : List α),
    l.dropWhile p = r0 :: rs → p r0 = false := by
  intro l
  induction l with
  | nil => intro r0 rs h; simp [List.dropWhile] at h
  | cons x xs ih =>
      intro r0 rs h
      rw [List.dropWhile_cons] at h
      by_cases hx : p x
      · rw [if_pos hx] at h
        exact ih r0 rs h
      · rw [if_neg hx] at h
        injection h with h1 _
        rw [← h1]
        simpa using hx

theorem getD_mem {α : Type} (l : List α) (n : Nat) (d : α)
    (h : n < l.length) : l.getD n d ∈ l := by
  rw [List.getD_eq_getElem?_getD, List.getElem?_eq_getElem h]
  exact List.getElem_mem h

theorem i32store_some (a : Array Int) (L : Nat) (v : Int) (hL : L < a.size)
    (h0 : 0 ≤ v) (h31 : v < 2 ^ 31) :
    i32store a (some ((L : Nat) : Int)) (some v) = a.setD L v := by
  rw [i32store]
  rw [if_pos ⟨by positivity, by exact_mod_cast hL⟩]
  rw [int32Wrap_small v h0 h31]
  congr 1

/-- The canonical-table reconstruction loop writes the group tables of each
remaining length and touches nothing else. -/
theorem tableGo_loop (cl : List (Nat × Nat)) (hcl : goodCL cl)
    (lenCounts : Array Nat)
    (hlc : ∀ L : Nat, lenCounts.getD L 0 =
      cl.countP (fun p => decide (p.2 = L))) :
    ∀ (fuel : Nat) (pre suf : List (Nat × Nat)) (X P : Nat)
      (minA maxA valA : Array Int),
    cl = pre ++ suf →
    suf.length < fuel →
    (∀ p ∈ pre, ∀ q ∈ suf, p.2 < q.2) →
    (∀ q ∈ suf, P ≤ q.2) →
    P ≤ 16 →
    X ≤ 2 ^ P →
    (∀ t ∈ canonFrom X P suf, t.2.2 + 1 ≤ 2 ^ t.2.1) →
    minA.size = 32 → maxA.size = 32 → valA.size = 32 →
    tgPost X P pre.length suf ⟨some ((pre.length : Nat) : Int),
        some ((X : Nat) : Int), some ((P : Nat) : Int),
        some ((pre.length : Nat) : Int), minA, maxA, valA⟩
      (tableGo fuel
        (cl.map (fun p => ((some p.1 : Option Nat), (some p.2 : Option Nat))))
        lenCounts
        ⟨some ((pre.length : Nat) : Int), some ((X : Nat) : Int),
          some ((P : Nat) : Int), some ((pre.length : Nat) : Int),
          minA, maxA, valA⟩) := by
  intro fuel
  induction fuel with
  | zero =>
      intro pre suf X P minA maxA valA happ hfuel
      omega
  | succ fuel ih =>
      intro pre suf X P minA maxA valA happ hfuel hsep hPsuf hP16 hX hfits
        hminsz hmaxsz hvalsz
      cases suf with
      | nil =>
          have hn : pre.length = cl.length := by rw [happ]; simp
          rw [tableGo]
          rw [if_neg (by
            rw [jltB, List.length_map, ← hn]
            simp)]
          refine ⟨hminsz, hmaxsz, hvalsz, ?_, ?_, ?_⟩
          · intro L _
            exact ⟨rfl, rfl, rfl⟩
          · intro j hj
            simp at hj
          · intro L hL
            obtain ⟨q, hq, _⟩ := hL
            simp at hq
      | cons q0 stail =>
          obtain ⟨s0, L0⟩ := q0
          set suf := (s0, L0) :: stail with hsuf
          -- the group of length L0 at the head of the suffix
          set grp := suf.takeWhile (fun q => decide (q.2 = L0)) with hgrp
          set rest := suf.dropWhile (fun q => decide (q.2 = L0)) with hrest
          have happ2 : grp ++ rest = suf := List.takeWhile_append_dropWhile _ _
          have hgrphead : grp = (s0, L0) :: stail.takeWhile
              (fun q => decide (q.2 = L0)) := by
            rw [hgrp, hsuf, List.takeWhile_cons_of_pos (by simp)]
          have hgrpne : grp ≠ [] := by rw [hgrphead]; simp
          have hgrpall : ∀ q ∈ grp, q.2 = L0 := by
            intro q hq
            have := List.mem_takeWhile_imp (hgrp ▸ hq)
            simpa using this
          have hheadmem : ((s0, L0) : Nat × Nat) ∈ suf := by
            rw [hsuf]
            exact List.mem_cons_self _ _
          have hclpair := hcl.1
          rw [happ] at hclpair
          have hsufpair := (List.pairwise_append.mp hclpair).2.1
          have hrestgt : ∀ q ∈ rest, L0 < q.2 := by
            intro q hq
            cases hr : rest with
            | nil => rw [hr] at hq; simp at hq
            | cons r0 rs =>
                have hr0pred : (fun q => decide (q.2 = L0)) r0 = false :=
                  dropWhile_head_false _ suf r0 rs (hrest ▸ hr)
                have hr0ne : r0.2 ≠ L0 := by simpa using hr0pred
                have hr0tail : r0 ∈ stail := by
                  have : r0 ∈ grp ++ rest := by
                    rw [hr]
                    exact List.mem_append_right _ (List.mem_cons_self _ _)
                  rw [happ2, hsuf] at this
                  rcases List.mem_cons.mp this with heq | h
                  · exfalso
                    apply hr0ne
                    rw [heq]
                  · exact h
                have hr0ge : L0 < r0.2 := by
                  have := (List.pairwise_cons.mp (hsuf ▸ hsufpair)).1 r0 hr0tail
                  rcases this with h | ⟨h, _⟩
                  · exact h
                  · exact absurd h.symm hr0ne
                rw [hr] at hq
                rcases List.mem_cons.mp hq with heq | hmem
                · rw [heq]; exact hr0ge
                · have hrestpair : rest.Pairwise
                      (fun a b => a.2 < b.2 ∨ (a.2 = b.2 ∧ a.1 ≤ b.1)) :=
                    (hrest ▸ hsufpair.sublist (List.dropWhile_sublist _))
                  rw [hr] at hrestpair
                  have := (List.pairwise_cons.mp hrestpair).1 q hmem
                  rcases this with h | ⟨h, _⟩
                  · omega
                  · omega
          have hcnt : lenCounts.getD L0 0 = grp.length := by
            rw [hlc L0, happ, ← happ2, List.countP_append, List.countP_append]
            have h1 : pre.countP (fun p => decide (p.2 = L0)) = 0 :=
              List.countP_eq_zero.mpr (by
                intro p hp
                have := hsep p hp (s0, L0) hheadmem
                simp only [decide_eq_true_eq]
                omega)
            have h2 : grp.countP (fun p => decide (p.2 = L0)) = grp.length :=
              List.countP_eq_length.mpr (by
                intro p hp
                simpa using hgrpall p hp)
            have h3 : rest.countP (fun p => decide (p.2 = L0)) = 0 :=
              List.countP_eq_zero.mpr (by
                intro p hp
                have := hrestgt p hp
                simp only [decide_eq_true_eq]
                omega)
            rw [h1, h2, h3]
            omega
          have hL0mem : ((s0, L0) : Nat × Nat) ∈ cl := by
            rw [happ]
            exact List.mem_append_right _ hheadmem
          have hL0b := hcl.2.2.1 (s0, L0) hL0mem
          have hPL0 : P ≤ L0 := hPsuf (s0, L0) hheadmem
          have hfirstle : X * 2 ^ (L0 - P) ≤ 2 ^ L0 := by
            calc X * 2 ^ (L0 - P) ≤ 2 ^ P * 2 ^ (L0 - P) :=
              Nat.mul_le_mul_right _ hX
              _ = 2 ^ L0 := by
                rw [← pow_add]
                congr 1
                omega
          have hcanonsplit : canonFrom X P suf =
              seqCodes (X * 2 ^ (L0 - P)) grp ++
                canonFrom (X * 2 ^ (L0 - P) + grp.length) L0 rest := by
            rw [← happ2]
            have := canonFrom_group L0 grp X P rest hgrpne hgrpall
            rw [Nat.shiftLeft_eq] at this
            exact this
          have hXcnt : X * 2 ^ (L0 - P) + grp.length ≤ 2 ^ L0 := by
            have hglen : 0 < grp.length := List.length_pos.mpr hgrpne
            have htmem : (seqCodes (X * 2 ^ (L0 - P)) grp).getD
                (grp.length - 1) (0, 0, 0) ∈ canonFrom X P suf := by
              rw [hcanonsplit]
              exact List.mem_append_left _ (getD_mem _ _ _ (by
                rw [seqCodes_length]
                omega))
            have hfit := hfits _ htmem
            rw [seqCodes_getD grp _ (grp.length - 1) (by omega)] at hfit
            dsimp only at hfit
            have hlen0 : (grp.getD (grp.length - 1) (0, 0)).2 = L0 :=
              hgrpall _ (getD_mem _ _ _ (by omega))
            rw [hlen0] at hfit
            omega
          -- evaluate one loop iteration
          have hsortlen : (cl.map (fun p =>
              ((some p.1 : Option Nat), (some p.2 : Option Nat)))).length =
              cl.length := List.length_map _ _
          have hprelt : pre.length < cl.length := by
            rw [happ, List.length_append, hsuf]
            simp
          have hgetDsorted : (cl.map (fun p =>
              ((some p.1 : Option Nat), (some p.2 : Option Nat)))).getD
              pre.length (none, none) = (some s0, some L0) := by
            rw [map_getD cl _ pre.length _ (0, 0) hprelt]
            rw [happ, show pre.length = pre.length + 0 by omega,
              getD_append_right_off]
            rw [hsuf]
            rfl
          -- compute the shift loop, count read and stores
          have hshl := shlLoop_spec 255 X P L0 hPL0 (by omega) (by
            calc X * 2 ^ (L0 - P) ≤ 2 ^ L0 := hfirstle
              _ ≤ 2 ^ 16 := Nat.pow_le_pow_right (by norm_num) hL0b.2
              _ < 2 ^ 31 := by norm_num)
          have hmaxle : X * 2 ^ (L0 - P) + grp.length - 1 < 2 ^ 31 := by
            have : (2 : Nat) ^ L0 ≤ 2 ^ 16 :=
              Nat.pow_le_pow_right (by norm_num) hL0b.2
            have h31 : (2 : Nat) ^ 16 < 2 ^ 31 := by norm_num
            omega
          have hlcread : lcRead lenCounts (some ((L0 : Nat) : Int)) =
              some ((grp.length : Nat) : Int) := by
            rw [lcRead]
            rw [if_pos ⟨by positivity, by exact_mod_cast (show L0 < 33 by omega)⟩]
            rw [show ((L0 : Int)).toNat = L0 from rfl, hcnt]
          have hstoremin : i32store minA (some ((L0 : Nat) : Int))
              (some ((X * 2 ^ (L0 - P) : Nat) : Int)) =
              minA.setD L0 ((X * 2 ^ (L0 - P) : Nat) : Int) :=
            i32store_some minA L0 _ (by omega) (by positivity) (by
              exact_mod_cast (show X * 2 ^ (L0 - P) < 2 ^ 31 by
                have : (2 : Nat) ^ L0 ≤ 2 ^ 16 :=
                  Nat.pow_le_pow_right (by norm_num) hL0b.2
                have h31 : (2 : Nat) ^ 16 < 2 ^ 31 := by norm_num
                omega))
          have hstoreval : i32store valA (some ((L0 : Nat) : Int))
              (some ((pre.length : Nat) : Int)) =
              valA.setD L0 ((pre.length : Nat) : Int) :=
            i32store_some valA L0 _ (by omega) (by positivity) (by
              have hle := goodCL_length_le cl hcl
              have hlen : pre.length ≤ cl.length := by
                rw [happ, List.length_append]
                omega
              exact_mod_cast (show pre.length < 2 ^ 31 by
                have : (2 : Nat) ^ 16 < 2 ^ 31 := by norm_num
                omega))
          have hjadd1 : jadd (some ((X * 2 ^ (L0 - P) : Nat) : Int))
              (some ((grp.length : Nat) : Int)) =
              some (((X * 2 ^ (L0 - P) + grp.length : Nat)) : Int) := by
            rw [jadd]
            congr 1
            try push_cast
            try ring
          have hjadd2 : jadd (some (((X * 2 ^ (L0 - P) + grp.length : Nat)) : Int))
              (some (-1)) =
              some (((X * 2 ^ (L0 - P) + grp.length - 1 : Nat)) : Int) := by
            rw [jadd]
            congr 1
            have hpos : 1 ≤ grp.length := List.length_pos.mpr hgrpne
            rw [Nat.cast_sub (by omega)]
            push_cast
            ring
          have hstoremax : i32store maxA (some ((L0 : Nat) : Int))
              (some (((X * 2 ^ (L0 - P) + grp.length - 1 : Nat)) : Int)) =
              maxA.setD L0 (((X * 2 ^ (L0 - P) + grp.length - 1 : Nat)) : Int) :=
            i32store_some maxA L0 _ (by omega) (by positivity)
              (by exact_mod_cast hmaxle)
          have hjadd3 : jadd (some ((pre.length : Nat) : Int))
              (some ((grp.length : Nat) : Int)) =
              some ((((pre ++ grp).length : Nat)) : Int) := by
            rw [jadd]
            rw [show ((pre ++ grp).length : Nat) = pre.length + grp.length from
              List.length_append _ _]
            congr 1
            try push_cast
            try ring
          -- the recursion hypotheses
          have hsep2 : ∀ p ∈ pre ++ grp, ∀ q ∈ rest, p.2 < q.2 := by
            intro p hp q hq
            rcases List.mem_append.mp hp with h | h
            · exact hsep p h q (by
                rw [← happ2]
                exact List.mem_append_right _ hq)
            · rw [hgrpall p h]
              exact hrestgt q hq
          have hPsuf2 : ∀ q ∈ rest, L0 ≤ q.2 := fun q hq =>
            le_of_lt (hrestgt q hq)
          have hfits2 : ∀ t ∈ canonFrom (X * 2 ^ (L0 - P) + grp.length) L0 rest,
              t.2.2 + 1 ≤ 2 ^ t.2.1 := by
            intro t ht
            exact hfits t (by
              rw [hcanonsplit]
              exact List.mem_append_right _ ht)
          have happ3 : cl = (pre ++ grp) ++ rest := by
            rw [happ, ← happ2, List.append_assoc]
          have hfuel2 : rest.length < fuel := by
            have h1 : grp.length + rest.length = suf.length := by
              rw [← List.length_append, happ2]
            have h2 : 0 < grp.length := List.length_pos.mpr hgrpne
            simp only [hsuf, List.length_cons] at hfuel h1 ⊢
            omega
          have hIH := ih (pre ++ grp) rest (X * 2 ^ (L0 - P) + grp.length) L0
            (minA.setD L0 ((X * 2 ^ (L0 - P) : Nat) : Int))
            (maxA.setD L0 (((X * 2 ^ (L0 - P) + grp.length - 1 : Nat)) : Int))
            (valA.setD L0 ((pre.length : Nat) : Int))
            happ3 hfuel2 hsep2 hPsuf2 (by omega) hXcnt hfits2
            (by rw [aSetD_size]; exact hminsz)
            (by rw [aSetD_size]; exact hmaxsz)
            (by rw [aSetD_size]; exact hvalsz)
          -- evaluate the iteration
          rw [tableGo]
          rw [if_pos (by
            rw [jltB, hsortlen]
            simp only [decide_eq_true_eq]
            exact_mod_cast hprelt)]
          simp only [Int.toNat_natCast, hgetDsorted, Option.map_some', hshl,
            hlcread, hstoremin, hstoreval, hjadd1, hjadd2, hstoremax, hjadd3]
          -- goal is now the recursive tableGo on the advanced state
          obtain ⟨hRm, hRx, hRv, hRa, hRb, hRc⟩ := hIH
          have hcntlen : (seqCodes (X * 2 ^ (L0 - P)) grp).length = grp.length :=
            seqCodes_length grp _
          have hrestzero : ∀ q ∈ rest, q.2 ≠ L0 := fun q hq =>
            Nat.ne_of_gt (hrestgt q hq)
          have hsuflen : suf.length = grp.length + rest.length := by
            rw [← List.length_append, happ2]
          refine ⟨hRm, hRx, hRv, ?_, ?_, ?_⟩
          · -- untouched lengths
            intro L hL
            have hL0ne : L0 ≠ L := by
              intro h
              exact hL (s0, L0) hheadmem h
            have hLrest : ∀ q ∈ rest, q.2 ≠ L := fun q hq =>
              hL q (by rw [← happ2]; exact List.mem_append_right _ hq)
            obtain ⟨e1, e2, e3⟩ := hRa L hLrest
            refine ⟨?_, ?_, ?_⟩
            · rw [e1]
              exact aSetD_getD_ne _ _ _ _ _ hL0ne
            · rw [e2]
              exact aSetD_getD_ne _ _ _ _ _ hL0ne
            · rw [e3]
              exact aSetD_getD_ne _ _ _ _ _ hL0ne
          · -- each entry of the suffix
            intro j hj
            rw [hcanonsplit]
            by_cases hjg : j < grp.length
            · rw [List.getD_append _ _ _ _ (by rw [hcntlen]; exact hjg)]
              rw [seqCodes_getD grp _ j hjg]
              dsimp only
              have hlenj : (grp.getD j (0, 0)).2 = L0 :=
                hgrpall _ (getD_mem _ _ _ hjg)
              rw [hlenj]
              obtain ⟨e1, e2, e3⟩ := hRa L0 hrestzero
              rw [e1, e2, e3, aSetD_getD_eq _ _ _ _ (by omega),
                aSetD_getD_eq _ _ _ _ (by omega),
                aSetD_getD_eq _ _ _ _ (by omega)]
              refine ⟨by exact_mod_cast Nat.le_add_right _ _, ?_, ?_⟩
              · exact_mod_cast (show X * 2 ^ (L0 - P) + j ≤
                  X * 2 ^ (L0 - P) + grp.length - 1 by omega)
              · push_cast
                ring
            · have hj2 : j - grp.length < rest.length := by omega
              rw [List.getD_append_right _ _ _ _ (by rw [hcntlen]; omega)]
              rw [hcntlen]
              have := hRb (j - grp.length) hj2
              refine ⟨this.1, this.2.1, ?_⟩
              rw [this.2.2]
              congr 1
              rw [List.length_append]
              omega
          · -- the maximum code of each present length
            intro L hL
            obtain ⟨q, hq, hqL⟩ := hL
            rw [← happ2] at hq
            rcases List.mem_append.mp hq with hqg | hqr
            · have hLL0 : L0 = L := (hgrpall q hqg).symm.trans hqL
              subst hLL0
              refine ⟨grp.length - 1, ?_, ?_, ?_⟩
              · have h2 : 0 < grp.length := List.length_pos.mpr hgrpne
                omega
              · rw [hcanonsplit]
                have h2 : 0 < grp.length := List.length_pos.mpr hgrpne
                rw [List.getD_append _ _ _ _ (by rw [hcntlen]; omega)]
                rw [seqCodes_getD grp _ _ (by omega)]
                exact hgrpall _ (getD_mem _ _ _ (by omega))
              · obtain ⟨e1, e2, e3⟩ := hRa L0 hrestzero
                rw [e2, aSetD_getD_eq _ _ _ _ (by omega)]
                rw [hcanonsplit]
                have h2 : 0 < grp.length := List.length_pos.mpr hgrpne
                rw [List.getD_append _ _ _ _ (by rw [hcntlen]; omega)]
                rw [seqCodes_getD grp _ _ (by omega)]
                dsimp only
                congr 1
                omega
            · obtain ⟨j, hjlt, hjlen, hjmax⟩ := hRc L ⟨q, hqr, hqL⟩
              refine ⟨grp.length + j, by omega, ?_, ?_⟩
              · rw [hcanonsplit]
                rw [show grp.length + j = (seqCodes (X * 2 ^ (L0 - P)) grp).length + j by
                  rw [hcntlen], getD_append_right_off]
                exact hjlen
              · rw [hjmax, hcanonsplit]
                rw [show grp.length + j = (seqCodes (X * 2 ^ (L0 - P)) grp).length + j by
                  rw [hcntlen], getD_append_right_off]

/-- The tables built by `tableGo` from the full sorted list satisfy
`tablesOk` for the canonical assignment. -/
theorem tablesOk_of_loop (cl : List (Nat × Nat)) (hcl : goodCL cl)
    (s0 l0 : Nat) (ctail : List (Nat × Nat)) (hshape : cl = (s0, l0) :: ctail)
    (lenCounts : Array Nat)
    (hlc : ∀ L : Nat, lenCounts.getD L 0 =
      cl.countP (fun p => decide (p.2 = L))) (fuel : Nat)
    (hfuel : cl.length < fuel) :
    tablesOk (assignCodes cl)
      (tableGo fuel
        (cl.map (fun p => ((some p.1 : Option Nat), (some p.2 : Option Nat))))
        lenCounts
        ⟨some 0, some 0, some ((l0 : Nat) : Int), some 0,
          Array.mkArray 32 (-1), Array.mkArray 32 (-1),
          Array.mkArray 32 (-1)⟩).minCode
      (tableGo fuel
        (cl.map (fun p => ((some p.1 : Option Nat), (some p.2 : Option Nat))))
        lenCounts
        ⟨some 0, some 0, some ((l0 : Nat) : Int), some 0,
          Array.mkArray 32 (-1), Array.mkArray 32 (-1),
          Array.mkArray 32 (-1)⟩).maxCode
      (tableGo fuel
        (cl.map (fun p => ((some p.1 : Option Nat), (some p.2 : Option Nat))))
        lenCounts
        ⟨some 0, some 0, some ((l0 : Nat) : Int), some 0,
          Array.mkArray 32 (-1), Array.mkArray 32 (-1),
          Array.mkArray 32 (-1)⟩).valPtr := by
  have hlens : ∀ q ∈ cl, l0 ≤ q.2 := by
    intro q hq
    rw [hshape] at hq
    rcases List.mem_cons.mp hq with heq | hmem
    · rw [heq]
    · have := (List.pairwise_cons.mp (hshape ▸ hcl.1)).1 q hmem
      rcases this with h | ⟨h, _⟩
      · omega
      · omega
  have hl0b := hcl.2.2.1 (s0, l0) (by rw [hshape]; exact List.mem_cons_self _ _)
  have hfits : ∀ t ∈ canonFrom 0 l0 cl, t.2.2 + 1 ≤ 2 ^ t.2.1 := by
    apply canonFrom_fits 16 cl 0 l0
    · simpa using hcl.2.2.2
    · intro q hq
      exact ⟨hlens q hq, (hcl.2.2.1 q hq).2⟩
    · exact hcl.1.imp (by intro a b h; omega)
  have hloop := tableGo_loop cl hcl lenCounts hlc fuel [] cl 0 l0
    (Array.mkArray 32 (-1)) (Array.mkArray 32 (-1)) (Array.mkArray 32 (-1))
    (by simp) hfuel (by simp) hlens hl0b.2 (by positivity) hfits
    (by simp) (by simp) (by simp)
  simp only [List.length_nil, Nat.cast_zero, Nat.zero_add] at hloop
  obtain ⟨hm, hx, hv, ha, hb, hc⟩ := hloop
  have hcseq : assignCodes cl = canonFrom 0 l0 cl := by
    rw [hshape]
    exact assignCodes_eq_canonFrom s0 l0 ctail
  refine ⟨hm, hx, hv, ?_, ?_, ?_⟩
  · intro L hL
    have hclL : ∀ q ∈ cl, q.2 ≠ L := by
      intro q hq
      have hq2 : q ∈ (canonFrom 0 l0 cl).map (fun t => (t.1, t.2.1)) := by
        rw [canonFrom_map]
        exact hq
      obtain ⟨t, ht, hteq⟩ := List.mem_map.mp hq2
      have : t.2.1 = q.2 := by rw [← hteq]
      rw [← this]
      exact hL t (by rw [hcseq]; exact ht)
    have := (ha L hclL).2.1
    rw [this]
    by_cases hL32 : L < 32
    · exact mkArray_getD 32 (-1) (-1) L hL32
    · exact getD_oob _ _ _ (by simpa using hL32)
  · intro j hj
    rw [hcseq]
    have hj2 : j < cl.length := by
      rw [hcseq, canonFrom_length] at hj
      exact hj
    have := hb j hj2
    simpa using this
  · intro L hL
    obtain ⟨t, ht, htL⟩ := hL
    rw [hcseq] at ht ⊢
    have hq : (t.1, t.2.1) ∈ cl := by
      rw [← canonFrom_map cl 0 l0]
      exact List.mem_map.mpr ⟨t, ht, rfl⟩
    obtain ⟨j, hjlt, hjlen, hjmax⟩ := hc L ⟨(t.1, t.2.1), hq, htL⟩
    refine ⟨j, ?_, hjlen, hjmax⟩
    rw [canonFrom_length]
    exact hjlt

theorem pairwise_getD {α : Type} {R : α → α → Prop} {l : List α}
    (h : l.Pairwise R) (i j : Nat) (d : α) (hi : i < l.length)
    (hj : j < l.length) (hij : i < j) : R (l.getD i d) (l.getD j d) := by
  rw [List.getD_eq_getElem?_getD, List.getElem?_eq_getElem hi,
    List.getD_eq_getElem?_getD, List.getElem?_eq_getElem hj]
  exact (List.pairwise_iff_getElem.mp h) i j hi hj hij

/-- One symbol decode: scanning the buffered bits of the `idx`-th canonical
code through the tables yields that entry's symbol and consumes exactly its
length in bits. -/
theorem symGo_steps (cs : List (Nat × Nat × Nat)) (minA maxA valA : Array Int)
    (symbols : List Nat)
    (htab : tablesOk cs minA maxA valA)
    (hdom : cs.Pairwise canonDom)
    (hlens : ∀ t ∈ cs, 1 ≤ t.2.1 ∧ t.2.1 ≤ 16)
    (hsymlen : symbols.length = cs.length)
    (hsymval : ∀ i, i < cs.length → symbols.getD i 0 = (cs.getD i (0, 0, 0)).1)
    (idx : Nat) (hidx : idx < cs.length) (acc bits : Nat)
    (hfit : (cs.getD idx (0, 0, 0)).2.2 < 2 ^ (cs.getD idx (0, 0, 0)).2.1)
    (hbl : (cs.getD idx (0, 0, 0)).2.1 ≤ bits) (hb31 : bits ≤ 31)
    (hbits : ∀ j, j < (cs.getD idx (0, 0, 0)).2.1 →
      (acc >>> (bits - 1 - j)) &&& 1 =
        (codeBits (cs.getD idx (0, 0, 0)).2.2
          (cs.getD idx (0, 0, 0)).2.1).getD j 0) :
    ∀ (d j fuel : Nat), j + d = (cs.getD idx (0, 0, 0)).2.1 → 1 ≤ d →
    d ≤ fuel →
    symGo fuel j ((cs.getD idx (0, 0, 0)).2.2 >>> d) acc (bits - j)
      minA maxA valA symbols =
      (some (cs.getD idx (0, 0, 0)).1,
        bits - (cs.getD idx (0, 0, 0)).2.1) := by
  obtain ⟨hmsz, hxsz, hvsz, hT1, hT2, hT3⟩ := htab
  have hlidx := hlens _ (getD_mem cs idx (0, 0, 0) hidx)
  intro d
  induction d with
  | zero => intro j fuel h1 h2; omega
  | succ d ih =>
      intro j fuel hjd hd hfuel
      have hjl : j < (cs.getD idx (0, 0, 0)).2.1 := by omega
      cases fuel with
      | zero => omega
      | succ f =>
          rw [symGo]
          dsimp only
          rw [if_neg (by omega : ¬ bits - j = 0)]
          have hbitj := hbits j hjl
          rw [codeBits_getD _ _ j hjl] at hbitj
          have hd1j : (cs.getD idx (0, 0, 0)).2.1 - 1 - j = d := by omega
          rw [hd1j] at hbitj
          have hsub : bits - j - 1 = bits - 1 - j := by omega
          have hcode : (((cs.getD idx (0, 0, 0)).2.2 >>> (d + 1)) <<< 1) |||
              ((acc >>> (bits - j - 1)) &&& 1) =
              (cs.getD idx (0, 0, 0)).2.2 >>> d := by
            rw [hsub, hbitj]
            have hx2 : (cs.getD idx (0, 0, 0)).2.2 >>> (d + 1) =
                ((cs.getD idx (0, 0, 0)).2.2 >>> d) / 2 := by
              rw [Nat.shiftRight_succ]
            rw [hx2, shl_or_bit _ _ (by rw [Nat.and_one_is_mod]; omega),
              Nat.and_one_is_mod]
            omega
          rw [hcode]
          cases Nat.eq_zero_or_pos d with
          | inl hd0 =>
              subst hd0
              have hjl1 : j + 1 = (cs.getD idx (0, 0, 0)).2.1 := by omega
              obtain ⟨e1, e2, e3⟩ := hT2 idx hidx
              rw [Nat.shiftRight_zero]
              rw [if_pos (by
                rw [hjl1]
                constructor
                · intro hc
                  rw [hc] at e2
                  have : ((cs.getD idx (0, 0, 0)).2.2 : Int) ≥ 0 := by positivity
                  omega
                · exact e2)]
              rw [hjl1]
              have hsymidx : valA.getD (cs.getD idx (0, 0, 0)).2.1 (-1) +
                  (((cs.getD idx (0, 0, 0)).2.2 : Int) -
                    minA.getD (cs.getD idx (0, 0, 0)).2.1 (-1)) = (idx : Int) :=
                e3
              rw [hsymidx]
              rw [if_pos ⟨by positivity, by
                rw [hsymlen]
                exact_mod_cast hidx⟩]
              rw [show ((idx : Int)).toNat = idx from rfl]
              rw [hsymval idx hidx]
              rw [show bits - j - 1 = bits - (j + 1) by omega, hjl1]
          | inr hdpos =>
              have hjl2 : j + 1 < (cs.getD idx (0, 0, 0)).2.1 := by omega
              have hnomatch : ¬ (maxA.getD (j + 1) (-1) ≠ -1 ∧
                  (((cs.getD idx (0, 0, 0)).2.2 >>> d : Nat) : Int) ≤
                    maxA.getD (j + 1) (-1)) := by
                by_cases hex : ∃ t ∈ cs, t.2.1 = j + 1
                · obtain ⟨e, helt, helen, hemax⟩ := hT3 (j + 1) hex
                  rw [hemax]
                  have hene : e ≠ idx := by
                    intro hc
                    rw [hc] at helen
                    omega
                  have helt2 : e < idx := by
                    rcases Nat.lt_trichotomy e idx with h | h | h
                    · exact h
                    · exact absurd h hene
                    · exfalso
                      have := pairwise_getD hdom idx e (0, 0, 0) hidx helt h
                      have hle := this.1
                      rw [helen] at hle
                      omega
                  have hdome := pairwise_getD hdom e idx (0, 0, 0) helt hidx
                    helt2
                  have hdom2 := hdome.2
                  rw [helen] at hdom2
                  have hdexp : (cs.getD idx (0, 0, 0)).2.1 - (j + 1) = d := by
                    omega
                  rw [hdexp] at hdom2
                  have hdiv : (cs.getD e (0, 0, 0)).2.2 + 1 ≤
                      (cs.getD idx (0, 0, 0)).2.2 >>> d := by
                    rw [Nat.shiftRight_eq_div_pow]
                    rw [Nat.le_div_iff_mul_le (Nat.pos_pow_of_pos _
                      (by norm_num))]
                    exact hdom2
                  push_neg
                  intro _
                  exact_mod_cast (show (cs.getD e (0, 0, 0)).2.2 <
                    (cs.getD idx (0, 0, 0)).2.2 >>> d by omega)
                · push_neg at hex
                  have := hT1 (j + 1) (fun t ht => hex t ht)
                  rw [this]
                  push_neg
                  intro hc
                  exact absurd rfl hc
              rw [if_neg hnomatch]
              rw [if_neg (by omega : ¬ 30 ≤ j + 1)]
              have := ih (j + 1) f (by omega) (by omega) (by omega)
              rw [show bits - j - 1 = bits - (j + 1) by omega]
              exact this

theorem getD_take {α : Type} (l : List α) (n j : Nat) (d : α) (h : j < n) :
    (l.take n).getD j d = l.getD j d := by
  rw [List.getD_eq_getElem?_getD, List.getD_eq_getElem?_getD,
    List.getElem?_take_of_lt h]

/-- Extracting bit `j` (MSB first) of the value of a bit list. -/
theorem bitsVal_extract : ∀ (slice : List Nat), (∀ b ∈ slice, b ≤ 1) →
    ∀ j, j < slice.length →
    (bitsVal slice / 2 ^ (slice.length - 1 - j)) % 2 = slice.getD j 0 := by
  intro slice
  induction slice with
  | nil => intro _ j hj; simp at hj
  | cons b t ih =>
      intro hb j hj
      have hbb : b ≤ 1 := hb b (List.mem_cons_self _ _)
      have hv := bitsVal_lt t (fun x hx => hb x (List.mem_cons_of_mem _ hx))
      rw [bitsVal_cons]
      cases j with
      | zero =>
          simp only [List.length_cons, List.getD_cons_zero]
          rw [show t.length + 1 - 1 - 0 = t.length by omega]
          rw [Nat.mul_comm b (2 ^ t.length), Nat.add_comm]
          rw [Nat.add_mul_div_left _ _ (Nat.pos_pow_of_pos _ (by norm_num))]
          rw [Nat.div_eq_of_lt hv]
          omega
      | succ j2 =>
          have hj2 : j2 < t.length := by simp at hj; omega
          simp only [List.length_cons, List.getD_cons_succ]
          rw [show t.length + 1 - 1 - (j2 + 1) = t.length - 1 - j2 by omega]
          have hexp2 : (t.length - 1 - j2) + j2 + 1 = t.length := by omega
          have hfac : b * 2 ^ t.length =
              2 ^ (t.length - 1 - j2) * (2 * (b * 2 ^ j2)) := by
            calc b * 2 ^ t.length
                = b * 2 ^ ((t.length - 1 - j2) + j2 + 1) := by rw [hexp2]
              _ = 2 ^ (t.length - 1 - j2) * (2 * (b * 2 ^ j2)) := by
                  rw [pow_add, pow_add, pow_one]
                  ring
          rw [hfac, Nat.add_comm]
          rw [Nat.add_mul_div_left _ _ (Nat.pos_pow_of_pos _ (by norm_num))]
          have hih := ih (fun x hx => hb x (List.mem_cons_of_mem _ hx)) j2 hj2
          omega

theorem mod_pow_shift (a n k : Nat) (h : k < n) :
    ((a % 2 ^ n) / 2 ^ k) % 2 = (a / 2 ^ k) % 2 := by
  conv_rhs => rw [← Nat.div_add_mod a (2 ^ n)]
  have hexp2 : k + (n - k - 1) + 1 = n := by omega
  have hfac : 2 ^ n * (a / 2 ^ n) =
      2 ^ k * (2 * (2 ^ (n - k - 1) * (a / 2 ^ n))) := by
    calc 2 ^ n * (a / 2 ^ n)
        = 2 ^ (k + (n - k - 1) + 1) * (a / 2 ^ n) := by rw [hexp2]
      _ = 2 ^ k * (2 * (2 ^ (n - k - 1) * (a / 2 ^ n))) := by
          rw [pow_add, pow_add, pow_one]
          ring
  rw [hfac, Nat.add_comm]
  rw [Nat.add_mul_div_left _ _ (Nat.pos_pow_of_pos _ (by norm_num))]
  omega

/-- Reading a buffered bit out of the accumulator. -/
theorem acc_bit_extract (acc : Nat) (slice : List Nat)
    (hsb : ∀ b ∈ slice, b ≤ 1)
    (hacc : acc % 2 ^ slice.length = bitsVal slice) (j : Nat)
    (hj : j < slice.length) :
    (acc >>> (slice.length - 1 - j)) &&& 1 = slice.getD j 0 := by
  rw [Nat.shiftRight_eq_div_pow, Nat.and_one_is_mod]
  have hmod := mod_pow_shift acc slice.length (slice.length - 1 - j) (by omega)
  rw [← hmod, hacc]
  exact bitsVal_extract slice hsb j hj

theorem bitsVal_mod_low (slice : List Nat) (hsb : ∀ b ∈ slice, b ≤ 1)
    (k : Nat) (hk : k ≤ slice.length) :
    bitsVal slice % 2 ^ k = bitsVal (slice.drop (slice.length - k)) := by
  have hlen : (slice.drop (slice.length - k)).length = k := by
    rw [List.length_drop]
    omega
  have hvlt : bitsVal (slice.drop (slice.length - k)) < 2 ^ k := by
    have := bitsVal_lt (slice.drop (slice.length - k))
      (fun x hx => hsb x (List.mem_of_mem_drop hx))
    rw [hlen] at this
    exact this
  conv_lhs => rw [← List.take_append_drop (slice.length - k) slice]
  rw [bitsVal_append, hlen,
    Nat.mul_comm (bitsVal (slice.take (slice.length - k))) (2 ^ k),
    Nat.mul_add_mod, Nat.mod_eq_of_lt hvlt]

/-- Initial-call form of the symbol decode. -/
theorem symGo_decode (cs : List (Nat × Nat × Nat))
    (minA maxA valA : Array Int) (symbols : List Nat)
    (htab : tablesOk cs minA maxA valA) (hdom : cs.Pairwise canonDom)
    (hlens : ∀ t ∈ cs, 1 ≤ t.2.1 ∧ t.2.1 ≤ 16)
    (hsymlen : symbols.length = cs.length)
    (hsymval : ∀ i, i < cs.length → symbols.getD i 0 = (cs.getD i (0, 0, 0)).1)
    (idx : Nat) (hidx : idx < cs.length) (acc bits : Nat)
    (hfit : (cs.getD idx (0, 0, 0)).2.2 < 2 ^ (cs.getD idx (0, 0, 0)).2.1)
    (hbl : (cs.getD idx (0, 0, 0)).2.1 ≤ bits) (hb31 : bits ≤ 31)
    (hbits : ∀ j, j < (cs.getD idx (0, 0, 0)).2.1 →
      (acc >>> (bits - 1 - j)) &&& 1 =
        (codeBits (cs.getD idx (0, 0, 0)).2.2
          (cs.getD idx (0, 0, 0)).2.1).getD j 0) :
    symGo 31 0 0 acc bits minA maxA valA symbols =
      (some (cs.getD idx (0, 0, 0)).1,
        bits - (cs.getD idx (0, 0, 0)).2.1) := by
  have hl1 := (hlens _ (getD_mem cs idx (0, 0, 0) hidx)).1
  have hl16 := (hlens _ (getD_mem cs idx (0, 0, 0) hidx)).2
  have h0 : (cs.getD idx (0, 0, 0)).2.2 >>> (cs.getD idx (0, 0, 0)).2.1 = 0 := by
    rw [Nat.shiftRight_eq_div_pow]
    exact Nat.div_eq_of_lt hfit
  have := symGo_steps cs minA maxA valA symbols htab hdom hlens hsymlen
    hsymval idx hidx acc bits hfit hbl hb31 hbits
    ((cs.getD idx (0, 0, 0)).2.1) 0 31 (by omega) (by omega) (by omega)
  rw [h0, Nat.sub_zero] at this
  exact this

/-- The decode loop never disturbs already-written symbol positions. -/
theorem outerGo_preserves (data : List Nat) (minA maxA valA : Array Int)
    (symbols : List Nat) (startLen : Option Int) (L : Nat) :
    ∀ (fuel : Nat) (st : HufDec) (n : Nat), n ≤ st.rlePos →
    (∀ u, u < n →
      (outerGo data minA maxA valA symbols startLen L fuel st).rle.getD u 0 =
        st.rle.getD u 0) ∧
    n ≤ (outerGo data minA maxA valA symbols startLen L fuel st).rlePos := by
  intro fuel
  induction fuel with
  | zero => intro st n hn; exact ⟨fun u _ => rfl, hn⟩
  | succ fuel ih =>
      intro st n hn
      rw [outerGo]
      by_cases hc1 : st.p < data.length ∨ 0 < st.bits
      · rw [if_pos hc1]
        by_cases hc2 : jltB (some ((refill 3 data st.p st.acc st.bits).2.2 : Int))
            startLen = true ∧
            data.length ≤ (refill 3 data st.p st.acc st.bits).1
        · rw [if_pos hc2]
          exact ⟨fun u _ => rfl, hn⟩
        · rw [if_neg hc2]
          cases hsym : symGo 31 0 0 (refill 3 data st.p st.acc st.bits).2.1
              (refill 3 data st.p st.acc st.bits).2.2 minA maxA valA symbols with
          | mk os bits2 =>
              cases os with
              | none => exact ⟨fun u _ => rfl, hn⟩
              | some sym =>
                  dsimp only
                  by_cases hc3 : L * 2 ≤ st.rlePos + 1
                  · rw [if_pos hc3]
                    refine ⟨?_, ?_⟩
                    · intro u hu
                      exact aSetD_getD_ne _ _ _ _ _ (by omega)
                    · show n ≤ st.rlePos + 1
                      omega
                  · rw [if_neg hc3]
                    have := ih { st with
                      p := (refill 3 data st.p st.acc st.bits).1
                      acc := (refill 3 data st.p st.acc st.bits).2.1
                      bits := bits2
                      rle := st.rle.setD st.rlePos sym
                      rlePos := st.rlePos + 1 } n (by
                        show n ≤ st.rlePos + 1
                        omega)
                    refine ⟨?_, this.2⟩
                    intro u hu
                    rw [this.1 u hu]
                    exact aSetD_getD_ne _ _ _ _ _ (by omega)
      · rw [if_neg hc1]
        exact ⟨fun u _ => rfl, hn⟩

theorem getD_drop {α : Type} (l : List α) (n j : Nat) (d : α) :
    (l.drop n).getD j d = l.getD (n + j) d := by
  rw [List.getD_eq_getElem?_getD, List.getD_eq_getElem?_getD,
    List.getElem?_drop]

/-- The decode loop reads back every symbol of the encoded stream. -/
theorem outerGo_phase1
    (data P : List Nat) (H : Nat) (hctx : brCtx data P H)
    (cs : List (Nat × Nat × Nat)) (minA maxA valA : Array Int)
    (symbols : List Nat)
    (htab : tablesOk cs minA maxA valA) (hdom : cs.Pairwise canonDom)
    (hlens : ∀ t ∈ cs, 1 ≤ t.2.1 ∧ t.2.1 ≤ 16)
    (hsymlen : symbols.length = cs.length)
    (hsymval : ∀ i, i < cs.length → symbols.getD i 0 = (cs.getD i (0, 0, 0)).1)
    (hfits : ∀ t ∈ cs, t.2.2 < 2 ^ t.2.1)
    (rle : List Nat) (ix : Nat → Nat) (bitPos : Nat → Nat)
    (hix : ∀ u, u < rle.length → ix u < cs.length ∧
      (cs.getD (ix u) (0, 0, 0)).1 = rle.getD u 0)
    (hsucc : ∀ u, u < rle.length →
      bitPos (u + 1) = bitPos u + (cs.getD (ix u) (0, 0, 0)).2.1)
    (hbound : ∀ u, u ≤ rle.length → bitPos u ≤ P.length)
    (hstream : ∀ u, u < rle.length → ∀ j, j < (cs.getD (ix u) (0, 0, 0)).2.1 →
      P.getD (bitPos u + j) 0 =
        (codeBits (cs.getD (ix u) (0, 0, 0)).2.2
          (cs.getD (ix u) (0, 0, 0)).2.1).getD j 0)
    (l0 : Nat) (hl0 : ∀ t ∈ cs, l0 ≤ t.2.1)
    (L : Nat) (hrle2L : rle.length ≤ 2 * L) :
    ∀ (fuel t : Nat) (st : HufDec),
    t ≤ rle.length →
    rle.length - t < fuel →
    brInv data P H (bitPos t) st.p st.acc st.bits →
    st.rlePos = t →
    (∀ u, u < t → st.rle.getD u 0 = rle.getD u 0) →
    st.rle.size = L * 2 →
    (∀ u, u < rle.length →
      (outerGo data minA maxA valA symbols (some ((l0 : Nat) : Int)) L fuel
        st).rle.getD u 0 = rle.getD u 0) ∧
    rle.length ≤ (outerGo data minA maxA valA symbols (some ((l0 : Nat) : Int))
        L fuel st).rlePos := by
  obtain ⟨hH, hPlen, hPbits, hbyte⟩ := hctx
  intro fuel
  induction fuel with
  | zero => intro t st h1 h2; omega
  | succ f ih =>
      intro t st htle hfuel hInv hpos hpre hsz
      by_cases hdone : t = rle.length
      · subst hdone
        have hpr := outerGo_preserves data minA maxA valA symbols
          (some ((l0 : Nat) : Int)) L (f + 1) st st.rlePos (le_refl _)
        refine ⟨?_, by omega⟩
        intro u hu
        rw [hpr.1 u (by omega)]
        exact hpre u hu
      · have hjt : t < rle.length := by omega
        obtain ⟨hixlt, hixsym⟩ := hix t hjt
        have hlenb := hlens _ (getD_mem cs (ix t) (0, 0, 0) hixlt)
        obtain ⟨hi1, hi2, hi3, hi4, hi5⟩ := hInv
        have hbpnext : bitPos (t + 1) =
            bitPos t + (cs.getD (ix t) (0, 0, 0)).2.1 := hsucc t hjt
        have hbpnb : bitPos (t + 1) ≤ P.length := hbound (t + 1) (by omega)
        rw [outerGo]
        rw [if_pos (by
          by_contra hc
          push_neg at hc
          have hp1 : st.p = data.length := by omega
          have hb0 : st.bits = 0 := by omega
          rw [hp1, hb0] at hi3
          omega)]
        obtain ⟨hInv2, hfull2, hble2⟩ := refill_spec data P H
          ⟨hH, hPlen, hPbits, hbyte⟩ 3 (bitPos t) st.p st.acc st.bits
          ⟨hi1, hi2, hi3, hi4, hi5⟩ (by omega)
        obtain ⟨hj1, hj2, hj3, hj4, hj5⟩ := hInv2
        have hltbits : (cs.getD (ix t) (0, 0, 0)).2.1 ≤
            (refill 3 data st.p st.acc st.bits).2.2 := by
          rcases hfull2 with h24 | hend
          · omega
          · rw [hend] at hj3
            omega
        have hearly : ¬ (jltB
            (some (((refill 3 data st.p st.acc st.bits).2.2 : Nat) : Int))
            (some ((l0 : Nat) : Int)) = true ∧
            data.length ≤ (refill 3 data st.p st.acc st.bits).1) := by
          rintro ⟨hj, _⟩
          rw [jltB] at hj
          simp only [decide_eq_true_eq] at hj
          have hl0t := hl0 _ (getD_mem cs (ix t) (0, 0, 0) hixlt)
          have : (l0 : Int) ≤ ((refill 3 data st.p st.acc st.bits).2.2 : Int) := by
            exact_mod_cast le_trans hl0t hltbits
          omega
        rw [if_neg hearly]
        -- the buffered bits spell the code of symbol t
        have hslicelen : ((P.drop (bitPos t)).take
            (refill 3 data st.p st.acc st.bits).2.2).length =
            (refill 3 data st.p st.acc st.bits).2.2 := by
          rw [List.length_take, List.length_drop]
          omega
        have hbitsx : ∀ j, j < (cs.getD (ix t) (0, 0, 0)).2.1 →
            ((refill 3 data st.p st.acc st.bits).2.1 >>>
              ((refill 3 data st.p st.acc st.bits).2.2 - 1 - j)) &&& 1 =
            (codeBits (cs.getD (ix t) (0, 0, 0)).2.2
              (cs.getD (ix t) (0, 0, 0)).2.1).getD j 0 := by
          intro j hjl
          have hjb : j < (refill 3 data st.p st.acc st.bits).2.2 := by omega
          have hex := acc_bit_extract (refill 3 data st.p st.acc st.bits).2.1
            ((P.drop (bitPos t)).take (refill 3 data st.p st.acc st.bits).2.2)
            (by
              intro b hb
              exact hPbits b (List.mem_of_mem_drop (List.mem_of_mem_take hb)))
            (by rw [hslicelen]; exact hj5) j (by rw [hslicelen]; exact hjb)
          rw [hslicelen] at hex
          rw [hex, getD_take _ _ _ _ hjb, getD_drop]
          exact hstream t hjt j hjl
        have hsymres := symGo_decode cs minA maxA valA symbols
          ⟨htab.1, htab.2.1, htab.2.2.1, htab.2.2.2.1, htab.2.2.2.2.1,
            htab.2.2.2.2.2⟩ hdom hlens hsymlen hsymval (ix t) hixlt
          (refill 3 data st.p st.acc st.bits).2.1
          (refill 3 data st.p st.acc st.bits).2.2
          (hfits _ (getD_mem cs (ix t) (0, 0, 0) hixlt)) hltbits hj4 hbitsx
        dsimp only
        rw [hsymres]
        dsimp only
        rw [hpos, hixsym]
        by_cases hcap : L * 2 ≤ t + 1
        · rw [if_pos hcap]
          have hteq : t + 1 = rle.length ∨ rle.length ≤ t := by omega
          refine ⟨?_, by
            show rle.length ≤ t + 1
            omega⟩
          intro u hu
          show (st.rle.setD t (rle.getD t 0)).getD u 0 = rle.getD u 0
          by_cases hut : u = t
          · subst hut
            rw [aSetD_getD_eq _ _ _ _ (by rw [hsz]; omega)]
          · rw [aSetD_getD_ne _ _ _ _ _ (fun hc => hut hc.symm)]
            exact hpre u (by omega)
        · rw [if_neg hcap]
          have hrec := ih (t + 1)
            { p := (refill 3 data st.p st.acc st.bits).1
              acc := (refill 3 data st.p st.acc st.bits).2.1
              bits := (refill 3 data st.p st.acc st.bits).2.2 -
                (cs.getD (ix t) (0, 0, 0)).2.1
              rle := st.rle.setD t (rle.getD t 0)
              rlePos := t + 1 }
            (by omega) (by omega)
            (by
              refine ⟨hj1, hj2, ?_, by show _ - _ ≤ 31; omega, ?_⟩
              · show 8 * ((refill 3 data st.p st.acc st.bits).1 - H) =
                  bitPos (t + 1) + ((refill 3 data st.p st.acc st.bits).2.2 -
                    (cs.getD (ix t) (0, 0, 0)).2.1)
                omega
              · show (refill 3 data st.p st.acc st.bits).2.1 %
                  2 ^ ((refill 3 data st.p st.acc st.bits).2.2 -
                    (cs.getD (ix t) (0, 0, 0)).2.1) = _
                have hdvd : (2 : Nat) ^ ((refill 3 data st.p st.acc
                    st.bits).2.2 - (cs.getD (ix t) (0, 0, 0)).2.1) ∣
                    2 ^ (refill 3 data st.p st.acc st.bits).2.2 :=
                  pow_dvd_pow 2 (by omega)
                rw [← Nat.mod_mod_of_dvd _ hdvd, hj5]
                have hml := bitsVal_mod_low
                  ((P.drop (bitPos t)).take
                    (refill 3 data st.p st.acc st.bits).2.2)
                  (by
                    intro b hb
                    exact hPbits b (List.mem_of_mem_drop
                      (List.mem_of_mem_take hb)))
                  ((refill 3 data st.p st.acc st.bits).2.2 -
                    (cs.getD (ix t) (0, 0, 0)).2.1)
                  (by rw [hslicelen]; omega)
                rw [hslicelen] at hml
                rw [hml]
                congr 1
                rw [show (refill 3 data st.p st.acc st.bits).2.2 -
                    ((refill 3 data st.p st.acc st.bits).2.2 -
                      (cs.getD (ix t) (0, 0, 0)).2.1) =
                    (cs.getD (ix t) (0, 0, 0)).2.1 by omega]
                rw [List.drop_take, List.drop_drop, hbpnext])
            rfl
            (by
              intro u hu
              show (st.rle.setD t (rle.getD t 0)).getD u 0 = rle.getD u 0
              by_cases hut : u = t
              · subst hut
                rw [aSetD_getD_eq _ _ _ _ (by rw [hsz]; omega)]
              · rw [aSetD_getD_ne _ _ _ _ _ (fun hc => hut hc.symm)]
                exact hpre u (by omega))
            (by
              show (st.rle.setD t (rle.getD t 0)).size = L * 2
              rw [aSetD_size, hsz])
          exact hrec

theorem rleGo_cons_ne_nil (f x : Nat) (xs : List Nat) :
    rleGo (f + 1) (x :: xs) ≠ [] := by
  simp only [rleGo]
  intro h
  rcases List.append_eq_nil.mp h with ⟨h1, _⟩
  by_cases hc : 3 ≤ 1 + countEq x xs 254 ∨ x = RLE_MARKER
  · rw [if_pos hc] at h1
    exact List.noConfusion h1
  · rw [if_neg hc] at h1
    have := congrArg List.length h1
    simp at this

theorem assignCodes_map (cl : List (Nat × Nat)) :
    (assignCodes cl).map (fun t => (t.1, t.2.1)) = cl := by
  cases cl with
  | nil => rfl
  | cons q r =>
      obtain ⟨s, l⟩ := q
      rw [assignCodes_eq_canonFrom, canonFrom_map]

theorem assignCodes_length (cl : List (Nat × Nat)) :
    (assignCodes cl).length = cl.length := by
  have h := congrArg List.length (assignCodes_map cl)
  simpa using h

/-- On distinct symbols, the lookup returns the indexed entry's
`(code, len)`. -/
theorem codeOf_getD (cs : List (Nat × Nat × Nat)) :
    ((cs.map (fun t => t.1)).Nodup) → ∀ i, i < cs.length →
    codeOf cs ((cs.getD i (0, 0, 0)).1) =
      ((cs.getD i (0, 0, 0)).2.2, (cs.getD i (0, 0, 0)).2.1) := by
  induction cs with
  | nil => intro _ i hi; simp at hi
  | cons t r ih =>
      intro hnd i hi
      rw [List.map_cons, List.nodup_cons] at hnd
      cases i with
      | zero =>
          simp only [List.getD_cons_zero]
          rw [codeOf, List.find?_cons_of_pos _ (by simp)]
      | succ j =>
          have hj : j < r.length := by
            simp only [List.length_cons] at hi
            omega
          simp only [List.getD_cons_succ]
          have hne : ¬ t.1 = (r.getD j (0, 0, 0)).1 := by
            intro hc
            apply hnd.1
            rw [hc]
            exact List.mem_map.mpr ⟨r.getD j (0, 0, 0), getD_mem r j _ hj, rfl⟩
          rw [codeOf, List.find?_cons_of_neg _ (by simpa using hne)]
          have htail := ih hnd.2 j hj
          rw [codeOf] at htail
          exact htail

theorem sum_map_le {α : Type} : ∀ (l : List α) (f : α → Nat) (c : Nat),
    (∀ a ∈ l, f a ≤ c) → (l.map f).sum ≤ c * l.length := by
  intro l
  induction l with
  | nil => intro f c _; simp
  | cons x xs ih =>
      intro f c h
      rw [List.map_cons, List.sum_cons, List.length_cons, Nat.mul_succ]
      have h1 := h x (List.mem_cons_self _ _)
      have h2 := ih f c (fun a ha => h a (List.mem_cons_of_mem _ ha))
      omega

theorem flatMap_take_le {α β : Type} (l : List α) (g : α → List β) (u : Nat) :
    ((l.take u).flatMap g).length ≤ (l.flatMap g).length := by
  conv_rhs => rw [← List.take_append_drop u l]
  rw [List.flatMap_append, List.length_append]
  omega

theorem flatMap_take_succ {α β : Type} (l : List α) (g : α → List β) (u : Nat)
    (d : α) (hu : u < l.length) :
    (l.take (u + 1)).flatMap g = (l.take u).flatMap g ++ g (l.getD u d) := by
  rw [List.take_succ, List.flatMap_append, List.getElem?_eq_getElem hu]
  simp [List.getD_eq_getElem?_getD, List.getElem?_eq_getElem hu]

theorem flatMap_getD_at {α : Type} (l : List α) (g : α → List Nat) (u : Nat)
    (d : α) (hu : u < l.length) (j : Nat) (hj : j < (g (l.getD u d)).length) :
    (l.flatMap g).getD (((l.take u).flatMap g).length + j) 0 =
      (g (l.getD u d)).getD j 0 := by
  have hsplit : l.flatMap g = (l.take u).flatMap g ++
      (g (l.getD u d) ++ (l.drop (u + 1)).flatMap g) := by
    conv_lhs => rw [← List.take_append_drop (u + 1) l]
    rw [List.flatMap_append, flatMap_take_succ l g u d hu, List.append_assoc]
  rw [hsplit, getD_append_right_off, List.getD_append _ _ _ _ hj]

theorem cs_entry_mem_clOf (data : List Int) (i : Nat)
    (hi : i < (codesOf data).length) :
    (((codesOf data).getD i (0, 0, 0)).1,
      ((codesOf data).getD i (0, 0, 0)).2.1) ∈ clOf data := by
  have hmem : (codesOf data).getD i (0, 0, 0) ∈ codesOf data :=
    getD_mem _ i _ hi
  have h2 : (fun t : Nat × Nat × Nat => (t.1, t.2.1))
      ((codesOf data).getD i (0, 0, 0)) ∈
      (assignCodes (clOf data)).map (fun t => (t.1, t.2.1)) :=
    List.mem_map_of_mem _ hmem
  rw [assignCodes_map] at h2
  exact h2

theorem codesOf_fst_map (data : List Int) :
    (codesOf data).map (fun t => t.1) = (clOf data).map Prod.fst := by
  conv_rhs => rw [← assignCodes_map (clOf data)]
  rw [List.map_map]
  rfl

theorem rle_sym_index (data : List Int) (sym : Nat) (hsym : sym ∈ rleOfI data) :
    ∃ i, i < (codesOf data).length ∧
      ((codesOf data).getD i (0, 0, 0)).1 = sym := by
  have h1 := rle_mem_clOf data sym hsym
  rw [← codesOf_fst_map] at h1
  obtain ⟨t, ht, hteq⟩ := List.mem_map.mp h1
  obtain ⟨i, hi, hg⟩ := List.getElem_of_mem ht
  refine ⟨i, hi, ?_⟩
  rw [List.getD_eq_getElem?_getD, List.getElem?_eq_getElem hi]
  show ((codesOf data)[i]).1 = sym
  rw [hg]
  exact hteq

theorem codesOf_nodup_fst (data : List Int)
    (hnd : ((clOf data).map Prod.fst).Nodup) :
    ((codesOf data).map (fun t => t.1)).Nodup := by
  rw [codesOf_fst_map]
  exact hnd

/-- The encoder's per-symbol bit string at a table index is the code bits of
that entry, of length the entry's code length. -/
theorem symBitsOf_at (data : List Int)
    (hnd : ((clOf data).map Prod.fst).Nodup) (i : Nat)
    (hi : i < (codesOf data).length) :
    symBitsOf data (((codesOf data).getD i (0, 0, 0)).1) =
      codeBits ((codesOf data).getD i (0, 0, 0)).2.2
        ((codesOf data).getD i (0, 0, 0)).2.1 := by
  rw [symBitsOf, codeOf_getD (codesOf data) (codesOf_nodup_fst data hnd) i hi]

theorem symBitsOf_at_length (data : List Int)
    (hnd : ((clOf data).map Prod.fst).Nodup) (i : Nat)
    (hi : i < (codesOf data).length) :
    (symBitsOf data (((codesOf data).getD i (0, 0, 0)).1)).length =
      ((codesOf data).getD i (0, 0, 0)).2.1 := by
  rw [symBitsOf_at data hnd i hi, codeBits_length]

/-- The bit stream is between one and sixteen bits per symbol. -/
theorem allBitsOf_length_bounds (data : List Int)
    (h16 : ∀ p ∈ clOf data, p.2 ≤ 16)
    (hnd : ((clOf data).map Prod.fst).Nodup) :
    (rleOfI data).length ≤ (allBitsOf data).length ∧
      (allBitsOf data).length ≤ 16 * (rleOfI data).length := by
  have hperm := canonSort_perm (buildCodeLengths (countFreqs (rleOfI data)))
  have hkey : ∀ sym ∈ rleOfI data, 1 ≤ (symBitsOf data sym).length ∧
      (symBitsOf data sym).length ≤ 16 := by
    intro sym hsym
    obtain ⟨i, hi, hieq⟩ := rle_sym_index data sym hsym
    have hlen := symBitsOf_at_length data hnd i hi
    rw [hieq] at hlen
    have hmem := cs_entry_mem_clOf data i hi
    constructor
    · rw [hlen]
      exact buildCodeLengths_len_pos _ _ (hperm.mem_iff.mp hmem)
    · rw [hlen]
      exact h16 _ hmem
  rw [allBitsOf, List.length_flatMap]
  constructor
  · exact one_le_sum_length _ _ (fun a ha => (hkey a ha).1)
  · have h := sum_map_le (rleOfI data) (fun sym => (symBitsOf data sym).length)
      16 (fun a ha => (hkey a ha).2)
    have he : List.map (fun sym => (symBitsOf data sym).length) (rleOfI data) =
        List.map (List.length ∘ symBitsOf data) (rleOfI data) := rfl
    rw [he] at h
    omega

theorem allBitsOf_bits (data : List Int) : ∀ b ∈ allBitsOf data, b ≤ 1 := by
  intro b hb
  rw [allBitsOf, List.mem_flatMap] at hb
  obtain ⟨sym, _, hmem⟩ := hb
  rw [symBitsOf] at hmem
  exact codeBits_le_one _ _ b hmem

/-- Replaying the recovered symbol stream through the fused RLE + delta
loop reproduces the input. -/
theorem fusedReplay_output (v : List Nat) (st : HufDec)
    (hok : deltaOkB 0 v = true)
    (hagree : ∀ k, k < (rleOfI (v.map Int.ofNat)).length →
      st.rle.getD k 0 = (rleOfI (v.map Int.ofNat)).getD k 0)
    (hpos : (rleOfI (v.map Int.ofNat)).length ≤ st.rlePos) :
    fusedGo (st.rlePos + 1) st.rle st.rlePos 0 [] 0 v.length ++
      List.replicate (v.length - (fusedGo (st.rlePos + 1) st.rle st.rlePos 0
        [] 0 v.length).length) 0 = v := by
  have hrg : rleGo v.length (dBytes 0 v) = rleOfI (v.map Int.ofNat) := by
    rw [rleOfI, rleEncode, deltaEncode_eq_dBytes, dBytes_length]
  have h := fused_replay v.length v 0 0 [] st.rle st.rlePos v.length
    (st.rlePos + 1) (le_refl _) hok
    (by
      intro k hk
      rw [hrg] at hk
      rw [hrg, Nat.zero_add]
      exact hagree k hk)
    (by rw [hrg]; omega)
    (by simp)
    (by rw [hrg]; omega)
  rw [h]
  simp

/-- Claim C2 (amended): the Huffman round trip reproduces the input for
byte sequences whose consecutive differences stay within `[-128, 127]` (so
the delta clamp of `deltaEncode` is the identity), whose delta+RLE stream
has at most `2·|seq|` symbols (the decoder caps decoding at
`expectedLength·2` symbols), whose canonical code lengths stay at most 16
bits (within the decoder's 24-bit refill window), and whose symbol alphabet
fits the one-byte count of the header.  The unrestricted claim is refuted
by `huffman_roundtrip_cex`. -/
theorem huffman_roundtrip_amended (v : List Nat)
    (h1 : deltaOkB 0 v = true)
    (h2 : (rleOfI (v.map Int.ofNat)).length ≤ 2 * v.length)
    (h3 : ∀ p ∈ clOf (v.map Int.ofNat), p.2 ≤ 16)
    (h4 : (clOf (v.map Int.ofNat)).length ≤ 255) :
    decodeHuffman (encodeHuffman (v.map Int.ofNat)) v.length = .ok v := by
  by_cases hv : v = []
  · subst hv
    rfl
  · obtain ⟨v0, vrest, hveq⟩ := List.exists_cons_of_ne_nil hv
    set data : List Int := v.map Int.ofNat with hdata
    -- the RLE stream and the code-length table are non-empty
    have hrle_ne : rleOfI data ≠ [] := by
      rw [rleOfI, hdata, rleEncode, deltaEncode_eq_dBytes, dBytes_length]
      simp only [hveq, dBytes, List.length_cons]
      exact rleGo_cons_ne_nil _ _ _
    obtain ⟨r0, rr, hrle⟩ := List.exists_cons_of_ne_nil hrle_ne
    have hr0mem : r0 ∈ rleOfI data := by
      rw [hrle]
      exact List.mem_cons_self _ _
    have hclne : clOf data ≠ [] := by
      intro hc
      have hmem := rle_mem_clOf data r0 hr0mem
      rw [hc] at hmem
      simp at hmem
    obtain ⟨q0, ctail, hcl0⟩ := List.exists_cons_of_ne_nil hclne
    obtain ⟨s0, l0⟩ := q0
    have hgood := goodCL_clOf data h3
    have hnd := hgood.2.1
    have habl := allBitsOf_length_bounds data h3 hnd
    have hcap : (headerOf data).length + (allBitsOf data).length / 8 <
        (1 + (clOf data).length * 2 + (rleOfI data).length) * 2 := by
      rw [headerOf_length]
      have hu := habl.2
      omega
    have hne : ¬ data.length = 0 := by
      rw [hdata, List.length_map, hveq]
      simp
    set P : List Nat := padBits (allBitsOf data) with hP
    have henc : encodeHuffman data = headerOf data ++ byteListOf P := by
      rw [encodeHuffman_shape data hne hcap, hP, byteListOf_padBits,
        List.append_assoc]
    have hblP : (byteListOf P).length = P.length / 8 := by
      rw [byteListOf]
      simp
    have hPlen : P.length = 8 * (((allBitsOf data).length + 7) / 8) := by
      rw [hP, padBits_length]
    have hPbits : ∀ b ∈ P, b ≤ 1 := by
      rw [hP]
      exact padBits_bits _ (allBitsOf_bits data)
    have henclen : (encodeHuffman data).length =
        (headerOf data).length + P.length / 8 := by
      rw [henc, List.length_append, hblP]
    have hbrctx : brCtx (encodeHuffman data) P (headerOf data).length := by
      refine ⟨by rw [henclen]; omega, by rw [henclen]; omega, hPbits, ?_⟩
      intro m hm
      rw [byteAt, henc, getD_append_right_off]
      exact byteListOf_getD P m (by rw [henclen] at hm; omega)
    -- the canonical assignment and its facts
    have hcseq : codesOf data = canonFrom 0 l0 (clOf data) := by
      show assignCodes (clOf data) = _
      rw [hcl0]
      exact assignCodes_eq_canonFrom s0 l0 ctail
    have hlensCl : ∀ q ∈ clOf data, 1 ≤ q.2 ∧ q.2 ≤ 16 := hgood.2.2.1
    have hl0cl : ∀ q ∈ clOf data, l0 ≤ q.2 := by
      intro q hq
      rw [hcl0] at hq
      rcases List.mem_cons.mp hq with heq | hmem
      · rw [heq]
      · have hpw := hgood.1
        rw [hcl0] at hpw
        have := (List.pairwise_cons.mp hpw).1 q hmem
        rcases this with h | ⟨h, _⟩ <;> omega
    have hcs_len : (codesOf data).length = (clOf data).length := by
      rw [hcseq, canonFrom_length]
    have hcs_pair : ∀ i, i < (codesOf data).length →
        ((((codesOf data).getD i (0, 0, 0)).1,
          ((codesOf data).getD i (0, 0, 0)).2.1) : Nat × Nat) =
          (clOf data).getD i (0, 0) := by
      intro i hi
      have hmg := map_getD (codesOf data) (fun t => (t.1, t.2.1)) i
        ((0 : Nat), (0 : Nat)) (0, 0, 0) hi
      rw [show (codesOf data).map (fun t => (t.1, t.2.1)) = clOf data from
        assignCodes_map (clOf data)] at hmg
      exact hmg.symm
    have hmemcl : ∀ t ∈ codesOf data, ((t.1, t.2.1) : Nat × Nat) ∈ clOf data := by
      intro t ht
      rw [← assignCodes_map (clOf data)]
      exact List.mem_map_of_mem _ ht
    have hlens_cs : ∀ t ∈ codesOf data, 1 ≤ t.2.1 ∧ t.2.1 ≤ 16 :=
      fun t ht => hlensCl _ (hmemcl t ht)
    have hl0_cs : ∀ t ∈ codesOf data, l0 ≤ t.2.1 :=
      fun t ht => hl0cl _ (hmemcl t ht)
    have hfits_cs : ∀ t ∈ codesOf data, t.2.2 < 2 ^ t.2.1 := by
      intro t ht
      rw [hcseq] at ht
      have := canonFrom_fits 16 (clOf data) 0 l0
        (by simpa using hgood.2.2.2)
        (fun q hq => ⟨hl0cl q hq, (hlensCl q hq).2⟩)
        (hgood.1.imp (by intro a b h; omega)) t ht
      omega
    have hdom_cs : (codesOf data).Pairwise canonDom := by
      rw [hcseq]
      exact canonFrom_pairwise _ 0 l0
        (canonSort_lens_sorted (buildCodeLengths (countFreqs (rleOfI data))))
    -- the per-symbol table index
    have hixex : ∀ u : Nat, ∃ i : Nat, u < (rleOfI data).length →
        i < (codesOf data).length ∧
          ((codesOf data).getD i (0, 0, 0)).1 = (rleOfI data).getD u 0 := by
      intro u
      by_cases hu : u < (rleOfI data).length
      · obtain ⟨i, hi, hieq⟩ := rle_sym_index data ((rleOfI data).getD u 0)
          (getD_mem _ u _ hu)
        exact ⟨i, fun _ => ⟨hi, hieq⟩⟩
      · exact ⟨0, fun h => absurd h hu⟩
    choose ix hix using hixex
    -- the bit positions of the symbols in the packed stream
    have hsucc : ∀ u, u < (rleOfI data).length →
        (((rleOfI data).take (u + 1)).flatMap (symBitsOf data)).length =
          (((rleOfI data).take u).flatMap (symBitsOf data)).length +
            ((codesOf data).getD (ix u) (0, 0, 0)).2.1 := by
      intro u hu
      rw [flatMap_take_succ _ _ u 0 hu, List.length_append]
      congr 1
      have h := symBitsOf_at_length data hnd (ix u) (hix u hu).1
      rw [(hix u hu).2] at h
      exact h
    have hbound : ∀ u, u ≤ (rleOfI data).length →
        (((rleOfI data).take u).flatMap (symBitsOf data)).length ≤ P.length := by
      intro u _
      have h := flatMap_take_le (rleOfI data) (symBitsOf data) u
      have he : (rleOfI data).flatMap (symBitsOf data) = allBitsOf data := rfl
      rw [he] at h
      omega
    have hstream : ∀ u, u < (rleOfI data).length →
        ∀ j, j < ((codesOf data).getD (ix u) (0, 0, 0)).2.1 →
        P.getD ((((rleOfI data).take u).flatMap (symBitsOf data)).length + j)
            0 =
          (codeBits ((codesOf data).getD (ix u) (0, 0, 0)).2.2
            ((codesOf data).getD (ix u) (0, 0, 0)).2.1).getD j 0 := by
      intro u hu j hj
      rw [hP, padBits_getD]
      have hlen := symBitsOf_at_length data hnd (ix u) (hix u hu).1
      rw [(hix u hu).2] at hlen
      have hflat := flatMap_getD_at (rleOfI data) (symBitsOf data) u 0 hu j
        (by omega)
      have hsb := symBitsOf_at data hnd (ix u) (hix u hu).1
      rw [(hix u hu).2] at hsb
      have he : allBitsOf data = (rleOfI data).flatMap (symBitsOf data) := rfl
      rw [he, hflat, hsb]
    -- unfold the decoder
    have h1f : ((encodeHuffman data).length = 0 ∨ v.length = 0) = False := by
      apply eq_false
      push_neg
      constructor
      · rw [henclen, headerOf_length]
        omega
      · rw [hveq]
        simp
    have hcount : byteAt (encodeHuffman data) 0 = (clOf data).length := by
      rw [byteAt, henc, headerOf]
      show (clOf data).length % 256 = (clOf data).length
      exact Nat.mod_eq_of_lt (by omega)
    have h2f : (byteAt (encodeHuffman data) 0 = 0) = False := by
      apply eq_false
      rw [hcount, hcl0]
      simp
    simp only [decodeHuffman, h1f, h2f, if_false]
    rw [hcount]
    have hread : (List.range (clOf data).length).map (fun i =>
        ((encodeHuffman data)[1 + 2 * i]?, (encodeHuffman data)[2 + 2 * i]?)) =
        (clOf data).map (fun p =>
          ((some p.1 : Option Nat), (some p.2 : Option Nat))) := by
      rw [henc]
      exact codeLens_readback data (byteListOf P)
    rw [hread]
    rw [decoder_sort_id (clOf data) hgood]
    rw [show ((((clOf data).map (fun p => ((some p.1 : Option Nat),
        (some p.2 : Option Nat)))).getD 0 (none, none)).2).map
        (Nat.cast : Nat → Int) = some ((l0 : Nat) : Int) from by
      rw [hcl0]; rfl]
    -- the length-count array
    have hlcarr := lenCounts_fold (clOf data)
      (fun p hp => by have := (hlensCl p hp).2; omega)
      (Array.mkArray 33 0) (by simp)
    have hmk : ∀ L' : Nat, (Array.mkArray 33 (0 : Nat)).getD L' 0 = 0 := by
      intro L'
      by_cases h : L' < 33
      · exact mkArray_getD 33 0 0 L' h
      · exact mkArray_getD_oob 33 0 0 L' h
    have hlc : ∀ L' : Nat,
        (((clOf data).map (fun p => ((some p.1 : Option Nat),
          (some p.2 : Option Nat)))).foldl (fun a e =>
            match e.2 with
            | some l => if l < 33 then a.setD l (a.getD l 0 + 1) else a
            | none => a) (Array.mkArray 33 0)).getD L' 0 =
          (clOf data).countP (fun p => decide (p.2 = L')) := by
      intro L'
      rw [hlcarr.2 L', hmk L', Nat.zero_add]
    have htabs := tablesOk_of_loop (clOf data) hgood s0 l0 ctail hcl0 _ hlc
      (((clOf data).map (fun p => ((some p.1 : Option Nat),
        (some p.2 : Option Nat)))).length + 1) (by simp)
    -- symbol array facts
    have hsymlen : (((clOf data).map (fun p => ((some p.1 : Option Nat),
        (some p.2 : Option Nat)))).map (fun e => e.1.getD 0)).length =
        (codesOf data).length := by
      rw [hcs_len]
      simp
    have hsymval : ∀ i, i < (codesOf data).length →
        (((clOf data).map (fun p => ((some p.1 : Option Nat),
          (some p.2 : Option Nat)))).map (fun e => e.1.getD 0)).getD i 0 =
          ((codesOf data).getD i (0, 0, 0)).1 := by
      intro i hi
      have hi2 : i < (clOf data).length := by omega
      rw [map_getD _ _ i 0 ((none : Option Nat), (none : Option Nat))
        (by simp [hi2])]
      rw [map_getD _ _ i ((none : Option Nat), (none : Option Nat))
        ((0 : Nat), (0 : Nat)) hi2]
      show ((clOf data).getD i (0, 0)).1 = ((codesOf data).getD i (0, 0, 0)).1
      rw [← hcs_pair i hi]
    -- run the decode loop over the packed symbols
    have hmain := outerGo_phase1 (encodeHuffman data) P
      (headerOf data).length hbrctx (codesOf data) _ _ _ _
      htabs hdom_cs hlens_cs hsymlen hsymval hfits_cs
      (rleOfI data) ix
      (fun u => (((rleOfI data).take u).flatMap (symBitsOf data)).length)
      hix hsucc hbound hstream l0 hl0_cs v.length h2
      (8 * (encodeHuffman data).length + 1) 0
      ⟨1 + 2 * (clOf data).length, 0, 0,
        Array.mkArray (v.length * 2) 0, 0⟩
      (by omega)
      (by
        have hlow := habl.1
        have hb := hbrctx.2.1
        omega)
      (by
        refine ⟨?_, ?_, ?_, ?_, ?_⟩
        · show (headerOf data).length ≤ 1 + 2 * (clOf data).length
          rw [headerOf_length]
        · show 1 + 2 * (clOf data).length ≤ (encodeHuffman data).length
          rw [henclen, headerOf_length]
          omega
        · show 8 * ((1 + 2 * (clOf data).length) - (headerOf data).length) =
            (((rleOfI data).take 0).flatMap (symBitsOf data)).length + 0
          rw [headerOf_length]
          simp
        · show (0 : Nat) ≤ 31
          omega
        · show (0 : Nat) % 2 ^ 0 = bitsVal ((P.drop
            ((((rleOfI data).take 0).flatMap (symBitsOf data)).length)).take 0)
          rfl)
      rfl
      (fun u hu => absurd hu (by omega))
      (by simp)
    obtain ⟨hpre, hpos⟩ := hmain
    exact congrArg Except.ok (fusedReplay_output v _ h1 hpre hpos)

/-- Witness for `huffman_roundtrip_amended` on the sequence `[1, 2, 3]`. -/
theorem huffman_roundtrip_amended_witness :
    deltaOkB 0 [1, 2, 3] = true ∧
    (rleOfI ([1, 2, 3].map Int.ofNat)).length ≤ 2 * [1, 2, 3].length ∧
    (∀ p ∈ clOf ([1, 2, 3].map Int.ofNat), p.2 ≤ 16) ∧
    (clOf ([1, 2, 3].map Int.ofNat)).length ≤ 255 ∧
    decodeHuffman (encodeHuffman ([1, 2, 3].map Int.ofNat)) [1, 2, 3].length =
      .ok [1, 2, 3] :=
  ⟨by decide, by decide, by decide, by decide,
    huffman_roundtrip_amended [1, 2, 3] (by decide) (by decide) (by decide)
      (by decide)⟩

end KMR
